import Mathlib

/-!
serialplot: ring buffer, ADC sample decoder and serial protocol

A shallow embedding of `src/RingBuffer.hpp` (the template class `RingBuffer<T>`) and, from
`src/serialplot.cpp`, of `convert_adc_sample`, `wait_for_synchronization`,
`read_serial_config` and `read_serial_loop`, followed by theorems about them.

Conventions of the embedding.

* `unsigned int` is the 32-bit unsigned type: a value is a natural number below `UINT_MOD`,
  and every `+` and `-` of the source on such values is `uadd` and `usub`, which reduce
  modulo `UINT_MOD`.
* An `int` local that receives an `unsigned int` is kept as its two's complement bit pattern;
  `toInt` gives the value of such a pattern.  Mixed `int`/`unsigned int` arithmetic and
  comparisons are carried out on `unsigned int` (the usual arithmetic conversions).
* A pointer argument is the memory reachable through it, a function from element index to
  element, together with an element offset where the source does pointer arithmetic.
* A call ends in `Except.ok` with its return value and the new state, or in `Except.error`
  with the undefined behaviour that was reached (an index outside the storage, `%` by zero,
  signed overflow, a member call through a null pointer, `delete` on an array of objects
  obtained from `new[]`).
  The recursion of `read` and `write` is bounded by a fuel argument that counts nested calls.
* The serial device is a script of the events still to come, with a log of the `read()`
  calls made; the member `should_run` is the list of the values that its successive polls
  see.
-/

namespace SerialPlot

/-- Number of values of the 32-bit type `unsigned int`. -/
def UINT_MOD : Nat := 2 ^ 32

/-- Addition of two `unsigned int` values. -/
def uadd (a b : Nat) : Nat := (a + b) % UINT_MOD

/-- Subtraction of two `unsigned int` values. -/
def usub (a b : Nat) : Nat := (a + UINT_MOD - b) % UINT_MOD

/-- Value of the `int` whose two's complement bit pattern is `x`. -/
def toInt (x : Nat) : Int :=
  if x < 2 ^ 31 then (x : Int) else (x : Int) - 2 ^ 32

/-- The ways in which an execution can fail to produce a result. -/
inductive Fault where
  | outOfFuel
  | outOfBounds
  | divByZero
  | signedOverflow
  | nullPointer
  | mismatchedDelete
  deriving DecidableEq, Repr

/-- The data members of `RingBuffer<T>`; `data` is the heap array allocated by the
constructor. -/
structure RingBuffer (α : Type) where
  data : List α
  readIdx : Nat
  writeIdx : Nat
  len : Nat
  last_writeIdx : Nat
  last_readIdx : Nat

namespace RingBuffer

variable {α : Type}

/-- The constructor `RingBuffer(len)`: `len` zeroed slots, all cursors and snapshots zero. -/
def construct [Zero α] (len : Nat) : RingBuffer α :=
  { data := List.replicate len 0
    readIdx := 0
    writeIdx := 0
    last_writeIdx := 0
    last_readIdx := 0
    len := len }

/-- The member `writable()`: number of samples writable to the buffer. -/
def writable (rb : RingBuffer α) : Nat :=
  let readIdx_adjusted := rb.readIdx
  let readIdx_adjusted :=
    if readIdx_adjusted ≤ rb.writeIdx then uadd readIdx_adjusted rb.len
    else readIdx_adjusted
  usub readIdx_adjusted rb.writeIdx

/-- The member `readable()`: number of samples readable from the buffer. -/
def readable (rb : RingBuffer α) : Nat :=
  let writeIdx_adjusted := rb.writeIdx
  let writeIdx_adjusted :=
    if writeIdx_adjusted < rb.readIdx then uadd writeIdx_adjusted rb.len
    else writeIdx_adjusted
  usub writeIdx_adjusted rb.readIdx

/-- The overload `writable(num_samples)`. -/
def writable_n (rb : RingBuffer α) (num_samples : Nat) : Bool :=
  decide (rb.writable > num_samples)

/-- The overload `readable(num_samples)`. -/
def readable_n (rb : RingBuffer α) (num_samples : Nat) : Bool :=
  decide (rb.readable > num_samples)

/-- The copy loop of `read`: for `i` from the given start, `todo` times,
`outputBuff[i] = data[readIdx + i]; data[readIdx + i] = 0`.  The output pointer is the
memory `out` at element offset `p`. -/
def read_loop [Zero α] (readIdx p : Nat) :
    Nat → Nat → List α → (Nat → α) → Except Fault (List α × (Nat → α))
  | 0, _, data, out => .ok (data, out)
  | todo + 1, i, data, out =>
    let j := uadd readIdx i
    if h : j < data.length then
      read_loop readIdx p todo (i + 1) (data.set j 0) (Function.update out (p + i) data[j])
    else .error .outOfBounds

/-- The member `read(num_samples, outputBuff)`.  The results of the two nested calls are
discarded, as in the source. -/
def read [Zero α] :
    Nat → RingBuffer α → Nat → (Nat → α) → Nat → Except Fault (Bool × RingBuffer α × (Nat → α))
  | 0, _, _, _, _ => .error .outOfFuel
  | fuel + 1, rb, num_samples, out, p =>
    if !rb.readable_n num_samples then .ok (false, rb, out)
    else if uadd rb.readIdx num_samples > rb.len then
      let first_batch := usub rb.len rb.readIdx
      match read fuel rb first_batch out p with
      | .error e => .error e
      | .ok (_, rb1, out1) =>
        match read fuel rb1 (usub num_samples first_batch) out1 (p + first_batch) with
        | .error e => .error e
        | .ok (_, rb2, out2) => .ok (true, rb2, out2)
    else
      match read_loop rb.readIdx p num_samples 0 rb.data out with
      | .error e => .error e
      | .ok (data, out1) =>
        if rb.len = 0 then .error .divByZero
        else
          .ok (true,
            { rb with data := data, readIdx := uadd rb.readIdx num_samples % rb.len },
            out1)

/-- The copy loop of `write`: for `i` from the given start, `todo` times,
`data[writeIdx + i] = inputBuff[i]`. -/
def write_loop (writeIdx : Nat) (inputBuff : Nat → α) :
    Nat → Nat → List α → Except Fault (List α)
  | 0, _, data => .ok data
  | todo + 1, i, data =>
    let j := uadd writeIdx i
    if j < data.length then
      write_loop writeIdx inputBuff todo (i + 1) (data.set j (inputBuff i))
    else .error .outOfBounds

/-- The member `write(num_samples, inputBuff)`.  The pointer `inputBuff + first_batch` of
the second nested call is the input memory shifted by `first_batch`. -/
def write :
    Nat → RingBuffer α → Nat → (Nat → α) → Except Fault (Bool × RingBuffer α)
  | 0, _, _, _ => .error .outOfFuel
  | fuel + 1, rb, num_samples, inputBuff =>
    if !rb.writable_n num_samples then .ok (false, rb)
    else if uadd rb.writeIdx num_samples > rb.len then
      let first_batch := usub rb.len rb.writeIdx
      match write fuel rb first_batch inputBuff with
      | .error e => .error e
      | .ok (_, rb1) =>
        match write fuel rb1 (usub num_samples first_batch)
            (fun i => inputBuff (first_batch + i)) with
        | .error e => .error e
        | .ok (_, rb2) => .ok (true, rb2)
    else
      match write_loop rb.writeIdx inputBuff num_samples 0 rb.data with
      | .error e => .error e
      | .ok data =>
        if rb.len = 0 then .error .divByZero
        else
          .ok (true,
            { rb with data := data, writeIdx := uadd rb.writeIdx num_samples % rb.len })

/-- The member `getAmountWritten()`; the `int` local `amnt` is kept as its bit pattern. -/
def getAmountWritten (rb : RingBuffer α) : Int × RingBuffer α :=
  let amnt := usub rb.last_writeIdx rb.writeIdx
  let amnt := if toInt amnt < 0 then uadd amnt rb.len else amnt
  (toInt amnt, { rb with last_writeIdx := rb.writeIdx })

/-- The member `getAmountRead()`; the `int` local `amnt` is kept as its bit pattern. -/
def getAmountRead (rb : RingBuffer α) : Int × RingBuffer α :=
  let amnt := usub rb.last_readIdx rb.readIdx
  let amnt := if toInt amnt < 0 then uadd amnt rb.len else amnt
  (toInt amnt, { rb with last_readIdx := rb.readIdx })

/-- A well-formed state: the storage has `len` slots, `len` is an `unsigned int` value and
both cursors are in `[0, len)`. -/
def WF (rb : RingBuffer α) : Prop :=
  rb.data.length = rb.len ∧ rb.len < UINT_MOD ∧ rb.readIdx < rb.len ∧ rb.writeIdx < rb.len

instance instDecidableWF (rb : RingBuffer α) : Decidable rb.WF := by
  unfold WF; infer_instance

/-- One call of a public member function, with its arguments. -/
inductive Call (α : Type) where
  | write (num_samples : Nat) (inputBuff : Nat → α)
  | read (num_samples : Nat) (outputBuff : Nat → α)
  | getAmountWritten
  | getAmountRead

/-- The state after one call; the return value and the output memory are dropped. -/
def call [Zero α] (fuel : Nat) (rb : RingBuffer α) : Call α → Except Fault (RingBuffer α)
  | .write n inputBuff =>
    match rb.write fuel n inputBuff with
    | .error e => .error e
    | .ok (_, rb1) => .ok rb1
  | .read n outputBuff =>
    match rb.read fuel n outputBuff 0 with
    | .error e => .error e
    | .ok (_, rb1, _) => .ok rb1
  | .getAmountWritten => .ok rb.getAmountWritten.2
  | .getAmountRead => .ok rb.getAmountRead.2

/-- The state after a sequence of calls, each given `fuel` nested calls. -/
def run [Zero α] (fuel : Nat) (rb : RingBuffer α) : List (Call α) → Except Fault (RingBuffer α)
  | [] => .ok rb
  | c :: cs =>
    match rb.call fuel c with
    | .error e => .error e
    | .ok rb1 => run fuel rb1 cs

/-- The invariant of a buffer of capacity `N`: the storage has `N` slots and both cursors
are in `[0, N)`, or are zero when `N` is zero. -/
def Inv (N : Nat) (rb : RingBuffer α) : Prop :=
  rb.len = N ∧ rb.data.length = N ∧ rb.readIdx < max N 1 ∧ rb.writeIdx < max N 1

/-- A buffer of capacity 6 holding `7, 8` in slots 2 and 3, with the write cursor at 4. -/
def sample_write_state : RingBuffer Int :=
  { data := [0, 0, 7, 8, 0, 0], readIdx := 2, writeIdx := 4, len := 6,
    last_writeIdx := 0, last_readIdx := 0 }

/-- A buffer of capacity 6 whose readable region `5, 6, 1, 2, 3` wraps around the end. -/
def sample_read_state : RingBuffer Int :=
  { data := [1, 2, 3, 4, 5, 6], readIdx := 4, writeIdx := 3, len := 6,
    last_writeIdx := 0, last_readIdx := 0 }

/-- The input memory `10, 11, 12, ...`. -/
def sample_input : Nat → Int := fun i => 10 + (i : Int)

/-- An output memory that holds zeros. -/
def sample_output : Nat → Int := fun _ => 0

/-- No write of the sequence, run from `rb`, is accepted: each `write(n, src)` meets a
state with `writable() <= n`. -/
def no_accepted_write [Zero α] (fuel : Nat) : RingBuffer α → List (Call α) → Prop
  | _, [] => True
  | rb, c :: cs =>
    (match c with
      | .write n _ => rb.writable ≤ n
      | _ => True) ∧
    (match rb.call fuel c with
      | .ok rb1 => no_accepted_write fuel rb1 cs
      | .error _ => True)

/-- No read of the sequence, run from `rb`, is accepted: each `read(n, dst)` meets a state
with `readable() <= n`. -/
def no_accepted_read [Zero α] (fuel : Nat) : RingBuffer α → List (Call α) → Prop
  | _, [] => True
  | rb, c :: cs =>
    (match c with
      | .read n _ => rb.readable ≤ n
      | _ => True) ∧
    (match rb.call fuel c with
      | .ok rb1 => no_accepted_read fuel rb1 cs
      | .error _ => True)

/-- A buffer together with the history of the calls made on it: the elements handed to the
accepted writes and the elements returned by the accepted reads, oldest first. -/
structure History (α : Type) where
  rb : RingBuffer α
  written : List α
  consumed : List α

/-- One call, recorded in the history: an accepted `write(n, inputBuff)` adds
`inputBuff[0..n)` to `written`, an accepted `read(n, outputBuff)` adds what it stored in
`outputBuff[0..n)` to `consumed`. -/
def record [Zero α] (fuel : Nat) (h : History α) : Call α → Except Fault (History α)
  | .write n inputBuff =>
    match h.rb.write fuel n inputBuff with
    | .error e => .error e
    | .ok (true, rb1) => .ok ⟨rb1, h.written ++ (List.range n).map inputBuff, h.consumed⟩
    | .ok (false, rb1) => .ok ⟨rb1, h.written, h.consumed⟩
  | .read n outputBuff =>
    match h.rb.read fuel n outputBuff 0 with
    | .error e => .error e
    | .ok (true, rb1, out1) => .ok ⟨rb1, h.written, h.consumed ++ (List.range n).map out1⟩
    | .ok (false, rb1, _) => .ok ⟨rb1, h.written, h.consumed⟩
  | .getAmountWritten => .ok ⟨h.rb.getAmountWritten.2, h.written, h.consumed⟩
  | .getAmountRead => .ok ⟨h.rb.getAmountRead.2, h.written, h.consumed⟩

/-- A sequence of calls, recorded in the history. -/
def run_history [Zero α] (fuel : Nat) (h : History α) :
    List (Call α) → Except Fault (History α)
  | [] => .ok h
  | c :: cs =>
    match record fuel h c with
    | .error e => .error e
    | .ok h1 => run_history fuel h1 cs

/-- The elements that are stored and not yet read: the `readable()` slots from the read
cursor on, in cursor order. -/
def pending [Zero α] (rb : RingBuffer α) : List α :=
  (List.range rb.readable).map fun i => rb.data.getD ((rb.readIdx + i) % rb.len) 0

/-- Whether the call is a `getAmountWritten()`. -/
def Call.is_getAmountWritten : Call α → Bool
  | .getAmountWritten => true
  | _ => false

/-- Whether the call is a `getAmountRead()`. -/
def Call.is_getAmountRead : Call α → Bool
  | .getAmountRead => true
  | _ => false

end RingBuffer

/-! ## The sample decoder -/

/-- The implementation-defined properties of the C++ platform that `convert_adc_sample`
depends on: whether plain `char` is signed, the byte order, and `sizeof(long)` (4 or 8).
`short` has 16 bits. -/
structure Platform where
  char_signed : Bool
  big_endian : Bool
  long_bytes : Nat

/-- The unsigned value of an object whose bytes, in memory order, are `bytes`. -/
def object_value (p : Platform) (bytes : List Nat) : Nat :=
  (if p.big_endian then bytes else bytes.reverse).foldl (fun acc b => acc * 256 + b % 256) 0

/-- The value of the two's complement pattern `x` in a signed type of `bits` bits. -/
def signed_value (bits x : Nat) : Int :=
  if x < 2 ^ (bits - 1) then (x : Int) else (x : Int) - 2 ^ bits

/-- Reading an object of `size` bytes through the pointer `data`, whose target holds the
bytes `data`. -/
def load (p : Platform) (data : List Nat) (size : Nat) : Except Fault Nat :=
  if size ≤ data.length then .ok (object_value p (data.take size)) else .error .outOfBounds

/-- The function `convert_adc_sample(data, width)`.  The result is the exact quotient of the
integer numerator by the power of two; the rounding of the conversion to `float` is left
out.  The literal `2147483648` does not fit `int`, so the subtraction of the case `4` is
carried out in a 64-bit signed type. -/
def convert_adc_sample (p : Platform) (data : List Nat) (width : Nat) : Except Fault ℚ :=
  match width with
  | 1 =>
    match load p data 1 with
    | .error e => .error e
    | .ok c =>
      let v : Int := if p.char_signed then signed_value 8 c else (c : Int)
      .ok (((v - 128 : Int) : ℚ) / 256)
  | 2 =>
    match load p data 2 with
    | .error e => .error e
    | .ok s =>
      let v : Int := signed_value 16 s
      .ok (((v - 32768 : Int) : ℚ) / 65536)
  | 4 =>
    match load p data p.long_bytes with
    | .error e => .error e
    | .ok l =>
      let v : Int := signed_value (8 * p.long_bytes) l
      if v - 2147483648 < -(2 : Int) ^ 63 then .error .signedOverflow
      else .ok (((v - 2147483648 : Int) : ℚ) / 4294967296)
  | _ => .ok 0

/-- The two bytes, in the memory order of the platform, of the 16-bit pattern `v`. -/
def encode16 (p : Platform) (v : Nat) : List Nat :=
  if p.big_endian then [v / 256, v % 256] else [v % 256, v / 256]

/-! ## The serial protocol

The acquisition thread talks to the device through `read(TTY, buf, len)` and polls the
member `should_run`.  The device is a script of future events, the flag a list of the
values that the successive polls will see (false once the list is used up, so every loop
ends).  Bytes are natural numbers in `0..255`. -/

/-- One future event of the transport: the next `read()` fails, or finds the bytes of the
chunk available. -/
inductive Event where
  | error
  | chunk (bytes : List Nat)

/-- The serial device: the events still to come, the log of the `read()` calls made so far
(bytes requested, value returned), oldest first, and the bytes sent to the device. -/
structure Tty where
  script : List Event
  reads : List (Nat × Int)
  sent : List Nat

/-- The call `read(TTY, buf, len)`: its return value, the bytes it stored at the start of
`buf`, and the device afterwards.  A read of zero bytes returns 0 and has no other effect;
a failing read returns -1; otherwise the call returns what the first chunk holds, at most
`len` bytes (fewer than `len` is a short read), and leaves the rest of the chunk. -/
def tty_read (tty : Tty) (len : Nat) : Int × List Nat × Tty :=
  if len = 0 then (0, [], { tty with reads := tty.reads ++ [(0, 0)] })
  else
    match tty.script with
    | [] => (-1, [], { tty with reads := tty.reads ++ [(len, -1)] })
    | .error :: rest => (-1, [], { tty with script := rest, reads := tty.reads ++ [(len, -1)] })
    | .chunk bs :: rest =>
      if bs.length ≤ len then
        ((bs.length : Int), bs,
          { tty with script := rest, reads := tty.reads ++ [(len, (bs.length : Int))] })
      else
        ((len : Int), bs.take len,
          { tty with script := .chunk (bs.drop len) :: rest,
                     reads := tty.reads ++ [(len, (len : Int))] })

/-- The loop of `wait_for_synchronization`, from the values of `x0 .. x3` on. -/
def wait_for_synchronization_loop :
    List Bool → Nat → Nat → Nat → Nat → Tty → Bool × List Bool × Tty
  | [], _, _, _, _, tty => (false, [], tty)
  | false :: flags, _, _, _, _, tty => (false, flags, tty)
  | true :: flags, x0, x1, x2, _, tty =>
    let x3 := x2
    let x2 := x1
    let x1 := x0
    match tty_read tty 1 with
    | (ret, bytes, tty1) =>
      if ret ≠ 1 then (false, flags, tty1)
      else
        let x0 := bytes.headD 0
        if x0 = 0xba ∧ x1 = 0xad ∧ x2 = 0xf0 ∧ x3 = 0x0d then (true, flags, tty1)
        else wait_for_synchronization_loop flags x0 x1 x2 x3 tty1

/-- The member `wait_for_synchronization()`: its result, the polls of `should_run` still to
come, and the device afterwards. -/
def wait_for_synchronization (flags : List Bool) (tty : Tty) : Bool × List Bool × Tty :=
  wait_for_synchronization_loop flags 0 0 0 0 tty

/-- The macro `read_or_die(tty, buff, len)`: the bytes read, or `none` where the macro makes
the function return `NULL`. -/
def read_or_die (tty : Tty) (len : Nat) : Option (List Nat) × Tty :=
  match tty_read tty len with
  | (ret, bytes, tty1) => if ret ≠ (len : Int) then (none, tty1) else (some bytes, tty1)

/-- The struct `SerialConfig`; a title is the byte sequence of the `std::string`. -/
structure SerialConfig where
  numChannels : Nat
  channelWidths : List Nat
  channelTitles : List (List Nat)

/-- The first loop of `read_serial_config`: `todo` more channel widths. -/
def read_widths : Nat → Tty → List Nat → Option (List Nat) × Tty
  | 0, tty, widths => (some widths, tty)
  | todo + 1, tty, widths =>
    match read_or_die tty 1 with
    | (none, tty1) => (none, tty1)
    | (some bytes, tty1) => read_widths todo tty1 (widths ++ [bytes.headD 0])

/-- The assignment `channelTitles[i] = temp`, from a `char *` to a `std::string`: the bytes
of the array `temp` up to its first zero byte.  Without a zero byte in the array the
assignment reads past its end. -/
def c_string (temp : List Nat) : Except Fault (List Nat) :=
  if 0 ∈ temp then .ok (temp.takeWhile (fun b => b ≠ 0)) else .error .outOfBounds

/-- The second loop of `read_serial_config`: `todo` more channel titles. -/
def read_titles : Nat → Tty → List (List Nat) → Except Fault (Option (List (List Nat)) × Tty)
  | 0, tty, titles => .ok (some titles, tty)
  | todo + 1, tty, titles =>
    match read_or_die tty 1 with
    | (none, tty1) => .ok (none, tty1)
    | (some bytes, tty1) =>
      let len := bytes.headD 0
      match read_or_die tty1 len with
      | (none, tty2) => .ok (none, tty2)
      | (some temp, tty2) =>
        match c_string temp with
        | .error e => .error e
        | .ok title => read_titles todo tty2 (titles ++ [title])

/-- The member `read_serial_config()`: the configuration, or `none` for `NULL`. -/
def read_serial_config (flags : List Bool) (tty : Tty) :
    Except Fault (Option SerialConfig × List Bool × Tty) :=
  let tty0 : Tty := { tty with sent := tty.sent ++ [0xff] }
  match wait_for_synchronization flags tty0 with
  | (false, flags1, tty1) => .ok (none, flags1, tty1)
  | (true, flags1, tty1) =>
    match read_or_die tty1 1 with
    | (none, tty2) => .ok (none, flags1, tty2)
    | (some bytes, tty2) =>
      let numChannels := bytes.headD 0
      match read_widths numChannels tty2 [] with
      | (none, tty3) => .ok (none, flags1, tty3)
      | (some widths, tty3) =>
        match read_titles numChannels tty3 [] with
        | .error e => .error e
        | .ok (none, tty4) => .ok (none, flags1, tty4)
        | .ok (some titles, tty4) =>
          .ok (some { numChannels := numChannels, channelWidths := widths,
                      channelTitles := titles }, flags1, tty4)

/-- The `for` loop of `read_serial_loop`, one frame: `todo` more channels from `channelIdx`
on, with the content of `char data[4]`; `forwarded` lists the samples pushed so far, each
with the title of its sink.  A failed or short read leaves the `for` loop (`break`). -/
def decode_frame (p : Platform) (config : SerialConfig) :
    Nat → Nat → List Nat → Tty → List (List Nat × ℚ) →
      Except Fault (Tty × List (List Nat × ℚ))
  | 0, _, _, tty, forwarded => .ok (tty, forwarded)
  | todo + 1, channelIdx, data, tty, forwarded =>
    match config.channelWidths[channelIdx]? with
    | none => .error .outOfBounds
    | some width =>
      match tty_read tty width with
      | (ret, bytes, tty1) =>
        if 4 < bytes.length then .error .outOfBounds
        else
          let data1 := bytes ++ data.drop bytes.length
          if ret ≠ (width : Int) then .ok (tty1, forwarded)
          else
            match convert_adc_sample p data1 width with
            | .error e => .error e
            | .ok sample =>
              match config.channelTitles[channelIdx]? with
              | none => .error .outOfBounds
              | some title =>
                decode_frame p config todo (channelIdx + 1) data1 tty1
                  (forwarded ++ [(title, sample)])

/-- The `while( this->should_run )` loop of `read_serial_loop`.  The array `data` starts
every frame with an indeterminate content, taken as zeros: no sample depends on it. -/
def decode_loop (p : Platform) (config : SerialConfig) :
    List Bool → Tty → List (List Nat × ℚ) →
      Except Fault (List Bool × Tty × List (List Nat × ℚ))
  | [], tty, forwarded => .ok ([], tty, forwarded)
  | false :: flags, tty, forwarded => .ok (flags, tty, forwarded)
  | true :: flags, tty, forwarded =>
    match decode_frame p config config.numChannels 0 [0, 0, 0, 0] tty forwarded with
    | .error e => .error e
    | .ok (tty1, forwarded1) => decode_loop p config flags tty1 forwarded1

/-- The first `for` loop of `read_serial_loop`, which fills the new map `lines`: `todo` more
channels from channel `i` on.  The argument `old` holds the keys of the map that the member
`this->lines` points to, `none` for a null pointer, and `keys` the keys of the new map.
Every iteration calls `this->lines->find(title)` through the member, and both branches of
its `if` enter `title` in the new map. -/
def setup_lines (config : SerialConfig) (old : Option (List (List Nat))) :
    Nat → Nat → List (List Nat) → Except Fault (List (List Nat))
  | 0, _, keys => .ok keys
  | todo + 1, i, keys =>
    match config.channelTitles[i]? with
    | none => .error .outOfBounds
    | some title =>
      match old with
      | none => .error .nullPointer
      | some _ =>
        setup_lines config old todo (i + 1) (if title ∈ keys then keys else keys ++ [title])

/-- The member `read_serial_loop()`, entered with the member `this->lines` as `lines` (the
keys of the map, `none` for `NULL`; the constructor and the end of this function set it to
`NULL`).  Without a configuration it returns at once: the result holds the polls still to
come, the device, and the samples forwarded, none.  With a configuration it fills the new
map, which becomes `this->lines`, runs the decode loop, whose sinks `(*this->lines)[title]`
are entries of that map, and then executes `delete config->channelTitles` on the array of
`std::string` that `read_serial_config` obtained from `new[]`, which is undefined; so it
has no defined return on this path.  The same mismatch on arrays of `char` (`temp` in
`read_serial_config`, `channelWidths` here) has no effect on any value and is left out. -/
def read_serial_loop (p : Platform) (lines : Option (List (List Nat))) (flags : List Bool)
    (tty : Tty) : Except Fault (List Bool × Tty × List (List Nat × ℚ)) :=
  match read_serial_config flags tty with
  | .error e => .error e
  | .ok (none, flags1, tty1) => .ok (flags1, tty1, [])
  | .ok (some config, flags1, tty1) =>
    match setup_lines config lines config.numChannels 0 [] with
    | .error e => .error e
    | .ok _ =>
      match decode_loop p config flags1 tty1 [] with
      | .error e => .error e
      | .ok _ => .error .mismatchedDelete

/-- The synchronization marker, oldest byte first. -/
def sync_marker : List Nat := [0x0d, 0xf0, 0xad, 0xba]

/-- The bytes that successive one-byte reads obtain before the first read that fails. -/
def deliverable : List Event → List Nat
  | [] => []
  | .error :: _ => []
  | .chunk [] :: _ => []
  | .chunk (b :: bs) :: rest => (b :: bs) ++ deliverable rest

/-- Every read of the log returned as many bytes as it asked for. -/
def all_complete (log : List (Nat × Int)) : Prop := ∀ e ∈ log, e.2 = (e.1 : Int)

/-- Some read of the log failed or was short. -/
def some_incomplete (log : List (Nat × Int)) : Prop := ∃ e ∈ log, e.2 ≠ (e.1 : Int)

/-! ## Arithmetic of `unsigned int` -/

theorem uadd_eq {a b : Nat} (h : a + b < UINT_MOD) : uadd a b = a + b :=
  Nat.mod_eq_of_lt h

theorem usub_eq {a b : Nat} (hb : b ≤ a) (ha : a < UINT_MOD) : usub a b = a - b := by
  unfold usub
  have h : a + UINT_MOD - b = (a - b) + UINT_MOD := by omega
  rw [h, Nat.add_mod_right]
  exact Nat.mod_eq_of_lt (by omega)

theorem uadd_lt (a b : Nat) : uadd a b < UINT_MOD :=
  Nat.mod_lt _ (by decide)

theorem usub_lt (a b : Nat) : usub a b < UINT_MOD :=
  Nat.mod_lt _ (by decide)

theorem usub_self (a : Nat) : usub a a = 0 := by
  unfold usub
  rw [Nat.add_sub_cancel_left, Nat.mod_self]

namespace RingBuffer

variable {α : Type}

/-! ## The counts, the copy loops and the two branches of `write` and `read` -/

theorem writable_eq (rb : RingBuffer α) (h : rb.WF) :
    rb.writable = if rb.readIdx ≤ rb.writeIdx then rb.readIdx + rb.len - rb.writeIdx
      else rb.readIdx - rb.writeIdx := by
  obtain ⟨_, h2, h3, h4⟩ := h
  simp only [writable, uadd, usub, UINT_MOD] at *
  split <;> omega

theorem readable_eq (rb : RingBuffer α) (h : rb.WF) :
    rb.readable = if rb.writeIdx < rb.readIdx then rb.writeIdx + rb.len - rb.readIdx
      else rb.writeIdx - rb.readIdx := by
  obtain ⟨_, h2, h3, h4⟩ := h
  simp only [readable, uadd, usub, UINT_MOD] at *
  split <;> omega

theorem writable_le_len (rb : RingBuffer α) (h : rb.WF) : rb.writable ≤ rb.len := by
  rw [writable_eq rb h]
  obtain ⟨_, _, h3, h4⟩ := h
  split <;> omega

theorem readable_lt_len (rb : RingBuffer α) (h : rb.WF) : rb.readable < rb.len := by
  rw [readable_eq rb h]
  obtain ⟨_, _, h3, h4⟩ := h
  split <;> omega

theorem write_loop_length (w : Nat) (src : Nat → α) :
    ∀ (todo i : Nat) (data data1 : List α),
      write_loop w src todo i data = .ok data1 → data1.length = data.length := by
  intro todo
  induction todo with
  | zero =>
    intro i data data1 h
    simp only [write_loop, Except.ok.injEq] at h
    rw [← h]
  | succ todo ih =>
    intro i data data1 h
    simp only [write_loop] at h
    split at h
    · have := ih _ _ _ h
      simpa using this
    · cases h

theorem write_loop_ok (w : Nat) (src : Nat → α) :
    ∀ (todo i : Nat) (data : List α), w + i + todo ≤ data.length → data.length ≤ UINT_MOD →
      ∃ data1, write_loop w src todo i data = .ok data1 ∧ data1.length = data.length ∧
        ∀ k, data1[k]? = if w + i ≤ k ∧ k < w + i + todo then some (src (k - w)) else data[k]? := by
  intro todo
  induction todo with
  | zero =>
    intro i data _ _
    refine ⟨data, rfl, rfl, ?_⟩
    intro k
    rw [if_neg (by omega)]
  | succ todo ih =>
    intro i data h1 h2
    have hj : uadd w i = w + i := uadd_eq (by omega)
    have hlt : w + i < data.length := by omega
    obtain ⟨data1, e1, l1, p1⟩ := ih (i + 1) (data.set (w + i) (src i))
      (by rw [List.length_set]; omega) (by rw [List.length_set]; exact h2)
    refine ⟨data1, ?_, ?_, ?_⟩
    · simp only [write_loop, hj, hlt, if_true]
      exact e1
    · rw [l1, List.length_set]
    · intro k
      rw [p1 k, List.getElem?_set]
      by_cases hk : w + i = k
      · subst hk
        simp [hlt]
      · simp only [hk, if_false]
        by_cases hk2 : w + i ≤ k ∧ k < w + i + (todo + 1)
        · rw [if_pos hk2, if_pos (by omega)]
        · rw [if_neg hk2, if_neg (by omega)]

theorem write_reject (fuel : Nat) (rb : RingBuffer α) (n : Nat) (src : Nat → α)
    (h : rb.writable ≤ n) : rb.write (fuel + 1) n src = .ok (false, rb) := by
  have hwn : rb.writable_n n = false := by
    simp only [writable_n, decide_eq_false_iff_not]; omega
  rw [write]
  simp only [hwn]
  rfl

theorem write_direct_eq (fuel : Nat) (rb : RingBuffer α) (n : Nat) (src : Nat → α)
    (data : List α) (h : n < rb.writable) (hle : uadd rb.writeIdx n ≤ rb.len)
    (hloop : write_loop rb.writeIdx src n 0 rb.data = .ok data) (hlen : rb.len ≠ 0) :
    rb.write (fuel + 1) n src
      = .ok (true, { rb with data := data, writeIdx := uadd rb.writeIdx n % rb.len }) := by
  have hwn : rb.writable_n n = true := by
    simp only [writable_n, decide_eq_true_eq]; omega
  have hng : ¬ (uadd rb.writeIdx n > rb.len) := by omega
  rw [write]
  simp only [hwn, hloop, hlen, hng]
  rfl

theorem write_wrap_eq (fuel : Nat) (rb rb1 rb2 : RingBuffer α) (n : Nat) (src : Nat → α)
    (b1 b2 : Bool) (h : n < rb.writable) (hgt : uadd rb.writeIdx n > rb.len)
    (e1 : rb.write fuel (usub rb.len rb.writeIdx) src = .ok (b1, rb1))
    (e2 : rb1.write fuel (usub n (usub rb.len rb.writeIdx))
      (fun i => src (usub rb.len rb.writeIdx + i)) = .ok (b2, rb2)) :
    rb.write (fuel + 1) n src = .ok (true, rb2) := by
  have hwn : rb.writable_n n = true := by
    simp only [writable_n, decide_eq_true_eq]; omega
  rw [write]
  simp only [hwn, hgt, e1, e2]
  rfl

theorem write_nowrap (rb : RingBuffer α) (n : Nat) (src : Nat → α) (h : rb.WF)
    (hn : n < rb.writable) (hle : rb.writeIdx + n ≤ rb.len) :
    ∃ data1, (∀ fuel, rb.write (fuel + 1) n src
        = .ok (true, { rb with data := data1, writeIdx := (rb.writeIdx + n) % rb.len })) ∧
      data1.length = rb.len ∧
      ∀ k, data1[k]? = if rb.writeIdx ≤ k ∧ k < rb.writeIdx + n then some (src (k - rb.writeIdx))
        else rb.data[k]? := by
  obtain ⟨h1, h2, h3, h4⟩ := h
  have hM : uadd rb.writeIdx n = rb.writeIdx + n := uadd_eq (by omega)
  obtain ⟨data1, e1, l1, p1⟩ := write_loop_ok rb.writeIdx src n 0 rb.data (by omega) (by omega)
  refine ⟨data1, ?_, by omega, ?_⟩
  · intro fuel
    have := write_direct_eq fuel rb n src data1 hn (by omega) e1 (by omega)
    rw [hM] at this
    exact this
  · intro k
    simpa using p1 k

theorem write_wrap (rb : RingBuffer α) (n : Nat) (src : Nat → α) (h : rb.WF)
    (hn : n < rb.writable) (hgt : rb.len < rb.writeIdx + n) (hov : rb.writeIdx + n < UINT_MOD) :
    ∃ d1 d2,
      (∀ fuel, rb.write (fuel + 1) (rb.len - rb.writeIdx) src
        = .ok (true, { rb with data := d1, writeIdx := 0 })) ∧
      (∀ fuel, ({ rb with data := d1, writeIdx := 0 } : RingBuffer α).write (fuel + 1)
          (rb.writeIdx + n - rb.len) (fun i => src (rb.len - rb.writeIdx + i))
        = .ok (true, { rb with data := d2, writeIdx := rb.writeIdx + n - rb.len })) ∧
      (∀ fuel, rb.write (fuel + 2) n src
        = .ok (true, { rb with data := d2, writeIdx := rb.writeIdx + n - rb.len })) ∧
      d2.length = rb.len ∧
      ∀ k, d2[k]? =
        if k < rb.writeIdx + n - rb.len then some (src (rb.len - rb.writeIdx + k))
        else if rb.writeIdx ≤ k ∧ k < rb.len then some (src (k - rb.writeIdx))
        else rb.data[k]? := by
  have hw := writable_eq rb h
  obtain ⟨h1, h2, h3, h4⟩ := h
  have hrw : rb.readIdx ≤ rb.writeIdx := by
    by_contra hc
    rw [if_neg hc] at hw
    omega
  rw [if_pos hrw] at hw
  -- first nested call
  obtain ⟨d1, e1, l1, p1⟩ := write_nowrap rb (rb.len - rb.writeIdx) src ⟨h1, h2, h3, h4⟩
    (by omega) (by omega)
  have hwl : rb.writeIdx + (rb.len - rb.writeIdx) = rb.len := by omega
  rw [hwl, Nat.mod_self] at e1
  rw [hwl] at p1
  -- second nested call
  have hwf1 : ({ rb with data := d1, writeIdx := 0 } : RingBuffer α).WF :=
    ⟨l1, h2, h3, by show 0 < rb.len; omega⟩
  have hw1 := writable_eq _ hwf1
  simp only at hw1
  rw [if_neg (by omega)] at hw1
  obtain ⟨d2, e2, l2, p2⟩ := write_nowrap ({ rb with data := d1, writeIdx := 0 })
    (rb.writeIdx + n - rb.len) (fun i => src (rb.len - rb.writeIdx + i)) hwf1
    (by rw [hw1]; omega) (by simp only; omega)
  simp only at e2 l2 p2
  have hz2 : (0 + (rb.writeIdx + n - rb.len)) % rb.len = rb.writeIdx + n - rb.len := by
    rw [Nat.zero_add]
    exact Nat.mod_eq_of_lt (by omega)
  rw [hz2] at e2
  refine ⟨d1, d2, e1, e2, ?_, l2, ?_⟩
  · intro fuel
    have hM : uadd rb.writeIdx n = rb.writeIdx + n := uadd_eq hov
    have hf : usub rb.len rb.writeIdx = rb.len - rb.writeIdx := usub_eq (by omega) h2
    have hs : usub n (rb.len - rb.writeIdx) = rb.writeIdx + n - rb.len := by
      rw [usub_eq (by omega) (by omega)]; omega
    refine write_wrap_eq (fuel + 1) rb { rb with data := d1, writeIdx := 0 } _ n src true true
      hn (by omega) ?_ ?_
    · rw [hf]; exact e1 fuel
    · rw [hf, hs]; exact e2 fuel
  · intro k
    rw [p2 k, p1 k]
    by_cases hk : k < rb.writeIdx + n - rb.len
    · rw [if_pos (by omega), if_pos hk]
      simp
    · rw [if_neg (by omega), if_neg hk]

theorem read_loop_length [Zero α] (r p : Nat) :
    ∀ (todo i : Nat) (data data1 : List α) (out out1 : Nat → α),
      read_loop r p todo i data out = .ok (data1, out1) → data1.length = data.length := by
  intro todo
  induction todo with
  | zero =>
    intro i data data1 out out1 h
    simp only [read_loop, Except.ok.injEq, Prod.mk.injEq] at h
    rw [← h.1]
  | succ todo ih =>
    intro i data data1 out out1 h
    simp only [read_loop] at h
    split at h
    · have := ih _ _ _ _ _ h
      simpa using this
    · cases h

theorem read_loop_ok [Zero α] (r p : Nat) :
    ∀ (todo i : Nat) (data : List α) (out : Nat → α),
      r + i + todo ≤ data.length → data.length ≤ UINT_MOD →
      ∃ data1 out1, read_loop r p todo i data out = .ok (data1, out1) ∧
        data1.length = data.length ∧
        (∀ k, data1[k]? = if r + i ≤ k ∧ k < r + i + todo then some 0 else data[k]?) ∧
        (∀ m, p + i ≤ m → m < p + i + todo → some (out1 m) = data[r + (m - p)]?) ∧
        (∀ m, ¬ (p + i ≤ m ∧ m < p + i + todo) → out1 m = out m) := by
  intro todo
  induction todo with
  | zero =>
    intro i data out _ _
    refine ⟨data, out, rfl, rfl, ?_, ?_, ?_⟩
    · intro k
      rw [if_neg (by omega)]
    · intro m h1 h2
      omega
    · intro m _
      rfl
  | succ todo ih =>
    intro i data out h1 h2
    have hj : uadd r i = r + i := uadd_eq (by omega)
    have hlt : r + i < data.length := by omega
    obtain ⟨data1, out1, e1, l1, p1, q1, q2⟩ := ih (i + 1) (data.set (r + i) 0)
      (Function.update out (p + i) data[r + i])
      (by rw [List.length_set]; omega) (by rw [List.length_set]; exact h2)
    refine ⟨data1, out1, ?_, ?_, ?_, ?_, ?_⟩
    · simp only [read_loop, hj, hlt, dite_true]
      exact e1
    · rw [l1, List.length_set]
    · intro k
      rw [p1 k, List.getElem?_set]
      by_cases hk : r + i = k
      · subst hk
        simp [hlt]
      · simp only [hk, if_false]
        by_cases hk2 : r + i ≤ k ∧ k < r + i + (todo + 1)
        · rw [if_pos hk2, if_pos (by omega)]
        · rw [if_neg hk2, if_neg (by omega)]
    · intro m hm1 hm2
      by_cases hm : m = p + i
      · subst hm
        rw [q2 (p + i) (by omega), Function.update_same]
        have : r + (p + i - p) = r + i := by omega
        rw [this, List.getElem?_eq_getElem hlt]
      · rw [q1 m (by omega) (by omega), List.getElem?_set_ne (by omega)]
    · intro m hm
      rw [q2 m (by omega), Function.update_noteq (by omega)]

theorem read_reject [Zero α] (fuel : Nat) (rb : RingBuffer α) (n : Nat) (out : Nat → α)
    (p : Nat) (h : rb.readable ≤ n) : rb.read (fuel + 1) n out p = .ok (false, rb, out) := by
  have hwn : rb.readable_n n = false := by
    simp only [readable_n, decide_eq_false_iff_not]; omega
  rw [read]
  simp only [hwn]
  rfl

theorem read_direct_eq [Zero α] (fuel : Nat) (rb : RingBuffer α) (n : Nat) (out : Nat → α)
    (p : Nat) (data : List α) (out1 : Nat → α) (h : n < rb.readable)
    (hle : uadd rb.readIdx n ≤ rb.len)
    (hloop : read_loop rb.readIdx p n 0 rb.data out = .ok (data, out1)) (hlen : rb.len ≠ 0) :
    rb.read (fuel + 1) n out p
      = .ok (true, { rb with data := data, readIdx := uadd rb.readIdx n % rb.len }, out1) := by
  have hwn : rb.readable_n n = true := by
    simp only [readable_n, decide_eq_true_eq]; omega
  have hng : ¬ (uadd rb.readIdx n > rb.len) := by omega
  rw [read]
  simp only [hwn, hloop, hlen, hng]
  rfl

theorem read_wrap_eq [Zero α] (fuel : Nat) (rb rb1 rb2 : RingBuffer α) (n : Nat)
    (out out1 out2 : Nat → α) (p : Nat) (b1 b2 : Bool) (h : n < rb.readable)
    (hgt : uadd rb.readIdx n > rb.len)
    (e1 : rb.read fuel (usub rb.len rb.readIdx) out p = .ok (b1, rb1, out1))
    (e2 : rb1.read fuel (usub n (usub rb.len rb.readIdx)) out1 (p + usub rb.len rb.readIdx)
      = .ok (b2, rb2, out2)) :
    rb.read (fuel + 1) n out p = .ok (true, rb2, out2) := by
  have hwn : rb.readable_n n = true := by
    simp only [readable_n, decide_eq_true_eq]; omega
  rw [read]
  simp only [hwn, hgt, e1, e2]
  rfl

theorem read_nowrap [Zero α] (rb : RingBuffer α) (n : Nat) (out : Nat → α)
    (p : Nat) (h : rb.WF) (hn : n < rb.readable) (hle : rb.readIdx + n ≤ rb.len) :
    ∃ data1 out1, (∀ fuel, rb.read (fuel + 1) n out p
        = .ok (true, { rb with data := data1, readIdx := (rb.readIdx + n) % rb.len }, out1)) ∧
      data1.length = rb.len ∧
      (∀ k, data1[k]? = if rb.readIdx ≤ k ∧ k < rb.readIdx + n then some 0 else rb.data[k]?) ∧
      (∀ m, p ≤ m → m < p + n → some (out1 m) = rb.data[rb.readIdx + (m - p)]?) ∧
      (∀ m, ¬ (p ≤ m ∧ m < p + n) → out1 m = out m) := by
  obtain ⟨h1, h2, h3, h4⟩ := h
  have hM : uadd rb.readIdx n = rb.readIdx + n := uadd_eq (by omega)
  obtain ⟨data1, out1, e1, l1, p1, q1, q2⟩ :=
    read_loop_ok rb.readIdx p n 0 rb.data out (by omega) (by omega)
  refine ⟨data1, out1, ?_, by omega, ?_, ?_, ?_⟩
  · intro fuel
    have := read_direct_eq fuel rb n out p data1 out1 hn (by omega) e1 (by omega)
    rw [hM] at this
    exact this
  · intro k
    simpa using p1 k
  · intro m hm1 hm2
    exact q1 m (by omega) (by omega)
  · intro m hm
    exact q2 m (by omega)

theorem read_wrap [Zero α] (rb : RingBuffer α) (n : Nat) (out : Nat → α)
    (p : Nat) (h : rb.WF) (hn : n < rb.readable) (hgt : rb.len < rb.readIdx + n)
    (hov : rb.readIdx + n < UINT_MOD) :
    ∃ d1 d2 out1 out2,
      (∀ fuel, rb.read (fuel + 1) (rb.len - rb.readIdx) out p
        = .ok (true, { rb with data := d1, readIdx := 0 }, out1)) ∧
      (∀ fuel, ({ rb with data := d1, readIdx := 0 } : RingBuffer α).read (fuel + 1)
          (rb.readIdx + n - rb.len) out1 (p + (rb.len - rb.readIdx))
        = .ok (true, { rb with data := d2, readIdx := rb.readIdx + n - rb.len }, out2)) ∧
      (∀ fuel, rb.read (fuel + 2) n out p
        = .ok (true, { rb with data := d2, readIdx := rb.readIdx + n - rb.len }, out2)) ∧
      d2.length = rb.len ∧
      (∀ k, d2[k]? =
        if k < rb.readIdx + n - rb.len ∨ (rb.readIdx ≤ k ∧ k < rb.len) then some 0
        else rb.data[k]?) ∧
      (∀ m, p ≤ m → m < p + n → some (out2 m) =
        if m - p < rb.len - rb.readIdx then rb.data[rb.readIdx + (m - p)]?
        else rb.data[m - p - (rb.len - rb.readIdx)]?) ∧
      (∀ m, ¬ (p ≤ m ∧ m < p + n) → out2 m = out m) := by
  have hw := readable_eq rb h
  obtain ⟨h1, h2, h3, h4⟩ := h
  have hrw : rb.writeIdx < rb.readIdx := by
    by_contra hc
    rw [if_neg hc] at hw
    omega
  rw [if_pos hrw] at hw
  -- first nested call
  obtain ⟨d1, out1, e1, l1, p1, q1, r1⟩ :=
    read_nowrap rb (rb.len - rb.readIdx) out p ⟨h1, h2, h3, h4⟩ (by omega) (by omega)
  have hwl : rb.readIdx + (rb.len - rb.readIdx) = rb.len := by omega
  rw [hwl, Nat.mod_self] at e1
  rw [hwl] at p1
  -- second nested call
  have hwf1 : ({ rb with data := d1, readIdx := 0 } : RingBuffer α).WF :=
    ⟨l1, h2, by show 0 < rb.len; omega, h4⟩
  have hw1 := readable_eq _ hwf1
  simp only at hw1
  rw [if_neg (by omega)] at hw1
  obtain ⟨d2, out2, e2, l2, p2, q2, r2⟩ := read_nowrap ({ rb with data := d1, readIdx := 0 })
    (rb.readIdx + n - rb.len) out1 (p + (rb.len - rb.readIdx)) hwf1
    (by rw [hw1]; omega) (by simp only; omega)
  simp only at e2 l2 p2 q2 r2
  have hz2 : (0 + (rb.readIdx + n - rb.len)) % rb.len = rb.readIdx + n - rb.len := by
    rw [Nat.zero_add]
    exact Nat.mod_eq_of_lt (by omega)
  rw [hz2] at e2
  refine ⟨d1, d2, out1, out2, e1, e2, ?_, l2, ?_, ?_, ?_⟩
  · intro fuel
    have hf : usub rb.len rb.readIdx = rb.len - rb.readIdx := usub_eq (by omega) h2
    have hs : usub n (rb.len - rb.readIdx) = rb.readIdx + n - rb.len := by
      rw [usub_eq (by omega) (by omega)]; omega
    have hM : uadd rb.readIdx n = rb.readIdx + n := uadd_eq hov
    refine read_wrap_eq (fuel + 1) rb { rb with data := d1, readIdx := 0 } _ n out out1 out2 p
      true true hn (by omega) ?_ ?_
    · rw [hf]; exact e1 fuel
    · rw [hf, hs]; exact e2 fuel
  · intro k
    rw [p2 k, p1 k]
    by_cases hk : k < rb.readIdx + n - rb.len
    · rw [if_pos (by omega), if_pos (Or.inl hk)]
    · rw [if_neg (by omega)]
      by_cases hk2 : rb.readIdx ≤ k ∧ k < rb.len
      · rw [if_pos hk2, if_pos (Or.inr hk2)]
      · rw [if_neg hk2, if_neg (by omega)]
  · intro m hm1 hm2
    by_cases hm : m - p < rb.len - rb.readIdx
    · rw [if_pos hm, r2 m (by omega)]
      exact q1 m hm1 (by omega)
    · rw [if_neg hm, q2 m (by omega) (by omega), p1]
      have : m - (p + (rb.len - rb.readIdx)) = m - p - (rb.len - rb.readIdx) := by omega
      rw [Nat.zero_add, this, if_neg (by omega)]
  · intro m hm
    rw [r2 m (by omega), r1 m (by omega)]

/-! ## Return values -/

theorem write_true_of_lt (fuel : Nat) (rb : RingBuffer α) (n : Nat) (src : Nat → α)
    (b : Bool) (rb1 : RingBuffer α) (hn : n < rb.writable)
    (h : rb.write fuel n src = .ok (b, rb1)) : b = true := by
  have hwn : rb.writable_n n = true := by
    simp only [writable_n, decide_eq_true_eq]; omega
  cases fuel with
  | zero => simp only [write] at h; cases h
  | succ fuel =>
    rw [write] at h
    simp only [hwn, Bool.not_true, Bool.false_eq_true, if_false] at h
    split at h
    · split at h
      · cases h
      · split at h
        · cases h
        · simp only [Except.ok.injEq, Prod.mk.injEq] at h
          exact h.1.symm
    · split at h
      · cases h
      · split at h
        · cases h
        · simp only [Except.ok.injEq, Prod.mk.injEq] at h
          exact h.1.symm

theorem write_ok_of_lt (fuel : Nat) (rb : RingBuffer α) (n : Nat) (src : Nat → α)
    (h : rb.WF) (hn : n < rb.writable) (hov : rb.writeIdx + n < UINT_MOD) :
    ∃ rb1, rb.write (fuel + 2) n src = .ok (true, rb1) := by
  by_cases hle : rb.writeIdx + n ≤ rb.len
  · obtain ⟨d, e, _⟩ := write_nowrap rb n src h hn hle
    exact ⟨_, e (fuel + 1)⟩
  · obtain ⟨d1, d2, _, _, e, _⟩ := write_wrap rb n src h hn (by omega) hov
    exact ⟨_, e fuel⟩

theorem write_sum_lt_of_capacity (rb : RingBuffer α) (n : Nat) (h : rb.WF)
    (hcap : rb.len ≤ 2 ^ 31) (hn : n < rb.writable) : rb.writeIdx + n < UINT_MOD := by
  have hle := writable_le_len rb h
  obtain ⟨_, _, _, h4⟩ := h
  simp only [UINT_MOD]
  omega

theorem write_rejected_state (fuel : Nat) (rb rb1 : RingBuffer α) (n : Nat) (src : Nat → α)
    (b : Bool) (hle : rb.writable ≤ n) (h : rb.write fuel n src = .ok (b, rb1)) : rb1 = rb := by
  cases fuel with
  | zero => simp only [write] at h; cases h
  | succ fuel =>
    rw [write_reject fuel rb n src hle] at h
    simp only [Except.ok.injEq, Prod.mk.injEq] at h
    exact h.2.symm

theorem read_true_of_lt [Zero α] (fuel : Nat) (rb : RingBuffer α) (n : Nat) (out : Nat → α)
    (p : Nat) (b : Bool) (rb1 : RingBuffer α) (out1 : Nat → α) (hn : n < rb.readable)
    (h : rb.read fuel n out p = .ok (b, rb1, out1)) : b = true := by
  have hwn : rb.readable_n n = true := by
    simp only [readable_n, decide_eq_true_eq]; omega
  cases fuel with
  | zero => simp only [read] at h; cases h
  | succ fuel =>
    rw [read] at h
    simp only [hwn, Bool.not_true, Bool.false_eq_true, if_false] at h
    split at h
    · split at h
      · cases h
      · split at h
        · cases h
        · simp only [Except.ok.injEq, Prod.mk.injEq] at h
          exact h.1.symm
    · split at h
      · cases h
      · split at h
        · cases h
        · simp only [Except.ok.injEq, Prod.mk.injEq] at h
          exact h.1.symm

theorem read_ok_of_lt [Zero α] (fuel : Nat) (rb : RingBuffer α) (n : Nat) (out : Nat → α)
    (p : Nat) (h : rb.WF) (hn : n < rb.readable) (hov : rb.readIdx + n < UINT_MOD) :
    ∃ rb1 out1, rb.read (fuel + 2) n out p = .ok (true, rb1, out1) := by
  by_cases hle : rb.readIdx + n ≤ rb.len
  · obtain ⟨d, o, e, _⟩ := read_nowrap rb n out p h hn hle
    exact ⟨_, _, e (fuel + 1)⟩
  · obtain ⟨d1, d2, o1, o2, _, _, e, _⟩ := read_wrap rb n out p h hn (by omega) hov
    exact ⟨_, _, e fuel⟩

theorem read_sum_lt_of_capacity (rb : RingBuffer α) (n : Nat) (h : rb.WF)
    (hcap : rb.len ≤ 2 ^ 31) (hn : n < rb.readable) : rb.readIdx + n < UINT_MOD := by
  have hle := readable_lt_len rb h
  obtain ⟨_, _, h3, _⟩ := h
  simp only [UINT_MOD]
  omega

theorem read_rejected_state [Zero α] (fuel : Nat) (rb rb1 : RingBuffer α) (n : Nat)
    (out out1 : Nat → α) (p : Nat) (b : Bool) (hle : rb.readable ≤ n)
    (h : rb.read fuel n out p = .ok (b, rb1, out1)) : rb1 = rb := by
  cases fuel with
  | zero => simp only [read] at h; cases h
  | succ fuel =>
    rw [read_reject fuel rb n out p hle] at h
    simp only [Except.ok.injEq, Prod.mk.injEq] at h
    exact h.2.1.symm

/-! ## The invariant and what each call leaves untouched -/

theorem inv_construct [Zero α] (N : Nat) : Inv N (construct N : RingBuffer α) := by
  refine ⟨rfl, ?_, ?_, ?_⟩
  · simp [construct]
  · show 0 < max N 1
    omega
  · show 0 < max N 1
    omega

theorem inv_write (N : Nat) :
    ∀ (fuel : Nat) (rb : RingBuffer α) (n : Nat) (src : Nat → α) (b : Bool)
      (rb1 : RingBuffer α), Inv N rb → rb.write fuel n src = .ok (b, rb1) → Inv N rb1 := by
  intro fuel
  induction fuel with
  | zero =>
    intro rb n src b rb1 _ h
    simp only [write] at h
    cases h
  | succ fuel ih =>
    intro rb n src b rb1 hinv h
    rw [write] at h
    split at h
    · simp only [Except.ok.injEq, Prod.mk.injEq] at h
      rw [← h.2]
      exact hinv
    · split at h
      · dsimp only at h
        split at h
        · cases h
        · rename_i b1 rbm e1
          have hm := ih _ _ _ _ _ hinv e1
          split at h
          · cases h
          · rename_i b2 rb2 e2
            have h2 := ih _ _ _ _ _ hm e2
            simp only [Except.ok.injEq, Prod.mk.injEq] at h
            rw [← h.2]
            exact h2
      · split at h
        · cases h
        · rename_i data e1
          split at h
          · cases h
          · rename_i hlen
            simp only [Except.ok.injEq, Prod.mk.injEq] at h
            rw [← h.2]
            obtain ⟨i1, i2, i3, i4⟩ := hinv
            refine ⟨i1, ?_, i3, ?_⟩
            · show data.length = N
              rw [write_loop_length _ _ _ _ _ _ e1]
              exact i2
            · show uadd rb.writeIdx n % rb.len < max N 1
              have := Nat.mod_lt (uadd rb.writeIdx n) (Nat.pos_of_ne_zero hlen)
              omega

theorem inv_read [Zero α] (N : Nat) :
    ∀ (fuel : Nat) (rb : RingBuffer α) (n : Nat) (out : Nat → α) (p : Nat) (b : Bool)
      (rb1 : RingBuffer α) (out1 : Nat → α),
      Inv N rb → rb.read fuel n out p = .ok (b, rb1, out1) → Inv N rb1 := by
  intro fuel
  induction fuel with
  | zero =>
    intro rb n out p b rb1 out1 _ h
    simp only [read] at h
    cases h
  | succ fuel ih =>
    intro rb n out p b rb1 out1 hinv h
    rw [read] at h
    split at h
    · simp only [Except.ok.injEq, Prod.mk.injEq] at h
      rw [← h.2.1]
      exact hinv
    · split at h
      · dsimp only at h
        split at h
        · cases h
        · rename_i b1 rbm outm e1
          have hm := ih _ _ _ _ _ _ _ hinv e1
          split at h
          · cases h
          · rename_i b2 rb2 o2 e2
            have h2 := ih _ _ _ _ _ _ _ hm e2
            simp only [Except.ok.injEq, Prod.mk.injEq] at h
            rw [← h.2.1]
            exact h2
      · split at h
        · cases h
        · rename_i data o1 e1
          split at h
          · cases h
          · rename_i hlen
            simp only [Except.ok.injEq, Prod.mk.injEq] at h
            rw [← h.2.1]
            obtain ⟨i1, i2, i3, i4⟩ := hinv
            refine ⟨i1, ?_, ?_, i4⟩
            · show data.length = N
              rw [read_loop_length _ _ _ _ _ _ _ _ e1]
              exact i2
            · show uadd rb.readIdx n % rb.len < max N 1
              have := Nat.mod_lt (uadd rb.readIdx n) (Nat.pos_of_ne_zero hlen)
              omega

theorem inv_call [Zero α] (N fuel : Nat) (rb rb1 : RingBuffer α) (c : Call α)
    (hinv : Inv N rb) (h : rb.call fuel c = .ok rb1) : Inv N rb1 := by
  cases c with
  | write n src =>
    simp only [call] at h
    split at h
    · cases h
    · rename_i b rb2 e
      simp only [Except.ok.injEq] at h
      rw [← h]
      exact inv_write N _ _ _ _ _ _ hinv e
  | read n out =>
    simp only [call] at h
    split at h
    · cases h
    · rename_i b rb2 o e
      simp only [Except.ok.injEq] at h
      rw [← h]
      exact inv_read N _ _ _ _ _ _ _ _ hinv e
  | getAmountWritten =>
    simp only [call, getAmountWritten, Except.ok.injEq] at h
    rw [← h]
    exact hinv
  | getAmountRead =>
    simp only [call, getAmountRead, Except.ok.injEq] at h
    rw [← h]
    exact hinv

theorem inv_run [Zero α] (N fuel : Nat) (calls : List (Call α)) :
    ∀ (rb rb1 : RingBuffer α), Inv N rb → rb.run fuel calls = .ok rb1 → Inv N rb1 := by
  induction calls with
  | nil =>
    intro rb rb1 hinv h
    simp only [run, Except.ok.injEq] at h
    rw [← h]
    exact hinv
  | cons c cs ih =>
    intro rb rb1 hinv h
    simp only [run] at h
    split at h
    · cases h
    · rename_i rb2 e
      exact ih _ _ (inv_call N fuel rb rb2 c hinv e) h

theorem inv_sum (N : Nat) (rb : RingBuffer α) (hN : N < UINT_MOD) (hinv : Inv N rb) :
    rb.readable + rb.writable = N := by
  obtain ⟨i1, i2, i3, i4⟩ := hinv
  simp only [readable, writable, uadd, usub, UINT_MOD] at *
  split <;> split <;> omega

theorem inv_wf (N : Nat) (rb : RingBuffer α) (hN : N < UINT_MOD) (h1 : 1 ≤ N)
    (hinv : Inv N rb) : rb.WF := by
  obtain ⟨i1, i2, i3, i4⟩ := hinv
  refine ⟨by omega, by omega, by omega, by omega⟩

theorem wf_construct [Zero α] (N : Nat) (h1 : 1 ≤ N) (hN : N < UINT_MOD) :
    (construct N : RingBuffer α).WF :=
  inv_wf N _ hN h1 (inv_construct N)

theorem inv_writable_zero (rb : RingBuffer α) (hinv : Inv 0 rb) : rb.writable = 0 := by
  obtain ⟨i1, i2, i3, i4⟩ := hinv
  simp only [writable, uadd, usub, UINT_MOD] at *
  split <;> omega

theorem inv_readable_zero (rb : RingBuffer α) (hinv : Inv 0 rb) : rb.readable = 0 := by
  obtain ⟨i1, i2, i3, i4⟩ := hinv
  simp only [readable, uadd, usub, UINT_MOD] at *
  split <;> omega

theorem total_write (N fuel : Nat) (rb : RingBuffer α) (n : Nat) (src : Nat → α)
    (hN : N ≤ 2 ^ 31) (hinv : Inv N rb) : ∃ b rb1, rb.write (fuel + 2) n src = .ok (b, rb1) := by
  by_cases hn : rb.writable ≤ n
  · exact ⟨_, _, write_reject (fuel + 1) rb n src hn⟩
  · have h1 : 1 ≤ N := by
      by_contra hc
      have h0 : N = 0 := by omega
      subst h0
      have := inv_writable_zero rb hinv
      omega
    have hM : N < UINT_MOD := by simp only [UINT_MOD]; omega
    have hwf := inv_wf N rb hM h1 hinv
    have hle := writable_le_len rb hwf
    obtain ⟨i1, i2, i3, i4⟩ := hinv
    obtain ⟨rb1, e⟩ := write_ok_of_lt fuel rb n src hwf (by omega)
      (by simp only [UINT_MOD]; omega)
    exact ⟨_, _, e⟩

theorem total_read [Zero α] (N fuel : Nat) (rb : RingBuffer α) (n : Nat) (out : Nat → α)
    (p : Nat) (hN : N ≤ 2 ^ 31) (hinv : Inv N rb) :
    ∃ b rb1 out1, rb.read (fuel + 2) n out p = .ok (b, rb1, out1) := by
  by_cases hn : rb.readable ≤ n
  · exact ⟨_, _, _, read_reject (fuel + 1) rb n out p hn⟩
  · have h1 : 1 ≤ N := by
      by_contra hc
      have h0 : N = 0 := by omega
      subst h0
      have := inv_readable_zero rb hinv
      omega
    have hM : N < UINT_MOD := by simp only [UINT_MOD]; omega
    have hwf := inv_wf N rb hM h1 hinv
    have hle := readable_lt_len rb hwf
    obtain ⟨i1, i2, i3, i4⟩ := hinv
    obtain ⟨rb1, o1, e⟩ := read_ok_of_lt fuel rb n out p hwf (by omega)
      (by simp only [UINT_MOD]; omega)
    exact ⟨_, _, _, e⟩

theorem total_call [Zero α] (N fuel : Nat) (rb : RingBuffer α) (c : Call α)
    (hN : N ≤ 2 ^ 31) (hinv : Inv N rb) : ∃ rb1, rb.call (fuel + 2) c = .ok rb1 := by
  cases c with
  | write n src =>
    obtain ⟨b, rb1, e⟩ := total_write N fuel rb n src hN hinv
    exact ⟨rb1, by simp only [call, e]⟩
  | read n out =>
    obtain ⟨b, rb1, o, e⟩ := total_read N fuel rb n out 0 hN hinv
    exact ⟨rb1, by simp only [call, e]⟩
  | getAmountWritten => exact ⟨_, rfl⟩
  | getAmountRead => exact ⟨_, rfl⟩

theorem total_run [Zero α] (N fuel : Nat) (hN : N ≤ 2 ^ 31) (calls : List (Call α)) :
    ∀ rb : RingBuffer α, Inv N rb → ∃ rb1, rb.run (fuel + 2) calls = .ok rb1 := by
  induction calls with
  | nil => exact fun rb _ => ⟨rb, rfl⟩
  | cons c cs ih =>
    intro rb hinv
    obtain ⟨rb1, e⟩ := total_call N fuel rb c hN hinv
    obtain ⟨rb2, e2⟩ := ih rb1 (inv_call N _ rb rb1 c hinv e)
    exact ⟨rb2, by simp only [run, e, e2]⟩

theorem write_frame :
    ∀ (fuel : Nat) (rb : RingBuffer α) (n : Nat) (src : Nat → α) (b : Bool)
      (rb1 : RingBuffer α), rb.write fuel n src = .ok (b, rb1) →
      rb1.readIdx = rb.readIdx ∧ rb1.len = rb.len ∧
      rb1.last_writeIdx = rb.last_writeIdx ∧ rb1.last_readIdx = rb.last_readIdx := by
  intro fuel
  induction fuel with
  | zero =>
    intro rb n src b rb1 h
    simp only [write] at h
    cases h
  | succ fuel ih =>
    intro rb n src b rb1 h
    rw [write] at h
    split at h
    · simp only [Except.ok.injEq, Prod.mk.injEq] at h
      rw [← h.2]
      exact ⟨rfl, rfl, rfl, rfl⟩
    · split at h
      · dsimp only at h
        split at h
        · cases h
        · rename_i b1 rbm e1
          have hm := ih _ _ _ _ _ e1
          split at h
          · cases h
          · rename_i b2 rb2 e2
            have h2 := ih _ _ _ _ _ e2
            simp only [Except.ok.injEq, Prod.mk.injEq] at h
            rw [← h.2]
            exact ⟨h2.1.trans hm.1, h2.2.1.trans hm.2.1, h2.2.2.1.trans hm.2.2.1,
              h2.2.2.2.trans hm.2.2.2⟩
      · split at h
        · cases h
        · split at h
          · cases h
          · simp only [Except.ok.injEq, Prod.mk.injEq] at h
            rw [← h.2]
            exact ⟨rfl, rfl, rfl, rfl⟩

theorem read_frame [Zero α] :
    ∀ (fuel : Nat) (rb : RingBuffer α) (n : Nat) (out : Nat → α) (p : Nat) (b : Bool)
      (rb1 : RingBuffer α) (out1 : Nat → α), rb.read fuel n out p = .ok (b, rb1, out1) →
      rb1.writeIdx = rb.writeIdx ∧ rb1.len = rb.len ∧
      rb1.last_writeIdx = rb.last_writeIdx ∧ rb1.last_readIdx = rb.last_readIdx := by
  intro fuel
  induction fuel with
  | zero =>
    intro rb n out p b rb1 out1 h
    simp only [read] at h
    cases h
  | succ fuel ih =>
    intro rb n out p b rb1 out1 h
    rw [read] at h
    split at h
    · simp only [Except.ok.injEq, Prod.mk.injEq] at h
      rw [← h.2.1]
      exact ⟨rfl, rfl, rfl, rfl⟩
    · split at h
      · dsimp only at h
        split at h
        · cases h
        · rename_i b1 rbm om e1
          have hm := ih _ _ _ _ _ _ _ e1
          split at h
          · cases h
          · rename_i b2 rb2 o2 e2
            have h2 := ih _ _ _ _ _ _ _ e2
            simp only [Except.ok.injEq, Prod.mk.injEq] at h
            rw [← h.2.1]
            exact ⟨h2.1.trans hm.1, h2.2.1.trans hm.2.1, h2.2.2.1.trans hm.2.2.1,
              h2.2.2.2.trans hm.2.2.2⟩
      · split at h
        · cases h
        · split at h
          · cases h
          · simp only [Except.ok.injEq, Prod.mk.injEq] at h
            rw [← h.2.1]
            exact ⟨rfl, rfl, rfl, rfl⟩

theorem write_fresh [Zero α] (N k : Nat) (s : Nat → α) (hN : N < UINT_MOD) (hk : k < N) :
    ∃ d : List α,
      (∀ fuel, (construct N : RingBuffer α).write (fuel + 1) k s
        = .ok (true, { (construct N : RingBuffer α) with data := d, writeIdx := k })) ∧
      ({ (construct N : RingBuffer α) with data := d, writeIdx := k } : RingBuffer α).WF ∧
      ({ (construct N : RingBuffer α) with data := d, writeIdx := k } : RingBuffer α).readable
        = k ∧
      ({ (construct N : RingBuffer α) with data := d, writeIdx := k } : RingBuffer α).writable
        = N - k := by
  have hwf : (construct N : RingBuffer α).WF := wf_construct N (by omega) hN
  have hw := writable_eq _ hwf
  have hw0 : (construct N : RingBuffer α).writeIdx = 0 := rfl
  have hr0 : (construct N : RingBuffer α).readIdx = 0 := rfl
  have hl0 : (construct N : RingBuffer α).len = N := rfl
  rw [hw0, hr0, hl0] at hw
  simp only [le_refl, if_true, Nat.zero_add, Nat.sub_zero] at hw
  obtain ⟨d, e, l, _⟩ := write_nowrap (construct N : RingBuffer α) k s hwf
    (by rw [hw]; exact hk) (by rw [hw0, hl0]; omega)
  rw [hw0, hl0, Nat.zero_add, Nat.mod_eq_of_lt hk] at e
  have hwf1 : ({ (construct N : RingBuffer α) with data := d, writeIdx := k } :
      RingBuffer α).WF := ⟨l, hN, by show 0 < N; omega, hk⟩
  refine ⟨d, e, hwf1, ?_, ?_⟩
  · rw [readable_eq _ hwf1]
    show (if k < 0 then k + N - 0 else k - 0) = k
    rw [if_neg (by omega), Nat.sub_zero]
  · rw [writable_eq _ hwf1]
    show (if 0 ≤ k then 0 + N - k else 0 - k) = N - k
    rw [if_pos (by omega), Nat.zero_add]

/-! ## The polls `getAmountWritten` and `getAmountRead` -/

theorem getAmountWritten_val (rb : RingBuffer α) (hl : rb.len ≤ 2 ^ 31)
    (h1 : rb.writeIdx < rb.len) (h2 : rb.last_writeIdx < rb.len) :
    rb.getAmountWritten.1 =
      if rb.writeIdx ≤ rb.last_writeIdx then ((rb.last_writeIdx - rb.writeIdx : Nat) : Int)
      else ((rb.last_writeIdx + rb.len - rb.writeIdx : Nat) : Int) := by
  simp only [getAmountWritten, usub, uadd, toInt, UINT_MOD]
  split_ifs <;> omega

theorem getAmountRead_val (rb : RingBuffer α) (hl : rb.len ≤ 2 ^ 31)
    (h1 : rb.readIdx < rb.len) (h2 : rb.last_readIdx < rb.len) :
    rb.getAmountRead.1 =
      if rb.readIdx ≤ rb.last_readIdx then ((rb.last_readIdx - rb.readIdx : Nat) : Int)
      else ((rb.last_readIdx + rb.len - rb.readIdx : Nat) : Int) := by
  simp only [getAmountRead, usub, uadd, toInt, UINT_MOD]
  split_ifs <;> omega

theorem getAmountWritten_zero (rb : RingBuffer α) (h : rb.last_writeIdx = rb.writeIdx) :
    rb.getAmountWritten.1 = 0 := by
  simp only [getAmountWritten, h, usub_self, toInt]
  rfl

theorem getAmountRead_zero (rb : RingBuffer α) (h : rb.last_readIdx = rb.readIdx) :
    rb.getAmountRead.1 = 0 := by
  simp only [getAmountRead, h, usub_self, toInt]
  rfl

theorem quiet_write_snapshot [Zero α] (fuel : Nat) (calls : List (Call α)) :
    ∀ (rb rb2 : RingBuffer α), rb.last_writeIdx = rb.writeIdx →
      no_accepted_write fuel rb calls → rb.run fuel calls = .ok rb2 →
      rb2.last_writeIdx = rb2.writeIdx := by
  induction calls with
  | nil =>
    intro rb rb2 h0 _ h
    simp only [run, Except.ok.injEq] at h
    rw [← h]
    exact h0
  | cons c cs ih =>
    intro rb rb2 h0 hq h
    simp only [run] at h
    simp only [no_accepted_write] at hq
    obtain ⟨hq1, hq2⟩ := hq
    split at h
    · cases h
    · rename_i rb1 e
      rw [e] at hq2
      refine ih rb1 rb2 ?_ hq2 h
      cases c with
      | write n src =>
        simp only [call] at e
        split at e
        · cases e
        · rename_i b rbw ew
          simp only [Except.ok.injEq] at e
          rw [← e, write_rejected_state fuel rb rbw n src b hq1 ew]
          exact h0
      | read n out =>
        simp only [call] at e
        split at e
        · cases e
        · rename_i b rbr o er
          simp only [Except.ok.injEq] at e
          have hf := read_frame fuel rb n out 0 b rbr o er
          rw [← e, hf.1, hf.2.2.1]
          exact h0
      | getAmountWritten =>
        simp only [call, getAmountWritten, Except.ok.injEq] at e
        rw [← e]
      | getAmountRead =>
        simp only [call, getAmountRead, Except.ok.injEq] at e
        rw [← e]
        exact h0

theorem quiet_read_snapshot [Zero α] (fuel : Nat) (calls : List (Call α)) :
    ∀ (rb rb2 : RingBuffer α), rb.last_readIdx = rb.readIdx →
      no_accepted_read fuel rb calls → rb.run fuel calls = .ok rb2 →
      rb2.last_readIdx = rb2.readIdx := by
  induction calls with
  | nil =>
    intro rb rb2 h0 _ h
    simp only [run, Except.ok.injEq] at h
    rw [← h]
    exact h0
  | cons c cs ih =>
    intro rb rb2 h0 hq h
    simp only [run] at h
    simp only [no_accepted_read] at hq
    obtain ⟨hq1, hq2⟩ := hq
    split at h
    · cases h
    · rename_i rb1 e
      rw [e] at hq2
      refine ih rb1 rb2 ?_ hq2 h
      cases c with
      | write n src =>
        simp only [call] at e
        split at e
        · cases e
        · rename_i b rbw ew
          simp only [Except.ok.injEq] at e
          have hf := write_frame fuel rb n src b rbw ew
          rw [← e, hf.1, hf.2.2.2]
          exact h0
      | read n out =>
        simp only [call] at e
        split at e
        · cases e
        · rename_i b rbr o er
          simp only [Except.ok.injEq] at e
          rw [← e, read_rejected_state fuel rb rbr n out o 0 b hq1 er]
          exact h0
      | getAmountWritten =>
        simp only [call, getAmountWritten, Except.ok.injEq] at e
        rw [← e]
        exact h0
      | getAmountRead =>
        simp only [call, getAmountRead, Except.ok.injEq] at e
        rw [← e]

/-! ## What an accepted call does, for every amount of fuel -/

theorem write_loop_error (w : Nat) (src : Nat → α) :
    ∀ (todo i : Nat) (data : List α), w + i ≤ data.length → data.length < UINT_MOD →
      data.length < w + i + todo → write_loop w src todo i data = .error .outOfBounds := by
  intro todo
  induction todo with
  | zero =>
    intro i data h1 _ h3
    omega
  | succ todo ih =>
    intro i data h1 h2 h3
    have hj : uadd w i = w + i := uadd_eq (by omega)
    simp only [write_loop, hj]
    by_cases hlt : w + i < data.length
    · rw [if_pos hlt]
      exact ih (i + 1) _ (by rw [List.length_set]; omega) (by rw [List.length_set]; exact h2)
        (by rw [List.length_set]; omega)
    · rw [if_neg hlt]

theorem read_loop_error [Zero α] (r p : Nat) :
    ∀ (todo i : Nat) (data : List α) (out : Nat → α), r + i ≤ data.length →
      data.length < UINT_MOD → data.length < r + i + todo →
      read_loop r p todo i data out = .error .outOfBounds := by
  intro todo
  induction todo with
  | zero =>
    intro i data out h1 _ h3
    omega
  | succ todo ih =>
    intro i data out h1 h2 h3
    have hj : uadd r i = r + i := uadd_eq (by omega)
    simp only [read_loop, hj]
    by_cases hlt : r + i < data.length
    · rw [dif_pos hlt]
      exact ih (i + 1) _ _ (by rw [List.length_set]; omega)
        (by rw [List.length_set]; exact h2) (by rw [List.length_set]; omega)
    · rw [dif_neg hlt]

theorem write_overflow_error (fuel : Nat) (rb : RingBuffer α) (n : Nat) (src : Nat → α)
    (h : rb.WF) (hn : n < rb.writable) (hov : UINT_MOD ≤ rb.writeIdx + n) :
    rb.write (fuel + 1) n src = .error .outOfBounds := by
  have hle := writable_le_len rb h
  obtain ⟨h1, h2, h3, h4⟩ := h
  have hwn : rb.writable_n n = true := by
    simp only [writable_n, decide_eq_true_eq]; omega
  have hu : uadd rb.writeIdx n = rb.writeIdx + n - UINT_MOD := by
    unfold uadd
    have : rb.writeIdx + n = (rb.writeIdx + n - UINT_MOD) + UINT_MOD := by omega
    rw [this, Nat.add_mod_right, Nat.add_sub_cancel]
    exact Nat.mod_eq_of_lt (by omega)
  have hng : ¬ (uadd rb.writeIdx n > rb.len) := by rw [hu]; omega
  have hl := write_loop_error rb.writeIdx src n 0 rb.data (by omega) (by omega) (by omega)
  rw [write]
  simp only [hwn, hng, hl]
  rfl

theorem read_overflow_error [Zero α] (fuel : Nat) (rb : RingBuffer α) (n : Nat)
    (out : Nat → α) (p : Nat) (h : rb.WF) (hn : n < rb.readable)
    (hov : UINT_MOD ≤ rb.readIdx + n) :
    rb.read (fuel + 1) n out p = .error .outOfBounds := by
  have hle := readable_lt_len rb h
  obtain ⟨h1, h2, h3, h4⟩ := h
  have hwn : rb.readable_n n = true := by
    simp only [readable_n, decide_eq_true_eq]; omega
  have hu : uadd rb.readIdx n = rb.readIdx + n - UINT_MOD := by
    unfold uadd
    have : rb.readIdx + n = (rb.readIdx + n - UINT_MOD) + UINT_MOD := by omega
    rw [this, Nat.add_mod_right, Nat.add_sub_cancel]
    exact Nat.mod_eq_of_lt (by omega)
  have hng : ¬ (uadd rb.readIdx n > rb.len) := by rw [hu]; omega
  have hl := read_loop_error rb.readIdx p n 0 rb.data out (by omega) (by omega) (by omega)
  rw [read]
  simp only [hwn, hng, hl]
  rfl

theorem write_wrap_no_fuel (rb : RingBuffer α) (n : Nat) (src : Nat → α)
    (hn : n < rb.writable) (hgt : uadd rb.writeIdx n > rb.len) :
    rb.write 1 n src = .error .outOfFuel := by
  have hwn : rb.writable_n n = true := by
    simp only [writable_n, decide_eq_true_eq]; omega
  rw [write]
  simp only [hwn, hgt, write]
  rfl

theorem read_wrap_no_fuel [Zero α] (rb : RingBuffer α) (n : Nat) (out : Nat → α) (p : Nat)
    (hn : n < rb.readable) (hgt : uadd rb.readIdx n > rb.len) :
    rb.read 1 n out p = .error .outOfFuel := by
  have hwn : rb.readable_n n = true := by
    simp only [readable_n, decide_eq_true_eq]; omega
  rw [read]
  simp only [hwn, hgt, read]
  rfl

theorem write_true_effect (fuel : Nat) (rb rb1 : RingBuffer α) (n : Nat) (src : Nat → α)
    (h : rb.WF) (e : rb.write fuel n src = .ok (true, rb1)) :
    n < rb.writable ∧ rb1.data.length = rb.len ∧
    (∀ k, k < rb.len → rb1.data[k]? =
      if rb.writeIdx ≤ k ∧ k < rb.writeIdx + n then some (src (k - rb.writeIdx))
      else if k + rb.len < rb.writeIdx + n then some (src (k + rb.len - rb.writeIdx))
      else rb.data[k]?) ∧
    rb1.writeIdx = (if rb.writeIdx + n < rb.len then rb.writeIdx + n
      else rb.writeIdx + n - rb.len) ∧
    rb1.readIdx = rb.readIdx ∧ rb1.len = rb.len ∧
    rb1.last_writeIdx = rb.last_writeIdx ∧ rb1.last_readIdx = rb.last_readIdx := by
  have hn : n < rb.writable := by
    by_contra hc
    cases fuel with
    | zero => simp only [write] at e; cases e
    | succ f =>
      rw [write_reject f rb n src (by omega)] at e
      simp at e
  have hwf := h
  have hw := writable_eq rb h
  obtain ⟨h1, h2, h3, h4⟩ := h
  cases fuel with
  | zero => simp only [write] at e; cases e
  | succ f =>
    by_cases hov : rb.writeIdx + n < UINT_MOD
    · by_cases hle : rb.writeIdx + n ≤ rb.len
      · obtain ⟨d, e1, l, p⟩ := write_nowrap rb n src hwf hn hle
        rw [e1 f] at e
        simp only [Except.ok.injEq, Prod.mk.injEq, true_and] at e
        subst e
        refine ⟨hn, l, ?_, ?_, rfl, rfl, rfl, rfl⟩
        · intro k hk
          show d[k]? = _
          rw [p k]
          by_cases hc : rb.writeIdx ≤ k ∧ k < rb.writeIdx + n
          · rw [if_pos hc, if_pos hc]
          · rw [if_neg hc, if_neg hc, if_neg (by omega)]
        · show (rb.writeIdx + n) % rb.len = _
          by_cases hc : rb.writeIdx + n < rb.len
          · rw [if_pos hc, Nat.mod_eq_of_lt hc]
          · have : rb.writeIdx + n = rb.len := by omega
            rw [if_neg hc, this, Nat.mod_self, Nat.sub_self]
      · have hgt : uadd rb.writeIdx n > rb.len := by rw [uadd_eq hov]; omega
        cases f with
        | zero =>
          rw [write_wrap_no_fuel rb n src hn hgt] at e
          cases e
        | succ f =>
          obtain ⟨d1, d2, _, _, e2, l, p⟩ := write_wrap rb n src hwf hn (by omega) hov
          rw [e2 f] at e
          simp only [Except.ok.injEq, Prod.mk.injEq, true_and] at e
          subst e
          have hrw : rb.readIdx ≤ rb.writeIdx := by
            by_contra hc
            rw [if_neg hc] at hw
            omega
          rw [if_pos hrw] at hw
          refine ⟨hn, l, ?_, ?_, rfl, rfl, rfl, rfl⟩
          · intro k hk
            show d2[k]? = _
            rw [p k]
            by_cases hc : rb.writeIdx ≤ k ∧ k < rb.writeIdx + n
            · rw [if_pos hc, if_neg (by omega), if_pos ⟨hc.1, hk⟩]
            · rw [if_neg hc]
              by_cases hc2 : k + rb.len < rb.writeIdx + n
              · rw [if_pos hc2, if_pos (by omega)]
                congr 2
                omega
              · rw [if_neg hc2, if_neg (by omega), if_neg (by omega)]
          · show rb.writeIdx + n - rb.len = _
            rw [if_neg (by omega)]
    · rw [write_overflow_error f rb n src hwf hn (by omega)] at e
      cases e

theorem read_true_effect [Zero α] (fuel : Nat) (rb rb1 : RingBuffer α) (n : Nat)
    (dst dst1 : Nat → α) (h : rb.WF) (e : rb.read fuel n dst 0 = .ok (true, rb1, dst1)) :
    n < rb.readable ∧ rb1.data.length = rb.len ∧
    (∀ k, k < rb.len → rb1.data[k]? =
      if (rb.readIdx ≤ k ∧ k < rb.readIdx + n) ∨ k + rb.len < rb.readIdx + n then some 0
      else rb.data[k]?) ∧
    (∀ i, i < n → some (dst1 i) =
      rb.data[if rb.readIdx + i < rb.len then rb.readIdx + i else rb.readIdx + i - rb.len]?) ∧
    rb1.readIdx = (if rb.readIdx + n < rb.len then rb.readIdx + n
      else rb.readIdx + n - rb.len) ∧
    rb1.writeIdx = rb.writeIdx ∧ rb1.len = rb.len ∧
    rb1.last_writeIdx = rb.last_writeIdx ∧ rb1.last_readIdx = rb.last_readIdx := by
  have hn : n < rb.readable := by
    by_contra hc
    cases fuel with
    | zero => simp only [read] at e; cases e
    | succ f =>
      rw [read_reject f rb n dst 0 (by omega)] at e
      simp at e
  have hwf := h
  have hr := readable_eq rb h
  obtain ⟨h1, h2, h3, h4⟩ := h
  cases fuel with
  | zero => simp only [read] at e; cases e
  | succ f =>
    by_cases hov : rb.readIdx + n < UINT_MOD
    · by_cases hle : rb.readIdx + n ≤ rb.len
      · obtain ⟨d, o, e1, l, p, q, _⟩ := read_nowrap rb n dst 0 hwf hn hle
        rw [e1 f] at e
        simp only [Except.ok.injEq, Prod.mk.injEq, true_and] at e
        obtain ⟨e, eo⟩ := e
        subst e
        subst eo
        refine ⟨hn, l, ?_, ?_, ?_, rfl, rfl, rfl, rfl⟩
        · intro k hk
          show d[k]? = _
          rw [p k]
          by_cases hc : rb.readIdx ≤ k ∧ k < rb.readIdx + n
          · rw [if_pos hc, if_pos (Or.inl hc)]
          · rw [if_neg hc, if_neg (by omega)]
        · intro i hi
          rw [if_pos (by omega), q i (by omega) (by omega), Nat.sub_zero]
        · show (rb.readIdx + n) % rb.len = _
          by_cases hc : rb.readIdx + n < rb.len
          · rw [if_pos hc, Nat.mod_eq_of_lt hc]
          · have : rb.readIdx + n = rb.len := by omega
            rw [if_neg hc, this, Nat.mod_self, Nat.sub_self]
      · have hgt : uadd rb.readIdx n > rb.len := by rw [uadd_eq hov]; omega
        cases f with
        | zero =>
          rw [read_wrap_no_fuel rb n dst 0 hn hgt] at e
          cases e
        | succ f =>
          obtain ⟨d1, d2, o1, o2, _, _, e2, l, p, q, _⟩ :=
            read_wrap rb n dst 0 hwf hn (by omega) hov
          rw [e2 f] at e
          simp only [Except.ok.injEq, Prod.mk.injEq, true_and] at e
          obtain ⟨e, eo⟩ := e
          subst e
          subst eo
          have hrw : rb.writeIdx < rb.readIdx := by
            by_contra hc
            rw [if_neg hc] at hr
            omega
          rw [if_pos hrw] at hr
          refine ⟨hn, l, ?_, ?_, ?_, rfl, rfl, rfl, rfl⟩
          · intro k hk
            show d2[k]? = _
            rw [p k]
            by_cases hc : k < rb.readIdx + n - rb.len ∨ (rb.readIdx ≤ k ∧ k < rb.len)
            · rw [if_pos hc, if_pos (by omega)]
            · rw [if_neg hc, if_neg (by omega)]
          · intro i hi
            rw [q i (by omega) (by omega), Nat.sub_zero]
            by_cases hc : i < rb.len - rb.readIdx
            · rw [if_pos hc, if_pos (by omega)]
            · rw [if_neg hc, if_neg (by omega)]
              congr 1
              omega
          · show rb.readIdx + n - rb.len = _
            rw [if_neg (by omega)]
    · rw [read_overflow_error f rb n dst 0 hwf hn (by omega)] at e
      cases e

/-! ## The stored elements as a queue -/

theorem mod_two_cases (x N : Nat) (h : x < 2 * N) :
    x % N = if x < N then x else x - N := by
  by_cases hx : x < N
  · rw [if_pos hx, Nat.mod_eq_of_lt hx]
  · rw [if_neg hx]
    have : x = (x - N) + N := by omega
    rw [this, Nat.add_mod_right, Nat.add_sub_cancel]
    exact Nat.mod_eq_of_lt (by omega)

theorem counts_cases (rb : RingBuffer α) (h : rb.WF) :
    (rb.readIdx ≤ rb.writeIdx ∧ rb.readable = rb.writeIdx - rb.readIdx ∧
      rb.writable = rb.readIdx + rb.len - rb.writeIdx) ∨
    (rb.writeIdx < rb.readIdx ∧ rb.readable = rb.writeIdx + rb.len - rb.readIdx ∧
      rb.writable = rb.readIdx - rb.writeIdx) := by
  have hr := readable_eq rb h
  have hw := writable_eq rb h
  obtain ⟨h1, h2, h3, h4⟩ := h
  split_ifs at hr hw <;> omega

theorem write_true_wf (fuel : Nat) (rb rb1 : RingBuffer α) (n : Nat) (src : Nat → α)
    (h : rb.WF) (e : rb.write fuel n src = .ok (true, rb1)) : rb1.WF := by
  obtain ⟨hn, l, _, hw1, hr1, hl1, _, _⟩ := write_true_effect fuel rb rb1 n src h e
  have hle := writable_le_len rb h
  obtain ⟨h1, h2, h3, h4⟩ := h
  refine ⟨by rw [l, hl1], by rw [hl1]; exact h2, by rw [hr1, hl1]; exact h3, ?_⟩
  rw [hw1, hl1]
  split <;> omega

theorem read_true_wf [Zero α] (fuel : Nat) (rb rb1 : RingBuffer α) (n : Nat)
    (dst dst1 : Nat → α) (h : rb.WF) (e : rb.read fuel n dst 0 = .ok (true, rb1, dst1)) :
    rb1.WF := by
  obtain ⟨hn, l, _, _, hr1, hw1, hl1, _, _⟩ := read_true_effect fuel rb rb1 n dst dst1 h e
  have hle := readable_lt_len rb h
  obtain ⟨h1, h2, h3, h4⟩ := h
  refine ⟨by rw [l, hl1], by rw [hl1]; exact h2, ?_, by rw [hw1, hl1]; exact h4⟩
  rw [hr1, hl1]
  split <;> omega

theorem write_true_readable (fuel : Nat) (rb rb1 : RingBuffer α) (n : Nat) (src : Nat → α)
    (h : rb.WF) (e : rb.write fuel n src = .ok (true, rb1)) :
    rb1.readable = rb.readable + n := by
  have hwf1 := write_true_wf fuel rb rb1 n src h e
  obtain ⟨hn, l, _, hw1, hr1, hl1, _, _⟩ := write_true_effect fuel rb rb1 n src h e
  have hr := readable_eq rb h
  have hw := writable_eq rb h
  rw [readable_eq rb1 hwf1, hw1, hr1, hl1]
  obtain ⟨h1, h2, h3, h4⟩ := h
  split_ifs at hr hw ⊢ <;> omega

theorem read_true_readable [Zero α] (fuel : Nat) (rb rb1 : RingBuffer α) (n : Nat)
    (dst dst1 : Nat → α) (h : rb.WF) (e : rb.read fuel n dst 0 = .ok (true, rb1, dst1)) :
    rb1.readable + n = rb.readable := by
  have hwf1 := read_true_wf fuel rb rb1 n dst dst1 h e
  obtain ⟨hn, l, _, _, hr1, hw1, hl1, _, _⟩ := read_true_effect fuel rb rb1 n dst dst1 h e
  have hr := readable_eq rb h
  rw [readable_eq rb1 hwf1, hw1, hr1, hl1]
  obtain ⟨h1, h2, h3, h4⟩ := h
  split_ifs at hr ⊢ <;> omega

theorem pending_write [Zero α] (fuel : Nat) (rb rb1 : RingBuffer α) (n : Nat)
    (src : Nat → α) (h : rb.WF) (e : rb.write fuel n src = .ok (true, rb1)) :
    pending rb1 = pending rb ++ (List.range n).map src := by
  have hR1 := write_true_readable fuel rb rb1 n src h e
  obtain ⟨hn, l, p, hw1, hr1, hl1, _, _⟩ := write_true_effect fuel rb rb1 n src h e
  have hc := counts_cases rb h
  obtain ⟨h1, h2, h3, h4⟩ := h
  unfold pending
  rw [hR1, List.range_add, List.map_append, List.map_map, hr1, hl1]
  congr 1
  · apply List.map_congr_left
    intro i hi
    rw [List.mem_range] at hi
    simp only [List.getD_eq_getElem?_getD]
    rw [mod_two_cases _ _ (by omega)]
    congr 1
    split_ifs with hc
    · rw [p _ hc, if_neg (by omega), if_neg (by omega)]
    · rw [p _ (by omega), if_neg (by omega), if_neg (by omega)]
  · apply List.map_congr_left
    intro j hj
    rw [List.mem_range] at hj
    simp only [Function.comp, List.getD_eq_getElem?_getD]
    rw [mod_two_cases _ _ (by omega)]
    split_ifs with hc
    · rw [p _ hc]
      split_ifs with hc1 hc2
      · simp only [Option.getD_some]
        congr 1
        omega
      · simp only [Option.getD_some]
        congr 1
        omega
      · exfalso
        omega
    · rw [p _ (by omega)]
      split_ifs with hc1 hc2
      · simp only [Option.getD_some]
        congr 1
        omega
      · simp only [Option.getD_some]
        congr 1
        omega
      · exfalso
        omega

theorem pending_read [Zero α] (fuel : Nat) (rb rb1 : RingBuffer α) (n : Nat)
    (dst dst1 : Nat → α) (h : rb.WF) (e : rb.read fuel n dst 0 = .ok (true, rb1, dst1)) :
    pending rb = (List.range n).map dst1 ++ pending rb1 := by
  have hR1 := read_true_readable fuel rb rb1 n dst dst1 h e
  obtain ⟨hn, l, p, q, hr1, hw1, hl1, _, _⟩ := read_true_effect fuel rb rb1 n dst dst1 h e
  have hc := counts_cases rb h
  obtain ⟨h1, h2, h3, h4⟩ := h
  unfold pending
  rw [← hR1, Nat.add_comm, List.range_add, List.map_append, List.map_map, hr1, hl1]
  congr 1
  · apply List.map_congr_left
    intro i hi
    rw [List.mem_range] at hi
    simp only [List.getD_eq_getElem?_getD]
    rw [mod_two_cases _ _ (by omega), ← q i hi]
    rfl
  · apply List.map_congr_left
    intro j hj
    rw [List.mem_range] at hj
    simp only [Function.comp, List.getD_eq_getElem?_getD]
    congr 1
    have hidx : ((if rb.readIdx + n < rb.len then rb.readIdx + n else rb.readIdx + n - rb.len)
        + j) % rb.len = (rb.readIdx + (n + j)) % rb.len := by
      by_cases hrn : rb.readIdx + n < rb.len
      · rw [if_pos hrn, Nat.add_assoc]
      · rw [if_neg hrn]
        have : rb.readIdx + (n + j) = (rb.readIdx + n - rb.len + j) + rb.len := by omega
        rw [this, Nat.add_mod_right]
    rw [hidx, mod_two_cases _ _ (by omega)]
    split_ifs with hc1
    · rw [p _ hc1, if_neg (by omega)]
    · rw [p _ (by omega), if_neg (by omega)]

theorem write_false_state (fuel : Nat) (rb rb1 : RingBuffer α) (n : Nat) (src : Nat → α)
    (e : rb.write fuel n src = .ok (false, rb1)) : rb1 = rb ∧ rb.writable ≤ n := by
  have hle : rb.writable ≤ n := by
    by_contra hc
    have := write_true_of_lt fuel rb n src false rb1 (by omega) e
    cases this
  exact ⟨write_rejected_state fuel rb rb1 n src false hle e, hle⟩

theorem read_false_state [Zero α] (fuel : Nat) (rb rb1 : RingBuffer α) (n : Nat)
    (dst dst1 : Nat → α) (p : Nat) (e : rb.read fuel n dst p = .ok (false, rb1, dst1)) :
    rb1 = rb ∧ rb.readable ≤ n := by
  have hle : rb.readable ≤ n := by
    by_contra hc
    have := read_true_of_lt fuel rb n dst p false rb1 dst1 (by omega) e
    cases this
  exact ⟨read_rejected_state fuel rb rb1 n dst dst1 p false hle e, hle⟩

theorem pending_length [Zero α] (rb : RingBuffer α) : (pending rb).length = rb.readable := by
  simp [pending]

/-- The invariant of a history that started from a freshly constructed buffer. -/
theorem record_inv [Zero α] (fuel : Nat) (h h1 : History α) (c : Call α)
    (hwf : h.rb.WF) (hq : h.written = h.consumed ++ pending h.rb)
    (hne : h.written ≠ [] → 1 ≤ h.rb.readable)
    (e : record fuel h c = .ok h1) :
    h1.rb.WF ∧ h1.rb.len = h.rb.len ∧ h1.written = h1.consumed ++ pending h1.rb ∧
    (h1.written ≠ [] → 1 ≤ h1.rb.readable) := by
  cases c with
  | write n src =>
    simp only [record] at e
    split at e
    · cases e
    · rename_i rb1 ew
      simp only [Except.ok.injEq] at e
      subst e
      have hR := write_true_readable fuel h.rb rb1 n src hwf ew
      have hl := (write_true_effect fuel h.rb rb1 n src hwf ew).2.2.2.2.2.1
      refine ⟨write_true_wf fuel h.rb rb1 n src hwf ew, hl, ?_, ?_⟩
      · show h.written ++ List.map src (List.range n) = h.consumed ++ pending rb1
        rw [pending_write fuel h.rb rb1 n src hwf ew, hq, List.append_assoc]
      · intro hw
        show 1 ≤ rb1.readable
        rw [hR]
        by_cases hw0 : h.written = []
        · have : n ≠ 0 := by
            intro h0
            apply hw
            show h.written ++ List.map src (List.range n) = []
            rw [hw0, h0]
            rfl
          omega
        · have := hne hw0
          omega
    · rename_i rb1 ew
      simp only [Except.ok.injEq] at e
      subst e
      obtain ⟨hs, _⟩ := write_false_state fuel h.rb rb1 n src ew
      subst hs
      exact ⟨hwf, rfl, hq, hne⟩
  | read n dst =>
    simp only [record] at e
    split at e
    · cases e
    · rename_i rb1 dst1 er
      simp only [Except.ok.injEq] at e
      subst e
      have hR := read_true_readable fuel h.rb rb1 n dst dst1 hwf er
      have hn := (read_true_effect fuel h.rb rb1 n dst dst1 hwf er).1
      have hl := (read_true_effect fuel h.rb rb1 n dst dst1 hwf er).2.2.2.2.2.2.1
      refine ⟨read_true_wf fuel h.rb rb1 n dst dst1 hwf er, hl, ?_, ?_⟩
      · show h.written = (h.consumed ++ List.map dst1 (List.range n)) ++ pending rb1
        rw [hq, pending_read fuel h.rb rb1 n dst dst1 hwf er, List.append_assoc]
      · intro _
        show 1 ≤ rb1.readable
        omega
    · rename_i rb1 dst1 er
      simp only [Except.ok.injEq] at e
      subst e
      obtain ⟨hs, _⟩ := read_false_state fuel h.rb rb1 n dst dst1 0 er
      subst hs
      exact ⟨hwf, rfl, hq, hne⟩
  | getAmountWritten =>
    simp only [record, Except.ok.injEq] at e
    subst e
    exact ⟨hwf, rfl, hq, hne⟩
  | getAmountRead =>
    simp only [record, Except.ok.injEq] at e
    subst e
    exact ⟨hwf, rfl, hq, hne⟩

theorem run_history_inv [Zero α] (fuel : Nat) (calls : List (Call α)) :
    ∀ (h h1 : History α), h.rb.WF → h.written = h.consumed ++ pending h.rb →
      (h.written ≠ [] → 1 ≤ h.rb.readable) → run_history fuel h calls = .ok h1 →
      h1.rb.WF ∧ h1.rb.len = h.rb.len ∧ h1.written = h1.consumed ++ pending h1.rb ∧
      (h1.written ≠ [] → 1 ≤ h1.rb.readable) := by
  induction calls with
  | nil =>
    intro h h1 hwf hq hne e
    simp only [run_history, Except.ok.injEq] at e
    subst e
    exact ⟨hwf, rfl, hq, hne⟩
  | cons c cs ih =>
    intro h h1 hwf hq hne e
    simp only [run_history] at e
    split at e
    · cases e
    · rename_i h2 e2
      obtain ⟨a1, a2, a3, a4⟩ := record_inv fuel h h2 c hwf hq hne e2
      obtain ⟨b1, b2, b3, b4⟩ := ih h2 h1 a1 a3 a4 e
      exact ⟨b1, b2.trans a2, b3, b4⟩

theorem pending_construct [Zero α] (N : Nat) (h1 : 1 ≤ N) (hN : N < UINT_MOD) :
    pending (construct N : RingBuffer α) = [] := by
  have hc := counts_cases (construct N : RingBuffer α) (wf_construct N h1 hN)
  have hr : (construct N : RingBuffer α).readable = 0 := by
    have h0 : (construct N : RingBuffer α).readIdx = 0 := rfl
    have h0w : (construct N : RingBuffer α).writeIdx = 0 := rfl
    omega
  unfold pending
  rw [hr]
  rfl

theorem total_record [Zero α] (N fuel : Nat) (h : History α) (c : Call α)
    (hN : N ≤ 2 ^ 31) (hinv : Inv N h.rb) : ∃ h1, record (fuel + 2) h c = .ok h1 := by
  cases c with
  | write n src =>
    obtain ⟨b, rb1, e⟩ := total_write N fuel h.rb n src hN hinv
    cases b
    · exact ⟨_, by simp only [record, e]; rfl⟩
    · exact ⟨_, by simp only [record, e]; rfl⟩
  | read n out =>
    obtain ⟨b, rb1, o, e⟩ := total_read N fuel h.rb n out 0 hN hinv
    cases b
    · exact ⟨_, by simp only [record, e]; rfl⟩
    · exact ⟨_, by simp only [record, e]; rfl⟩
  | getAmountWritten => exact ⟨_, rfl⟩
  | getAmountRead => exact ⟨_, rfl⟩

theorem record_rb [Zero α] (fuel : Nat) (h h1 : History α) (c : Call α)
    (e : record fuel h c = .ok h1) : h.rb.call fuel c = .ok h1.rb := by
  cases c with
  | write n src =>
    simp only [record] at e
    simp only [call]
    split at e
    · cases e
    · rename_i rb1 ew
      simp only [Except.ok.injEq] at e
      subst e
      rw [ew]
    · rename_i rb1 ew
      simp only [Except.ok.injEq] at e
      subst e
      rw [ew]
  | read n dst =>
    simp only [record] at e
    simp only [call]
    split at e
    · cases e
    · rename_i rb1 d1 er
      simp only [Except.ok.injEq] at e
      subst e
      rw [er]
    · rename_i rb1 d1 er
      simp only [Except.ok.injEq] at e
      subst e
      rw [er]
  | getAmountWritten =>
    simp only [record, Except.ok.injEq] at e
    subst e
    rfl
  | getAmountRead =>
    simp only [record, Except.ok.injEq] at e
    subst e
    rfl

theorem total_run_history [Zero α] (N fuel : Nat) (hN : N ≤ 2 ^ 31)
    (calls : List (Call α)) :
    ∀ h : History α, Inv N h.rb → ∃ h1, run_history (fuel + 2) h calls = .ok h1 := by
  induction calls with
  | nil => exact fun h _ => ⟨h, rfl⟩
  | cons c cs ih =>
    intro h hinv
    obtain ⟨h1, e⟩ := total_record N fuel h c hN hinv
    obtain ⟨h2, e2⟩ := ih h1 (inv_call N _ h.rb h1.rb c hinv (record_rb _ h h1 c e))
    exact ⟨h2, by simp only [run_history, e, e2]⟩

/-! ## Cursors and snapshots along a history -/

theorem snap_call [Zero α] (N fuel : Nat) (rb rb1 : RingBuffer α) (c : Call α)
    (hinv : Inv N rb) (hs : rb.last_writeIdx < max N 1 ∧ rb.last_readIdx < max N 1)
    (e : rb.call fuel c = .ok rb1) :
    rb1.last_writeIdx < max N 1 ∧ rb1.last_readIdx < max N 1 := by
  obtain ⟨i1, i2, i3, i4⟩ := hinv
  cases c with
  | write n src =>
    simp only [call] at e
    split at e
    · cases e
    · rename_i b rb2 ew
      simp only [Except.ok.injEq] at e
      subst e
      have hf := write_frame fuel rb n src b rb2 ew
      rw [hf.2.2.1, hf.2.2.2]
      exact hs
  | read n out =>
    simp only [call] at e
    split at e
    · cases e
    · rename_i b rb2 o er
      simp only [Except.ok.injEq] at e
      subst e
      have hf := read_frame fuel rb n out 0 b rb2 o er
      rw [hf.2.2.1, hf.2.2.2]
      exact hs
  | getAmountWritten =>
    simp only [call, getAmountWritten, Except.ok.injEq] at e
    subst e
    exact ⟨i4, hs.2⟩
  | getAmountRead =>
    simp only [call, getAmountRead, Except.ok.injEq] at e
    subst e
    exact ⟨hs.1, i3⟩

theorem snap_run [Zero α] (N fuel : Nat) (calls : List (Call α)) :
    ∀ (rb rb1 : RingBuffer α), Inv N rb →
      rb.last_writeIdx < max N 1 ∧ rb.last_readIdx < max N 1 →
      rb.run fuel calls = .ok rb1 →
      rb1.last_writeIdx < max N 1 ∧ rb1.last_readIdx < max N 1 := by
  induction calls with
  | nil =>
    intro rb rb1 _ hs e
    simp only [run, Except.ok.injEq] at e
    subst e
    exact hs
  | cons c cs ih =>
    intro rb rb1 hinv hs e
    simp only [run] at e
    split at e
    · cases e
    · rename_i rb2 e2
      exact ih rb2 rb1 (inv_call N fuel rb rb2 c hinv e2) (snap_call N fuel rb rb2 c hinv hs e2) e

theorem record_cursors [Zero α] (fuel : Nat) (h h1 : History α) (c : Call α) (w0 r0 : Nat)
    (hwf : h.rb.WF) (hw : h.rb.writeIdx = (w0 + h.written.length) % h.rb.len)
    (hr : h.rb.readIdx = (r0 + h.consumed.length) % h.rb.len)
    (e : record fuel h c = .ok h1) :
    h1.rb.WF ∧ h1.rb.len = h.rb.len ∧
    h1.rb.writeIdx = (w0 + h1.written.length) % h.rb.len ∧
    h1.rb.readIdx = (r0 + h1.consumed.length) % h.rb.len ∧
    (c.is_getAmountWritten = false → h1.rb.last_writeIdx = h.rb.last_writeIdx) ∧
    (c.is_getAmountRead = false → h1.rb.last_readIdx = h.rb.last_readIdx) := by
  have hWle := writable_le_len h.rb hwf
  have hRlt := readable_lt_len h.rb hwf
  cases c with
  | write n src =>
    simp only [record] at e
    split at e
    · cases e
    · rename_i rb1 ew
      simp only [Except.ok.injEq] at e
      subst e
      obtain ⟨hn, _, _, hw1, hr1, hl1, hlw, hlr⟩ := write_true_effect fuel h.rb rb1 n src hwf ew
      refine ⟨write_true_wf fuel h.rb rb1 n src hwf ew, hl1, ?_, ?_, fun _ => hlw,
        fun _ => hlr⟩
      · show rb1.writeIdx = (w0 + (h.written ++ List.map src (List.range n)).length) % h.rb.len
        obtain ⟨_, _, _, h4⟩ := hwf
        rw [hw1, ← mod_two_cases _ _ (by omega), hw, List.length_append, List.length_map,
          List.length_range, Nat.mod_add_mod, Nat.add_assoc]
      · show rb1.readIdx = _
        rw [hr1]
        exact hr
    · rename_i rb1 ew
      simp only [Except.ok.injEq] at e
      subst e
      obtain ⟨hs, _⟩ := write_false_state fuel h.rb rb1 n src ew
      subst hs
      exact ⟨hwf, rfl, hw, hr, fun _ => rfl, fun _ => rfl⟩
  | read n dst =>
    simp only [record] at e
    split at e
    · cases e
    · rename_i rb1 dst1 er
      simp only [Except.ok.injEq] at e
      subst e
      obtain ⟨hn, _, _, _, hr1, hw1, hl1, hlw, hlr⟩ :=
        read_true_effect fuel h.rb rb1 n dst dst1 hwf er
      refine ⟨read_true_wf fuel h.rb rb1 n dst dst1 hwf er, hl1, ?_, ?_, fun _ => hlw,
        fun _ => hlr⟩
      · show rb1.writeIdx = _
        rw [hw1]
        exact hw
      · show rb1.readIdx = (r0 + (h.consumed ++ List.map dst1 (List.range n)).length) % h.rb.len
        obtain ⟨_, _, h3, _⟩ := hwf
        rw [hr1, ← mod_two_cases _ _ (by omega), hr, List.length_append, List.length_map,
          List.length_range, Nat.mod_add_mod, Nat.add_assoc]
    · rename_i rb1 dst1 er
      simp only [Except.ok.injEq] at e
      subst e
      obtain ⟨hs, _⟩ := read_false_state fuel h.rb rb1 n dst dst1 0 er
      subst hs
      exact ⟨hwf, rfl, hw, hr, fun _ => rfl, fun _ => rfl⟩
  | getAmountWritten =>
    simp only [record, Except.ok.injEq] at e
    subst e
    exact ⟨hwf, rfl, hw, hr, fun hc => (by cases hc), fun _ => rfl⟩
  | getAmountRead =>
    simp only [record, Except.ok.injEq] at e
    subst e
    exact ⟨hwf, rfl, hw, hr, fun _ => rfl, fun hc => (by cases hc)⟩

theorem run_history_cursors [Zero α] (fuel : Nat) (w0 r0 : Nat) (calls : List (Call α)) :
    ∀ (h h1 : History α), h.rb.WF →
      h.rb.writeIdx = (w0 + h.written.length) % h.rb.len →
      h.rb.readIdx = (r0 + h.consumed.length) % h.rb.len →
      run_history fuel h calls = .ok h1 →
      h1.rb.WF ∧ h1.rb.len = h.rb.len ∧
      h1.rb.writeIdx = (w0 + h1.written.length) % h.rb.len ∧
      h1.rb.readIdx = (r0 + h1.consumed.length) % h.rb.len ∧
      ((∀ c ∈ calls, c.is_getAmountWritten = false) →
        h1.rb.last_writeIdx = h.rb.last_writeIdx) ∧
      ((∀ c ∈ calls, c.is_getAmountRead = false) →
        h1.rb.last_readIdx = h.rb.last_readIdx) := by
  induction calls with
  | nil =>
    intro h h1 hwf hw hr e
    simp only [run_history, Except.ok.injEq] at e
    subst e
    exact ⟨hwf, rfl, hw, hr, fun _ => rfl, fun _ => rfl⟩
  | cons c cs ih =>
    intro h h1 hwf hw hr e
    simp only [run_history] at e
    split at e
    · cases e
    · rename_i h2 e2
      obtain ⟨a1, a2, a3, a4, a5, a6⟩ := record_cursors fuel h h2 c w0 r0 hwf hw hr e2
      obtain ⟨b1, b2, b3, b4, b5, b6⟩ := ih h2 h1 a1 (by rw [a2]; exact a3)
        (by rw [a2]; exact a4) e
      rw [a2] at b3 b4
      refine ⟨b1, b2.trans a2, b3, b4, ?_, ?_⟩
      · intro hc
        rw [b5 (fun c hm => hc c (List.mem_cons_of_mem _ hm)), a5 (hc c (List.mem_cons_self _ _))]
      · intro hc
        rw [b6 (fun c hm => hc c (List.mem_cons_of_mem _ hm)), a6 (hc c (List.mem_cons_self _ _))]


theorem getAmountWritten_mod (rb : RingBuffer α) (N : Nat) (hl : rb.len = N)
    (h31 : N ≤ 2 ^ 31) (h1 : rb.writeIdx < N) (h2 : rb.last_writeIdx < N) :
    rb.getAmountWritten.1 = (((rb.last_writeIdx + N - rb.writeIdx) % N : Nat) : Int) := by
  subst hl
  rw [getAmountWritten_val rb h31 h1 h2, mod_two_cases _ _ (by omega)]
  split_ifs <;> omega

theorem getAmountRead_mod (rb : RingBuffer α) (N : Nat) (hl : rb.len = N)
    (h31 : N ≤ 2 ^ 31) (h1 : rb.readIdx < N) (h2 : rb.last_readIdx < N) :
    rb.getAmountRead.1 = (((rb.last_readIdx + N - rb.readIdx) % N : Nat) : Int) := by
  subst hl
  rw [getAmountRead_val rb h31 h1 h2, mod_two_cases _ _ (by omega)]
  split_ifs <;> omega

/-! ## The claims about the ring buffer -/

/-- C1. For every capacity `N` and every sequence of calls of `write`, `read`,
`getAmountWritten` and `getAmountRead` (any arguments, accepted or rejected) on a freshly
constructed buffer, the state after the calls has `readable() + writable() == N` and, for
`N >= 1`, both cursors in `[0, N)`; and for `N <= 2^31` every such sequence does run to
completion (no fault, at most two nested calls). -/
theorem invariant_after_calls [Zero α] (N : Nat) (hN : N < UINT_MOD) (fuel : Nat)
    (calls : List (Call α)) :
    (∀ rb, (construct N : RingBuffer α).run fuel calls = .ok rb →
      rb.readable + rb.writable = N ∧ (1 ≤ N → rb.readIdx < N ∧ rb.writeIdx < N)) ∧
    (N ≤ 2 ^ 31 → ∃ rb, (construct N : RingBuffer α).run (fuel + 2) calls = .ok rb) := by
  refine ⟨?_, fun h31 => total_run N fuel h31 calls _ (inv_construct N)⟩
  intro rb h
  have hinv := inv_run N fuel calls _ rb (inv_construct N) h
  refine ⟨inv_sum N rb hN hinv, fun h1 => ?_⟩
  obtain ⟨i1, i2, i3, i4⟩ := hinv
  omega

/-- Witness for C1: capacity 4 with an accepted write, a rejected write, a read and both
polls. -/
theorem invariant_after_calls_witness :
    4 < UINT_MOD ∧
    ((∀ rb, (construct 4 : RingBuffer Int).run 0
        [.write 3 sample_input, .write 3 sample_input, .read 2 sample_output,
          .getAmountWritten, .getAmountRead] = .ok rb →
      rb.readable + rb.writable = 4 ∧ (1 ≤ 4 → rb.readIdx < 4 ∧ rb.writeIdx < 4)) ∧
    (4 ≤ 2 ^ 31 → ∃ rb, (construct 4 : RingBuffer Int).run (0 + 2)
        [.write 3 sample_input, .write 3 sample_input, .read 2 sample_output,
          .getAmountWritten, .getAmountRead] = .ok rb)) :=
  ⟨by decide, invariant_after_calls 4 (by decide) 0 _⟩

/-- C2. In a state whose cursors are in `[0, N)`, `write(n, src)` returns false exactly when
`writable() <= n`: then it returns false and the whole state (data, both cursors, both
snapshots) is unchanged, which covers the exact fit `n = writable()` and every `n >= N`;
and when `n < writable()` no execution returns false, and the call does return true
(shown when the 32-bit sum `writeIdx + n` does not wrap, as for every `N <= 2^31`). -/
theorem write_false_iff (fuel : Nat) (rb : RingBuffer α) (n : Nat) (src : Nat → α)
    (h : rb.WF) :
    (rb.writable ≤ n → rb.write (fuel + 1) n src = .ok (false, rb)) ∧
    rb.write (fuel + 1) rb.writable src = .ok (false, rb) ∧
    (rb.len ≤ n → rb.write (fuel + 1) n src = .ok (false, rb)) ∧
    (∀ f b rb1, rb.write f n src = .ok (b, rb1) → (b = false ↔ rb.writable ≤ n)) ∧
    (∀ f b rb1, rb.write f n src = .ok (b, rb1) → b = false → rb1 = rb) ∧
    (n < rb.writable → rb.writeIdx + n < UINT_MOD →
      ∃ rb1, rb.write (fuel + 2) n src = .ok (true, rb1)) := by
  have key : ∀ f b rb1, rb.write f n src = .ok (b, rb1) → (b = false ↔ rb.writable ≤ n) := by
    intro f b rb1 e
    constructor
    · intro hb
      by_contra hc
      have := write_true_of_lt f rb n src b rb1 (by omega) e
      rw [hb] at this
      cases this
    · intro hle
      cases f with
      | zero => simp only [write] at e; cases e
      | succ f =>
        rw [write_reject f rb n src hle] at e
        simp only [Except.ok.injEq, Prod.mk.injEq] at e
        exact e.1.symm
  refine ⟨write_reject fuel rb n src, write_reject fuel rb _ src (le_refl _),
    fun hN => write_reject fuel rb n src (le_trans (writable_le_len rb h) hN), key, ?_,
    fun hn hov => write_ok_of_lt fuel rb n src h hn hov⟩
  intro f b rb1 e hb
  have hle := (key f b rb1 e).mp hb
  cases f with
  | zero => simp only [write] at e; cases e
  | succ f =>
    rw [write_reject f rb n src hle] at e
    simp only [Except.ok.injEq, Prod.mk.injEq] at e
    exact e.2.symm

/-- Witness for C2: the capacity-6 sample state, where `writable()` is 4, and `n = 4`. -/
theorem write_false_iff_witness :
    sample_write_state.WF ∧
    sample_write_state.write 1 4 sample_input = .ok (false, sample_write_state) :=
  ⟨by decide, (write_false_iff 0 sample_write_state 4 sample_input (by decide)).1 (by decide)⟩

/-- C3. In a state whose cursors are in `[0, N)`, for `n < writable()` (and no wrap of the
32-bit sum `writeIdx + n`, as for every `N <= 2^31`), `write(n, src)` returns true and the
new state is the two-segment copy: slot `(writeIdx + i) mod N` holds `src[i]` for every
`i < n`, every other slot is unchanged, `writeIdx` becomes `(writeIdx + n) mod N`, and
`readIdx`, `len` and both snapshots are unchanged.  Without wraparound the call needs no
nested call; with `writeIdx + n > N` the two nested writes, of `N - writeIdx` and of
`writeIdx + n - N` elements, each return true without any further nested call. -/
theorem write_two_segment (fuel : Nat) (rb : RingBuffer α) (n : Nat) (src : Nat → α)
    (h : rb.WF) (hn : n < rb.writable) (hov : rb.writeIdx + n < UINT_MOD) :
    ∃ rb1, rb.write (fuel + 2) n src = .ok (true, rb1) ∧
      rb1.data.length = rb.len ∧
      (∀ i, i < n → rb1.data[(rb.writeIdx + i) % rb.len]? = some (src i)) ∧
      (∀ k, (∀ i, i < n → k ≠ (rb.writeIdx + i) % rb.len) → rb1.data[k]? = rb.data[k]?) ∧
      rb1.writeIdx = (rb.writeIdx + n) % rb.len ∧
      rb1.readIdx = rb.readIdx ∧ rb1.len = rb.len ∧
      rb1.last_writeIdx = rb.last_writeIdx ∧ rb1.last_readIdx = rb.last_readIdx ∧
      (rb.writeIdx + n ≤ rb.len → rb.write 1 n src = .ok (true, rb1)) ∧
      (rb.len < rb.writeIdx + n → ∃ rbm,
        rb.write 1 (rb.len - rb.writeIdx) src = .ok (true, rbm) ∧
        rbm.write 1 (rb.writeIdx + n - rb.len) (fun i => src (rb.len - rb.writeIdx + i))
          = .ok (true, rb1)) := by
  have hwf := h
  obtain ⟨h1, h2, h3, h4⟩ := h
  by_cases hle : rb.writeIdx + n ≤ rb.len
  · obtain ⟨d, e, l, p⟩ := write_nowrap rb n src hwf hn hle
    refine ⟨_, e (fuel + 1), l, ?_, ?_, rfl, rfl, rfl, rfl, rfl, fun _ => e 0, fun hc => ?_⟩
    · intro i hi
      have hm : (rb.writeIdx + i) % rb.len = rb.writeIdx + i := Nat.mod_eq_of_lt (by omega)
      show d[(rb.writeIdx + i) % rb.len]? = some (src i)
      rw [hm, p, if_pos (by omega), Nat.add_sub_cancel_left]
    · intro k hk
      show d[k]? = rb.data[k]?
      rw [p, if_neg]
      intro hc
      apply hk (k - rb.writeIdx) (by omega)
      have : rb.writeIdx + (k - rb.writeIdx) = k := by omega
      rw [this, Nat.mod_eq_of_lt (by omega)]
    · omega
  · obtain ⟨d1, d2, e1, e2, e, l, p⟩ := write_wrap rb n src hwf hn (by omega) hov
    have hw := writable_eq rb hwf
    have hrw : rb.readIdx ≤ rb.writeIdx := by
      by_contra hc
      rw [if_neg hc] at hw
      omega
    rw [if_pos hrw] at hw
    have hwn : (rb.writeIdx + n) % rb.len = rb.writeIdx + n - rb.len := by
      have : rb.writeIdx + n = (rb.writeIdx + n - rb.len) + rb.len := by omega
      rw [this, Nat.add_mod_right, Nat.add_sub_cancel]
      exact Nat.mod_eq_of_lt (by omega)
    refine ⟨_, e fuel, l, ?_, ?_, hwn.symm, rfl, rfl, rfl, rfl, fun hc => ?_,
      fun _ => ⟨_, e1 0, e2 0⟩⟩
    · intro i hi
      show d2[(rb.writeIdx + i) % rb.len]? = some (src i)
      by_cases hi2 : rb.writeIdx + i < rb.len
      · rw [Nat.mod_eq_of_lt hi2, p]
        rw [if_neg (by omega), if_pos (by omega), Nat.add_sub_cancel_left]
      · have hm : (rb.writeIdx + i) % rb.len = rb.writeIdx + i - rb.len := by
          have : rb.writeIdx + i = (rb.writeIdx + i - rb.len) + rb.len := by omega
          rw [this, Nat.add_mod_right, Nat.add_sub_cancel]
          exact Nat.mod_eq_of_lt (by omega)
        rw [hm, p, if_pos (by omega)]
        congr 2
        omega
    · intro k hk
      show d2[k]? = rb.data[k]?
      rw [p, if_neg, if_neg]
      · intro hc
        apply hk (k - rb.writeIdx) (by omega)
        have : rb.writeIdx + (k - rb.writeIdx) = k := by omega
        rw [this, Nat.mod_eq_of_lt (by omega)]
      · intro hc
        apply hk (rb.len - rb.writeIdx + k) (by omega)
        have : rb.writeIdx + (rb.len - rb.writeIdx + k) = k + rb.len := by omega
        rw [this, Nat.add_mod_right, Nat.mod_eq_of_lt (by omega)]
    · omega

/-- Witness for C3: the capacity-6 sample state with the write cursor at 4 and `n = 3`, a
write that wraps. -/
theorem write_two_segment_witness :
    sample_write_state.WF ∧ 3 < sample_write_state.writable ∧
    sample_write_state.writeIdx + 3 < UINT_MOD ∧
    ∃ rb1, sample_write_state.write 2 3 sample_input = .ok (true, rb1) ∧
      rb1.writeIdx = (4 + 3) % 6 :=
  ⟨by decide, by decide, by decide,
    (write_two_segment 0 sample_write_state 3 sample_input (by decide) (by decide)
      (by decide)).elim fun rb1 h => ⟨rb1, h.1, h.2.2.2.2.1⟩⟩

/-- C4. In a state whose cursors are in `[0, N)`, `read(n, dst)` returns false exactly when
`readable() <= n`, and then the state and `dst` are unchanged.  Otherwise (and with no wrap
of the 32-bit sum `readIdx + n`, as for every `N <= 2^31`) it returns true, `dst[i]` is the
old content of slot `(readIdx + i) mod N` for every `i < n`, the rest of `dst` is
untouched, exactly those `n` slots are set to zero, `readIdx` becomes `(readIdx + n) mod N`,
and `writeIdx`, `len` and both snapshots are unchanged; with `readIdx + n > N` the two
nested reads each return true without any further nested call. -/
theorem read_contract [Zero α] (fuel : Nat) (rb : RingBuffer α) (n : Nat) (dst : Nat → α)
    (h : rb.WF) :
    (rb.readable ≤ n → rb.read (fuel + 1) n dst 0 = .ok (false, rb, dst)) ∧
    (∀ f b rb1 dst1, rb.read f n dst 0 = .ok (b, rb1, dst1) →
      (b = false ↔ rb.readable ≤ n)) ∧
    (n < rb.readable → rb.readIdx + n < UINT_MOD →
      ∃ rb1 dst1, rb.read (fuel + 2) n dst 0 = .ok (true, rb1, dst1) ∧
        (∀ i, i < n → some (dst1 i) = rb.data[(rb.readIdx + i) % rb.len]?) ∧
        (∀ m, n ≤ m → dst1 m = dst m) ∧
        rb1.data.length = rb.len ∧
        (∀ i, i < n → rb1.data[(rb.readIdx + i) % rb.len]? = some 0) ∧
        (∀ k, (∀ i, i < n → k ≠ (rb.readIdx + i) % rb.len) → rb1.data[k]? = rb.data[k]?) ∧
        rb1.readIdx = (rb.readIdx + n) % rb.len ∧
        rb1.writeIdx = rb.writeIdx ∧ rb1.len = rb.len ∧
        rb1.last_writeIdx = rb.last_writeIdx ∧ rb1.last_readIdx = rb.last_readIdx ∧
        (rb.readIdx + n ≤ rb.len → rb.read 1 n dst 0 = .ok (true, rb1, dst1)) ∧
        (rb.len < rb.readIdx + n → ∃ rbm dstm,
          rb.read 1 (rb.len - rb.readIdx) dst 0 = .ok (true, rbm, dstm) ∧
          rbm.read 1 (rb.readIdx + n - rb.len) dstm (0 + (rb.len - rb.readIdx))
            = .ok (true, rb1, dst1))) := by
  have hwf := h
  obtain ⟨h1, h2, h3, h4⟩ := h
  refine ⟨read_reject fuel rb n dst 0, ?_, ?_⟩
  · intro f b rb1 dst1 e
    constructor
    · intro hb
      by_contra hc
      have := read_true_of_lt f rb n dst 0 b rb1 dst1 (by omega) e
      rw [hb] at this
      cases this
    · intro hle
      cases f with
      | zero => simp only [read] at e; cases e
      | succ f =>
        rw [read_reject f rb n dst 0 hle] at e
        simp only [Except.ok.injEq, Prod.mk.injEq] at e
        exact e.1.symm
  intro hn hov
  have hr := readable_eq rb hwf
  by_cases hle : rb.readIdx + n ≤ rb.len
  · obtain ⟨d, o, e, l, p, q, r⟩ := read_nowrap rb n dst 0 hwf hn hle
    refine ⟨_, o, e (fuel + 1), ?_, ?_, l, ?_, ?_, rfl, rfl, rfl, rfl, rfl, fun _ => e 0,
      fun hc => ?_⟩
    · intro i hi
      have hm : (rb.readIdx + i) % rb.len = rb.readIdx + i := Nat.mod_eq_of_lt (by omega)
      rw [hm]
      exact q i (by omega) (by omega)
    · intro m hm
      exact r m (by omega)
    · intro i hi
      have hm : (rb.readIdx + i) % rb.len = rb.readIdx + i := Nat.mod_eq_of_lt (by omega)
      show d[(rb.readIdx + i) % rb.len]? = some 0
      rw [hm, p, if_pos (by omega)]
    · intro k hk
      show d[k]? = rb.data[k]?
      rw [p, if_neg]
      intro hc
      apply hk (k - rb.readIdx) (by omega)
      have : rb.readIdx + (k - rb.readIdx) = k := by omega
      rw [this, Nat.mod_eq_of_lt (by omega)]
    · omega
  · obtain ⟨d1, d2, o1, o2, e1, e2, e, l, p, q, r⟩ := read_wrap rb n dst 0 hwf hn (by omega) hov
    have hrw : rb.writeIdx < rb.readIdx := by
      by_contra hc
      rw [if_neg hc] at hr
      omega
    rw [if_pos hrw] at hr
    have hmod : ∀ i, rb.len ≤ rb.readIdx + i → i ≤ n →
        (rb.readIdx + i) % rb.len = rb.readIdx + i - rb.len := by
      intro i hi1 hi2
      have : rb.readIdx + i = (rb.readIdx + i - rb.len) + rb.len := by omega
      rw [this, Nat.add_mod_right, Nat.add_sub_cancel]
      exact Nat.mod_eq_of_lt (by omega)
    refine ⟨_, o2, e fuel, ?_, ?_, l, ?_, ?_, (hmod n (by omega) (le_refl _)).symm, rfl, rfl,
      rfl, rfl, fun hc => ?_, fun _ => ⟨_, o1, e1 0, e2 0⟩⟩
    · intro i hi
      rw [q i (by omega) (by omega)]
      by_cases hi2 : rb.readIdx + i < rb.len
      · rw [Nat.mod_eq_of_lt hi2, if_pos (by omega), Nat.sub_zero]
      · rw [hmod i (by omega) (by omega), if_neg (by omega)]
        congr 1
        omega
    · intro m hm
      exact r m (by omega)
    · intro i hi
      show d2[(rb.readIdx + i) % rb.len]? = some 0
      by_cases hi2 : rb.readIdx + i < rb.len
      · rw [Nat.mod_eq_of_lt hi2, p, if_pos (by omega)]
      · rw [hmod i (by omega) (by omega), p, if_pos (by omega)]
    · intro k hk
      show d2[k]? = rb.data[k]?
      rw [p, if_neg]
      intro hc
      rcases hc with hc | hc
      · apply hk (rb.len - rb.readIdx + k) (by omega)
        have : rb.readIdx + (rb.len - rb.readIdx + k) = k + rb.len := by omega
        rw [this, Nat.add_mod_right, Nat.mod_eq_of_lt (by omega)]
      · apply hk (k - rb.readIdx) (by omega)
        have : rb.readIdx + (k - rb.readIdx) = k := by omega
        rw [this, Nat.mod_eq_of_lt (by omega)]
    · omega

/-- Witness for C4: the capacity-6 sample state with the read cursor at 4 and `n = 4`, a
read that wraps. -/
theorem read_contract_witness :
    sample_read_state.WF ∧ 4 < sample_read_state.readable ∧
    sample_read_state.readIdx + 4 < UINT_MOD ∧
    ∃ rb1 dst1, sample_read_state.read 2 4 sample_output 0 = .ok (true, rb1, dst1) ∧
      rb1.readIdx = (4 + 4) % 6 :=
  ⟨by decide, by decide, by decide,
    ((read_contract 0 sample_read_state 4 sample_output (by decide)).2.2 (by decide)
      (by decide)).elim fun rb1 h => h.elim fun dst1 h => ⟨rb1, dst1, h.1, h.2.2.2.2.2.2.1⟩⟩

/-- C5 (the code on the round trip).  For every capacity `N >= 1`, every `k <= N - 1` and
every sequence `s`, on a freshly constructed buffer `write(k, s)` returns true, and the
following `read(k, dst)` returns false: `readable()` is `k`, not more than `k`, so the read
is rejected, `dst` is left as it was and the buffer keeps `readable() == k` and
`writable() == N - k` instead of returning to the initial counts. -/
theorem round_trip_read_rejected [Zero α] (N k fuel : Nat) (s dst : Nat → α)
    (hN : 1 ≤ N) (hM : N < UINT_MOD) (hk : k ≤ N - 1) :
    ∃ rb1, (construct N : RingBuffer α).write (fuel + 1) k s = .ok (true, rb1) ∧
      rb1.read (fuel + 1) k dst 0 = .ok (false, rb1, dst) ∧
      rb1.readable = k ∧ rb1.writable = N - k := by
  obtain ⟨d, e, _, hr, hw⟩ := write_fresh N k s hM (by omega)
  exact ⟨_, e fuel, read_reject fuel _ k dst 0 (by rw [hr]), hr, hw⟩

/-- Witness for C5: capacity 4 and `k = 3`. -/
theorem round_trip_read_rejected_witness :
    1 ≤ 4 ∧ 4 < UINT_MOD ∧ 3 ≤ 4 - 1 ∧
    ∃ rb1, (construct 4 : RingBuffer Int).write (0 + 1) 3 sample_input = .ok (true, rb1) ∧
      rb1.read (0 + 1) 3 sample_output 0 = .ok (false, rb1, sample_output) ∧
      rb1.readable = 3 ∧ rb1.writable = 4 - 3 :=
  ⟨by decide, by decide, by decide,
    round_trip_read_rejected 4 3 0 sample_input sample_output (by decide) (by decide)
      (by decide)⟩

/-- C6 (the code on the spec's example).  On a fresh buffer of capacity 8, after a
successful write of 5 elements `getAmountWritten()` returns 3, the snapshot minus the
cursor modulo 8, not the 5 elements written; and after a further successful read of 3
elements `getAmountRead()` returns 5, not the 3 elements consumed. -/
theorem getAmountWritten_after_five [Zero α] (src dst : Nat → α) :
    ∃ rb1, (construct 8 : RingBuffer α).write 2 5 src = .ok (true, rb1) ∧
      rb1.getAmountWritten.1 = 3 ∧
      ∃ rb2 dst1, rb1.read 2 3 dst 0 = .ok (true, rb2, dst1) ∧ rb2.getAmountRead.1 = 5 := by
  obtain ⟨d, e, hwf, hr, hw⟩ := write_fresh 8 5 src (by decide) (by decide)
  refine ⟨_, e 1, ?_, ?_⟩
  · rw [getAmountWritten_val _ (by show 8 ≤ 2 ^ 31; decide) (by show 5 < 8; decide)
      (by show 0 < 8; decide)]
    rfl
  · obtain ⟨d2, o, e2, l2, _⟩ := read_nowrap _ 3 dst 0 hwf (by rw [hr]; decide)
      (by show 0 + 3 ≤ 8; decide)
    refine ⟨_, o, e2 1, ?_⟩
    rw [getAmountRead_val _ (by show 8 ≤ 2 ^ 31; decide) (by show (0 + 3) % 8 < 8; decide)
      (by show 0 < 8; decide)]
    rfl

/-- C7. In every state, `getAmountWritten()` changes only the snapshot `last_writeIdx` (not
the data, the cursors or the other snapshot), a second call right after it returns 0, and
so does a later call after any calls among which no write was accepted (reads, rejected
writes, polls); the same holds for `getAmountRead()`, `last_readIdx` and accepted reads. -/
theorem getAmount_twice_zero [Zero α] (rb : RingBuffer α) (fuel : Nat)
    (calls : List (Call α)) (rb2 : RingBuffer α) :
    rb.getAmountWritten.2 = { rb with last_writeIdx := rb.writeIdx } ∧
    rb.getAmountRead.2 = { rb with last_readIdx := rb.readIdx } ∧
    rb.getAmountWritten.2.getAmountWritten.1 = 0 ∧
    rb.getAmountRead.2.getAmountRead.1 = 0 ∧
    (no_accepted_write fuel rb.getAmountWritten.2 calls →
      rb.getAmountWritten.2.run fuel calls = .ok rb2 → rb2.getAmountWritten.1 = 0) ∧
    (no_accepted_read fuel rb.getAmountRead.2 calls →
      rb.getAmountRead.2.run fuel calls = .ok rb2 → rb2.getAmountRead.1 = 0) :=
  ⟨rfl, rfl, getAmountWritten_zero _ rfl, getAmountRead_zero _ rfl,
    fun hq hr => getAmountWritten_zero _ (quiet_write_snapshot fuel calls _ rb2 rfl hq hr),
    fun hq hr => getAmountRead_zero _ (quiet_read_snapshot fuel calls _ rb2 rfl hq hr)⟩

/-- Witness for C7: after the poll, a read of 2 elements, a rejected write of 7 elements and
a `getAmountRead()`; the next `getAmountWritten()` returns 0. -/
theorem getAmount_twice_zero_witness :
    no_accepted_write 2 sample_read_state.getAmountWritten.2
      [.read 2 sample_output, .write 7 sample_input, .getAmountRead] ∧
    sample_read_state.getAmountWritten.2.run 2
      [.read 2 sample_output, .write 7 sample_input, .getAmountRead]
      = .ok ⟨[1, 2, 3, 4, 0, 0], 0, 3, 6, 3, 0⟩ ∧
    (getAmountWritten (⟨[1, 2, 3, 4, 0, 0], 0, 3, 6, 3, 0⟩ : RingBuffer Int)).1 = 0 :=
  have hq : no_accepted_write 2 sample_read_state.getAmountWritten.2
      [.read 2 sample_output, .write 7 sample_input, .getAmountRead] :=
    ⟨trivial, (show (⟨[1, 2, 3, 4, 0, 0], 0, 3, 6, 3, 0⟩ : RingBuffer Int).writable ≤ 7 by decide),
      trivial, trivial⟩
  ⟨hq, rfl, (getAmount_twice_zero sample_read_state 2 _ _).2.2.2.2.1 hq rfl⟩

/-- C8 (the code for `n = 0`).  In every state with cursors in `[0, N)`, `write(0, src)`
returns true and leaves the buffer unchanged; `read(0, dst)` returns true and leaves the
buffer and `dst` unchanged when the buffer is not empty, but on an empty buffer, where
`readIdx == writeIdx`, it returns false. -/
theorem zero_length_calls [Zero α] (fuel : Nat) (rb : RingBuffer α) (src dst : Nat → α)
    (h : rb.WF) :
    rb.write (fuel + 1) 0 src = .ok (true, rb) ∧
    (rb.readIdx = rb.writeIdx → rb.read (fuel + 1) 0 dst 0 = .ok (false, rb, dst)) ∧
    (rb.readIdx ≠ rb.writeIdx → rb.read (fuel + 1) 0 dst 0 = .ok (true, rb, dst)) := by
  have hw := writable_eq rb h
  have hr := readable_eq rb h
  obtain ⟨h1, h2, h3, h4⟩ := h
  have hlen : rb.len ≠ 0 := by omega
  refine ⟨?_, ?_, ?_⟩
  · have e := write_direct_eq fuel rb 0 src rb.data (by split at hw <;> omega)
      (by rw [uadd_eq (by omega)]; omega) rfl hlen
    rw [e, uadd_eq (by omega), Nat.add_zero, Nat.mod_eq_of_lt h4]
  · intro he
    exact read_reject fuel rb 0 dst 0 (by rw [hr, he]; simp)
  · intro hne
    have e := read_direct_eq fuel rb 0 dst 0 rb.data dst (by split at hr <;> omega)
      (by rw [uadd_eq (by omega)]; omega) rfl hlen
    rw [e, uadd_eq (by omega), Nat.add_zero, Nat.mod_eq_of_lt h3]

/-- Witness for C8: the freshly constructed buffer of capacity 4, which is empty. -/
theorem zero_length_calls_witness :
    (construct 4 : RingBuffer Int).WF ∧
    (construct 4 : RingBuffer Int).read 1 0 sample_output 0
      = .ok (false, construct 4, sample_output) :=
  ⟨by decide, (zero_length_calls 0 (construct 4) sample_input sample_output (by decide)).2.1 rfl⟩

/-- C9 (the code on the wraparound scenario).  On a fresh buffer of capacity 4, for all
sequences `a`, `b` and output memories `d1`, `d2`: `write(3, a)` returns true, but then
`read(3, d1)`, `write(3, b)` and `read(3, d2)` all return false and change neither the
buffer nor `d1`, `d2`; the second write never takes place and `d2` does not receive `b`. -/
theorem wraparound_scenario_rejected [Zero α] (a b d1 d2 : Nat → α) (fuel : Nat) :
    ∃ rb1, (construct 4 : RingBuffer α).write (fuel + 1) 3 a = .ok (true, rb1) ∧
      rb1.read (fuel + 1) 3 d1 0 = .ok (false, rb1, d1) ∧
      rb1.write (fuel + 1) 3 b = .ok (false, rb1) ∧
      rb1.read (fuel + 1) 3 d2 0 = .ok (false, rb1, d2) := by
  obtain ⟨d, e, _, hr, hw⟩ := write_fresh 4 3 a (by decide) (by decide)
  exact ⟨_, e fuel, read_reject fuel _ 3 d1 0 (by rw [hr]),
    write_reject fuel _ 3 b (by rw [hw]; decide), read_reject fuel _ 3 d2 0 (by rw [hr])⟩

/-- C18. FIFO order.  For every capacity `N >= 1` and every sequence of calls on a freshly
constructed buffer, the elements returned by the accepted reads, concatenated, are a prefix
of the elements handed to the accepted writes, concatenated; what is left of the written
elements is exactly what the buffer holds between the cursors, in order, so nothing
written is overwritten before it is read, lost, duplicated or reordered.  For `N <= 2^31`
every such sequence does run to completion. -/
theorem fifo_order [Zero α] (N : Nat) (h1 : 1 ≤ N) (hN : N < UINT_MOD) (fuel : Nat)
    (calls : List (Call α)) :
    (∀ h, run_history fuel ⟨(construct N : RingBuffer α), [], []⟩ calls = .ok h →
      h.consumed <+: h.written ∧ h.written = h.consumed ++ pending h.rb ∧
      (pending h.rb).length = h.rb.readable ∧ h.rb.readable < N) ∧
    (N ≤ 2 ^ 31 →
      ∃ h, run_history (fuel + 2) ⟨(construct N : RingBuffer α), [], []⟩ calls = .ok h) := by
  refine ⟨?_, fun h31 => total_run_history N fuel h31 calls _ (inv_construct N)⟩
  intro h e
  obtain ⟨a1, a2, a3, _⟩ := run_history_inv fuel calls ⟨construct N, [], []⟩ h
    (wf_construct N h1 hN) (by rw [pending_construct N h1 hN]; rfl) (fun hc => absurd rfl hc) e
  refine ⟨⟨pending h.rb, a3.symm⟩, a3, pending_length h.rb, ?_⟩
  have := readable_lt_len h.rb a1
  rw [a2] at this
  exact this

/-- Witness for C18: capacity 4, a write of 3, a read of 2, a write of 2 that wraps. -/
theorem fifo_order_witness :
    1 ≤ 4 ∧ 4 < UINT_MOD ∧
    ∃ h, run_history (0 + 2) ⟨(construct 4 : RingBuffer Int), [], []⟩
        [.write 3 sample_input, .read 2 sample_output, .write 2 sample_input] = .ok h :=
  ⟨by decide, by decide,
    (fifo_order 4 (by decide) (by decide) 0 _).2 (by decide)⟩

/-- C19. The buffer can never be drained.  In every state reached by calls on a freshly
constructed buffer of capacity `N >= 1`: once some written element exists (a write of
`n >= 1` elements was accepted), `readable() >= 1` and fewer elements have been returned by
reads than were written, so the most recently written element has not been returned;
`read(readable(), dst)` returns false and changes nothing; and `readable() <= N - 1` and
`writable() >= 1`. -/
theorem never_drained [Zero α] (N : Nat) (h1 : 1 ≤ N) (hN : N < UINT_MOD) (fuel : Nat)
    (calls : List (Call α)) (h : History α)
    (hrun : run_history fuel ⟨(construct N : RingBuffer α), [], []⟩ calls = .ok h)
    (f : Nat) (dst : Nat → α) :
    (h.written ≠ [] → 1 ≤ h.rb.readable) ∧
    (h.written ≠ [] → h.consumed.length < h.written.length) ∧
    h.rb.read (f + 1) h.rb.readable dst 0 = .ok (false, h.rb, dst) ∧
    h.rb.readable ≤ N - 1 ∧ 1 ≤ h.rb.writable := by
  obtain ⟨a1, a2, a3, a4⟩ := run_history_inv fuel calls ⟨construct N, [], []⟩ h
    (wf_construct N h1 hN) (by rw [pending_construct N h1 hN]; rfl) (fun hc => absurd rfl hc)
    hrun
  have hlt := readable_lt_len h.rb a1
  have hc := counts_cases h.rb a1
  have hl : h.rb.len = N := a2
  obtain ⟨_, _, w3, w4⟩ := a1
  refine ⟨a4, ?_, read_reject f h.rb _ dst 0 (le_refl _), by omega, by omega⟩
  intro hw
  have := a4 hw
  have hlen := congrArg List.length a3
  rw [List.length_append, pending_length] at hlen
  omega

/-- Witness for C19: capacity 4 after an accepted write of 3 elements. -/
theorem never_drained_witness :
    1 ≤ 4 ∧ 4 < UINT_MOD ∧
    run_history 2 ⟨(construct 4 : RingBuffer Int), [], []⟩ [.write 3 sample_input]
      = .ok ⟨⟨[sample_input 0, sample_input 1, sample_input 2, 0], 0, 3, 4, 0, 0⟩,
          [] ++ (List.range 3).map sample_input, []⟩ ∧
    (⟨[sample_input 0, sample_input 1, sample_input 2, 0], 0, 3, 4, 0, 0⟩ :
      RingBuffer Int).read (0 + 1) 3 sample_output 0
      = .ok (false, ⟨[sample_input 0, sample_input 1, sample_input 2, 0], 0, 3, 4, 0, 0⟩,
          sample_output) :=
  have hrun : run_history 2 ⟨(construct 4 : RingBuffer Int), [], []⟩ [.write 3 sample_input]
      = .ok ⟨⟨[sample_input 0, sample_input 1, sample_input 2, 0], 0, 3, 4, 0, 0⟩,
          [] ++ (List.range 3).map sample_input, []⟩ := rfl
  ⟨by decide, by decide, hrun,
    (never_drained 4 (by decide) (by decide) 2 [.write 3 sample_input] _ hrun 0
      sample_output).2.2.1⟩

/-- C20. For every capacity `N >= 1` below `2^31` and every state reached by calls on a
freshly constructed buffer, `getAmountWritten()` returns `(last_writeIdx - writeIdx) mod N`,
the snapshot minus the cursor, a value in `[0, N)`.  So when accepted writes totalling `k`
elements, `0 < k < N`, have followed the previous `getAmountWritten()`, the next one returns
`N - k`, which is `k` only when `2k == N`.  `getAmountRead()` does the same with the read
cursor and the elements returned by accepted reads. -/
theorem getAmount_complement [Zero α] (N : Nat) (h1 : 1 ≤ N) (h31 : N < 2 ^ 31)
    (fuel0 : Nat) (calls0 : List (Call α)) (rb : RingBuffer α)
    (hreach : (construct N : RingBuffer α).run fuel0 calls0 = .ok rb) :
    rb.getAmountWritten.1 = (((rb.last_writeIdx + N - rb.writeIdx) % N : Nat) : Int) ∧
    0 ≤ rb.getAmountWritten.1 ∧ rb.getAmountWritten.1 < N ∧
    rb.getAmountRead.1 = (((rb.last_readIdx + N - rb.readIdx) % N : Nat) : Int) ∧
    0 ≤ rb.getAmountRead.1 ∧ rb.getAmountRead.1 < N ∧
    (∀ fuel calls h, (∀ c ∈ calls, c.is_getAmountWritten = false) →
      run_history fuel ⟨rb.getAmountWritten.2, [], []⟩ calls = .ok h →
      0 < h.written.length → h.written.length < N →
      h.rb.getAmountWritten.1 = (N : Int) - h.written.length ∧
      (h.rb.getAmountWritten.1 = h.written.length ↔ 2 * h.written.length = N)) ∧
    (∀ fuel calls h, (∀ c ∈ calls, c.is_getAmountRead = false) →
      run_history fuel ⟨rb.getAmountRead.2, [], []⟩ calls = .ok h →
      0 < h.consumed.length → h.consumed.length < N →
      h.rb.getAmountRead.1 = (N : Int) - h.consumed.length ∧
      (h.rb.getAmountRead.1 = h.consumed.length ↔ 2 * h.consumed.length = N)) := by
  have hM : N < UINT_MOD := by simp only [UINT_MOD]; omega
  have hinv := inv_run N fuel0 calls0 _ rb (inv_construct N) hreach
  have hs := snap_run N fuel0 calls0 _ rb (inv_construct N)
    ⟨by show 0 < max N 1; omega, by show 0 < max N 1; omega⟩ hreach
  have hwf := inv_wf N rb hM h1 hinv
  obtain ⟨i1, i2, i3, i4⟩ := hinv
  have hw := getAmountWritten_mod rb N i1 (by omega) (by omega) (by omega)
  have hr := getAmountRead_mod rb N i1 (by omega) (by omega) (by omega)
  have hNpos : 0 < N := by omega
  refine ⟨hw, ?_, ?_, hr, ?_, ?_, ?_, ?_⟩
  · rw [hw]; exact Int.ofNat_nonneg _
  · rw [hw]; exact_mod_cast Nat.mod_lt _ hNpos
  · rw [hr]; exact Int.ofNat_nonneg _
  · rw [hr]; exact_mod_cast Nat.mod_lt _ hNpos
  · intro fuel calls h hq e hk0 hkN
    obtain ⟨a1, a2, a3, _, a5, _⟩ := run_history_cursors fuel rb.writeIdx rb.readIdx calls
      ⟨rb.getAmountWritten.2, [], []⟩ h hwf
      (by show rb.writeIdx = (rb.writeIdx + 0) % rb.len
          rw [Nat.add_zero, Nat.mod_eq_of_lt hwf.2.2.2])
      (by show rb.readIdx = (rb.readIdx + 0) % rb.len
          rw [Nat.add_zero, Nat.mod_eq_of_lt hwf.2.2.1]) e
    have a5 := a5 hq
    have hl : h.rb.len = N := a2.trans i1
    have hlw : h.rb.last_writeIdx = rb.writeIdx := a5
    have hwi : h.rb.writeIdx = (rb.writeIdx + h.written.length) % N := by
      rw [a3]
      show _ % rb.len = _
      rw [i1]
    rw [mod_two_cases _ _ (by omega)] at hwi
    have hv := getAmountWritten_val h.rb (by rw [hl]; omega) (by rw [hl]; exact hl ▸ a1.2.2.2)
      (by rw [hl, hlw]; omega)
    rw [hv, hlw, hl, hwi]
    constructor
    · split_ifs <;> omega
    · split_ifs <;> omega
  · intro fuel calls h hq e hk0 hkN
    obtain ⟨a1, a2, _, a4, _, a6⟩ := run_history_cursors fuel rb.writeIdx rb.readIdx calls
      ⟨rb.getAmountRead.2, [], []⟩ h hwf
      (by show rb.writeIdx = (rb.writeIdx + 0) % rb.len
          rw [Nat.add_zero, Nat.mod_eq_of_lt hwf.2.2.2])
      (by show rb.readIdx = (rb.readIdx + 0) % rb.len
          rw [Nat.add_zero, Nat.mod_eq_of_lt hwf.2.2.1]) e
    have a6 := a6 hq
    have hl : h.rb.len = N := a2.trans i1
    have hlr : h.rb.last_readIdx = rb.readIdx := a6
    have hri : h.rb.readIdx = (rb.readIdx + h.consumed.length) % N := by
      rw [a4]
      show _ % rb.len = _
      rw [i1]
    rw [mod_two_cases _ _ (by omega)] at hri
    have hv := getAmountRead_val h.rb (by rw [hl]; omega) (by rw [hl]; exact hl ▸ a1.2.2.1)
      (by rw [hl, hlr]; omega)
    rw [hv, hlr, hl, hri]
    constructor
    · split_ifs <;> omega
    · split_ifs <;> omega

/-- Witness for C20: capacity 8, the state after a write of 5 elements. -/
theorem getAmount_complement_witness :
    1 ≤ 8 ∧ 8 < 2 ^ 31 ∧
    (construct 8 : RingBuffer Int).run 2 [.write 5 sample_input]
      = .ok ⟨[sample_input 0, sample_input 1, sample_input 2, sample_input 3, sample_input 4,
          0, 0, 0], 0, 5, 8, 0, 0⟩ ∧
    (getAmountWritten (⟨[sample_input 0, sample_input 1, sample_input 2, sample_input 3,
      sample_input 4, 0, 0, 0], 0, 5, 8, 0, 0⟩ : RingBuffer Int)).1
      = (((0 + 8 - 5) % 8 : Nat) : Int) :=
  have hreach : (construct 8 : RingBuffer Int).run 2 [.write 5 sample_input]
      = .ok ⟨[sample_input 0, sample_input 1, sample_input 2, sample_input 3, sample_input 4,
          0, 0, 0], 0, 5, 8, 0, 0⟩ := rfl
  ⟨by decide, by decide, hreach,
    (getAmount_complement 8 (by decide) (by decide) 2 [.write 5 sample_input] _ hreach).1⟩

end RingBuffer

/-! ## The claims about the sample decoder -/

/-- C10 (the code outside the claimed range).  On every platform (either signedness of
`char`, either byte order, either size of `long`), for the sample bytes `0x80 0x80` and
width 2 the exact value returned by `convert_adc_sample` is `-511/512`, which is below
`-1/2`: the two bytes are read as a signed `short`, here `-32640`, before `32768` is
subtracted. -/
theorem convert_adc_sample_below_range (p : Platform) :
    convert_adc_sample p [128, 128, 0, 0] 2 = .ok (-511 / 512) ∧
      (-511 / 512 : ℚ) < -1 / 2 := by
  constructor
  · have hv : object_value p [128, 128] = 32896 := by
      unfold object_value
      cases p.big_endian <;> rfl
    have hl : load p [128, 128, 0, 0] 2 = .ok 32896 := by
      unfold load
      rw [if_pos (by decide)]
      exact congrArg _ hv
    unfold convert_adc_sample
    simp only [hl, signed_value]
    norm_num
  · norm_num

theorem load_one (p : Platform) (b : Nat) (rest : List Nat) (hb : b < 256) :
    load p (b :: rest) 1 = .ok b := by
  unfold load
  rw [if_pos (by simp)]
  have hv : object_value p [b] = b := by
    unfold object_value
    cases p.big_endian <;> simp [Nat.mod_eq_of_lt hb]
  exact congrArg _ hv

theorem load_two (p : Platform) (v : Nat) (rest : List Nat) (hv : v < 65536) :
    load p (encode16 p v ++ rest) 2 = .ok v := by
  unfold load encode16
  cases hp : p.big_endian
  · simp only [Bool.false_eq_true, if_false]
    rw [if_pos (by simp)]
    have h : object_value p [v % 256, v / 256] = v := by
      unfold object_value
      rw [hp]
      simp
      omega
    exact congrArg _ h
  · simp only [if_true]
    rw [if_pos (by simp)]
    have h : object_value p [v / 256, v % 256] = v := by
      unfold object_value
      rw [hp]
      simp
      omega
    exact congrArg _ h

/-- C11 (the code for width 1).  For a received byte `b` in `0..255`, `convert_adc_sample`
with width 1 returns `(c - 128)/256` where `c` is the value of the plain `char` that holds
the byte: `c = b` where `char` is unsigned, and `c = b - 256` for `b >= 128` where `char`
is signed.  So where `char` is signed, byte 128 gives `-1`, not `0`, and byte 255 gives
`-129/256`, not `127/256`; byte 0 gives `-1/2` everywhere. -/
theorem convert_adc_sample_width1 (p : Platform) (b : Nat) (rest : List Nat) (hb : b < 256) :
    convert_adc_sample p (b :: rest) 1
      = .ok ((((if p.char_signed = true ∧ 128 ≤ b then (b : Int) - 256 else (b : Int)) - 128
          : Int) : ℚ) / 256) ∧
    (p.char_signed = true → convert_adc_sample p (128 :: rest) 1 = .ok (-1)) ∧
    (p.char_signed = true → convert_adc_sample p (255 :: rest) 1 = .ok (-129 / 256)) ∧
    convert_adc_sample p (0 :: rest) 1 = .ok (-1 / 2) ∧
    (p.char_signed = false →
      convert_adc_sample p (b :: rest) 1 = .ok ((((b : Int) - 128 : Int) : ℚ) / 256)) := by
  have key : ∀ c : Nat, c < 256 → convert_adc_sample p (c :: rest) 1
      = .ok ((((if p.char_signed = true ∧ 128 ≤ c then (c : Int) - 256 else (c : Int)) - 128
          : Int) : ℚ) / 256) := by
    intro c hc
    unfold convert_adc_sample
    simp only [load_one p c rest hc, signed_value]
    cases p.char_signed
    · simp
    · by_cases h : c < 128
      · have h2 : ¬ 128 ≤ c := by omega
        simp [h, h2]
      · have h2 : 128 ≤ c := by omega
        simp [h, h2]
  refine ⟨key b hb, ?_, ?_, ?_, ?_⟩
  · intro hs
    rw [key 128 (by decide), hs]
    norm_num
  · intro hs
    rw [key 255 (by decide), hs]
    norm_num
  · rw [key 0 (by decide)]
    norm_num
  · intro hs
    rw [key b hb, hs]
    simp

/-- Witness for C11: byte 128 on a platform with signed `char`. -/
theorem convert_adc_sample_width1_witness :
    (128 : Nat) < 256 ∧
    convert_adc_sample ⟨true, false, 8⟩ (128 :: [0, 0, 0]) 1 = .ok (-1) :=
  ⟨by decide, (convert_adc_sample_width1 ⟨true, false, 8⟩ 128 [0, 0, 0] (by decide)).2.1 rfl⟩

/-- C12 (the code for width 2).  For two received bytes encoding, in the byte order of the
platform, the unsigned 16-bit value `v`, `convert_adc_sample` with width 2 returns
`(s - 32768)/65536` where `s` is the value of the signed `short` with that pattern: `s = v`
below 32768 and `s = v - 65536` from 32768 on.  So `v = 0` gives `-1/2`, but the midpoint
`v = 32768` (bytes `0x00 0x80` on a little-endian host) gives `-1`, not `0`. -/
theorem convert_adc_sample_width2 (p : Platform) (v : Nat) (rest : List Nat)
    (hv : v < 65536) :
    convert_adc_sample p (encode16 p v ++ rest) 2
      = .ok ((((if v < 32768 then (v : Int) else (v : Int) - 65536) - 32768 : Int) : ℚ)
          / 65536) ∧
    convert_adc_sample p (encode16 p 32768 ++ rest) 2 = .ok (-1) ∧
    convert_adc_sample p (encode16 p 0 ++ rest) 2 = .ok (-1 / 2) ∧
    (p.big_endian = false → convert_adc_sample p (0 :: 128 :: rest) 2 = .ok (-1)) := by
  have key : ∀ u : Nat, u < 65536 → convert_adc_sample p (encode16 p u ++ rest) 2
      = .ok ((((if u < 32768 then (u : Int) else (u : Int) - 65536) - 32768 : Int) : ℚ)
          / 65536) := by
    intro u hu
    unfold convert_adc_sample
    simp only [load_two p u rest hu, signed_value]
    norm_num
  refine ⟨key v hv, ?_, ?_, ?_⟩
  · rw [key 32768 (by decide)]
    norm_num
  · rw [key 0 (by decide)]
    norm_num
  · intro hl
    have h := key 32768 (by decide)
    simp only [encode16, hl] at h
    norm_num at h
    exact h

/-- Witness for C12: the midpoint pattern on a little-endian platform. -/
theorem convert_adc_sample_width2_witness :
    (32768 : Nat) < 65536 ∧
    convert_adc_sample ⟨true, false, 8⟩ (encode16 ⟨true, false, 8⟩ 32768 ++ [0, 0]) 2
      = .ok (-1) :=
  ⟨by decide, (convert_adc_sample_width2 ⟨true, false, 8⟩ 32768 [0, 0] (by decide)).2.1⟩
/-! ## The serial protocol: reads, the synchronisation window -/

theorem tty_read_one_some (tty : Tty) (b : Nat) (bs : List Nat)
    (h : deliverable tty.script = b :: bs) :
    ∃ tty1, tty_read tty 1 = (1, [b], tty1) ∧ deliverable tty1.script = bs ∧
      tty1.reads = tty.reads ++ [(1, 1)] ∧ tty1.sent = tty.sent := by
  unfold tty_read
  rw [if_neg (by decide)]
  cases hs : tty.script with
  | nil => rw [hs] at h; simp [deliverable] at h
  | cons ev rest =>
    rw [hs] at h
    cases ev with
    | error => simp [deliverable] at h
    | chunk cs =>
      cases cs with
      | nil => simp [deliverable] at h
      | cons c cs =>
        simp only [deliverable, List.cons_append, List.cons.injEq] at h
        obtain ⟨hc, ht⟩ := h
        subst hc
        cases cs with
        | nil =>
          simp only [List.nil_append] at ht
          exact ⟨{ tty with script := rest, reads := tty.reads ++ [(1, 1)] }, rfl, ht, rfl, rfl⟩
        | cons c2 cs =>
          refine ⟨{ tty with script := .chunk (c2 :: cs) :: rest,
                             reads := tty.reads ++ [(1, 1)] }, ?_, ?_, rfl, rfl⟩
          · simp
          · simpa [deliverable] using ht

theorem tty_read_one_none (tty : Tty) (h : deliverable tty.script = []) :
    ∃ r bytes tty1, tty_read tty 1 = (r, bytes, tty1) ∧ r ≠ 1 ∧
      tty1.reads = tty.reads ++ [(1, r)] ∧ tty1.sent = tty.sent := by
  unfold tty_read
  rw [if_neg (by decide)]
  cases hs : tty.script with
  | nil => exact ⟨-1, [], _, rfl, by decide, rfl, rfl⟩
  | cons ev rest =>
    rw [hs] at h
    cases ev with
    | error => exact ⟨-1, [], _, rfl, by decide, rfl, rfl⟩
    | chunk cs =>
      cases cs with
      | nil => exact ⟨0, [], _, rfl, by decide, rfl, rfl⟩
      | cons c cs => simp [deliverable] at h

theorem marker_suffix_iff (l : List Nat) :
    sync_marker <:+ l ↔
      (l.reverse.getD 0 0 = 0xba ∧ l.reverse.getD 1 0 = 0xad ∧ l.reverse.getD 2 0 = 0xf0 ∧
        l.reverse.getD 3 0 = 0x0d) := by
  rw [← List.reverse_prefix]
  generalize l.reverse = r
  have hm : sync_marker.reverse = [0xba, 0xad, 0xf0, 0x0d] := rfl
  rw [hm]
  match r with
  | [] => simp
  | [a] => simp
  | [a, b] => simp
  | [a, b, c] => simp
  | a :: b :: c :: d :: r =>
    simp [List.cons_prefix_cons]
    constructor
    · rintro ⟨h1, h2, h3, h4⟩
      exact ⟨h1.symm, h2.symm, h3.symm, h4.symm⟩
    · rintro ⟨h1, h2, h3, h4⟩
      exact ⟨h1.symm, h2.symm, h3.symm, h4.symm⟩


theorem wait_loop_step_found (flags : List Bool) (x0 x1 x2 x3 b : Nat) (tty tty1 : Tty)
    (hr : tty_read tty 1 = (1, [b], tty1))
    (hm : b = 0xba ∧ x0 = 0xad ∧ x1 = 0xf0 ∧ x2 = 0x0d) :
    wait_for_synchronization_loop (true :: flags) x0 x1 x2 x3 tty = (true, flags, tty1) := by
  simp only [wait_for_synchronization_loop, hr, List.headD_cons]
  rw [if_neg (by decide), if_pos hm]

theorem wait_loop_step_next (flags : List Bool) (x0 x1 x2 x3 b : Nat) (tty tty1 : Tty)
    (hr : tty_read tty 1 = (1, [b], tty1))
    (hm : ¬ (b = 0xba ∧ x0 = 0xad ∧ x1 = 0xf0 ∧ x2 = 0x0d)) :
    wait_for_synchronization_loop (true :: flags) x0 x1 x2 x3 tty
      = wait_for_synchronization_loop flags b x0 x1 x2 tty1 := by
  simp only [wait_for_synchronization_loop, hr, List.headD_cons]
  rw [if_neg (by decide), if_neg hm]

theorem wait_loop_step_fail (flags : List Bool) (x0 x1 x2 x3 : Nat) (tty tty1 : Tty)
    (r : Int) (bytes : List Nat) (hr : tty_read tty 1 = (r, bytes, tty1)) (hne : r ≠ 1) :
    wait_for_synchronization_loop (true :: flags) x0 x1 x2 x3 tty = (false, flags, tty1) := by
  simp only [wait_for_synchronization_loop, hr]
  rw [if_pos hne]

theorem window_snoc (pre : List Nat) (b : Nat) :
    (pre ++ [b]).reverse.getD 0 0 = b ∧
    (pre ++ [b]).reverse.getD 1 0 = pre.reverse.getD 0 0 ∧
    (pre ++ [b]).reverse.getD 2 0 = pre.reverse.getD 1 0 ∧
    (pre ++ [b]).reverse.getD 3 0 = pre.reverse.getD 2 0 := by
  simp

theorem flags_head_true (flags : List Bool) (h : flags[0]? = some true) :
    ∃ fl, flags = true :: fl := by
  cases flags with
  | nil => simp at h
  | cons f fl =>
    simp only [List.getElem?_cons_zero, Option.some.injEq] at h
    exact ⟨fl, by rw [h]⟩

theorem wait_loop_found :
    ∀ (k : Nat) (flags : List Bool) (pre : List Nat) (x3 : Nat) (tty : Tty),
      k + 1 ≤ (deliverable tty.script).length →
      sync_marker <:+ pre ++ (deliverable tty.script).take (k + 1) →
      (∀ j, 1 ≤ j → j < k + 1 → ¬ sync_marker <:+ pre ++ (deliverable tty.script).take j) →
      (∀ i, i < k + 1 → flags[i]? = some true) →
      ∃ tty1,
        wait_for_synchronization_loop flags (pre.reverse.getD 0 0) (pre.reverse.getD 1 0)
          (pre.reverse.getD 2 0) x3 tty = (true, flags.drop (k + 1), tty1) ∧
        tty1.reads = tty.reads ++ List.replicate (k + 1) (1, 1) ∧
        deliverable tty1.script = (deliverable tty.script).drop (k + 1) ∧
        tty1.sent = tty.sent := by
  intro k
  induction k with
  | zero =>
    intro flags pre x3 tty hk hm _ hf
    obtain ⟨fl, hfl⟩ := flags_head_true flags (hf 0 (by omega))
    subst hfl
    cases hd : deliverable tty.script with
    | nil => rw [hd] at hk; simp at hk
    | cons b bs =>
      obtain ⟨tty1, hr, hdel, hreads, hsent⟩ := tty_read_one_some tty b bs hd
      rw [hd] at hm
      simp only [List.take_succ_cons, List.take_zero] at hm
      have hw := (marker_suffix_iff (pre ++ [b])).mp hm
      obtain ⟨w0, w1, w2, w3⟩ := window_snoc pre b
      rw [w0, w1, w2, w3] at hw
      refine ⟨tty1, wait_loop_step_found fl _ _ _ x3 b tty tty1 hr hw, hreads, ?_, hsent⟩
      rw [hdel]
      rfl
  | succ k ih =>
    intro flags pre x3 tty hk hm hleast hf
    obtain ⟨fl, hfl⟩ := flags_head_true flags (hf 0 (by omega))
    subst hfl
    cases hd : deliverable tty.script with
    | nil => rw [hd] at hk; simp at hk
    | cons b bs =>
      obtain ⟨tty1, hr, hdel, hreads, hsent⟩ := tty_read_one_some tty b bs hd
      rw [hd] at hm hk hleast
      have hnot := hleast 1 (by omega) (by omega)
      simp only [List.take_succ_cons, List.take_zero] at hnot
      have hw : ¬ (b = 0xba ∧ pre.reverse.getD 0 0 = 0xad ∧ pre.reverse.getD 1 0 = 0xf0 ∧
          pre.reverse.getD 2 0 = 0x0d) := by
        intro hc
        apply hnot
        rw [marker_suffix_iff]
        obtain ⟨w0, w1, w2, w3⟩ := window_snoc pre b
        rw [w0, w1, w2, w3]
        exact hc
      rw [wait_loop_step_next fl _ _ _ x3 b tty tty1 hr hw]
      obtain ⟨w0, w1, w2, _⟩ := window_snoc pre b
      have := ih fl (pre ++ [b]) (pre.reverse.getD 2 0) tty1
        (by rw [hdel]; simp only [List.length_cons] at hk; omega)
        (by rw [hdel]; simpa [List.take_succ_cons] using hm)
        (by
          intro j hj1 hj2
          rw [hdel]
          have := hleast (j + 1) (by omega) (by omega)
          simpa [List.take_succ_cons] using this)
        (by
          intro i hi
          have := hf (i + 1) (by omega)
          simpa using this)
      rw [w0, w1, w2] at this
      obtain ⟨tty2, e, hreads2, hdel2, hsent2⟩ := this
      refine ⟨tty2, ?_, ?_, ?_, hsent2.trans hsent⟩
      · rw [e]
        rfl
      · rw [hreads2, hreads, List.append_assoc]
        rfl
      · rw [hdel2, hdel]
        rfl

theorem wait_loop_never :
    ∀ (n : Nat) (flags : List Bool) (pre : List Nat) (x3 : Nat) (tty : Tty),
      (deliverable tty.script).length = n →
      (∀ j, 1 ≤ j → j ≤ n → ¬ sync_marker <:+ pre ++ (deliverable tty.script).take j) →
      (∀ i, i < n + 1 → flags[i]? = some true) →
      ∃ (r : Int) (tty1 : Tty),
        wait_for_synchronization_loop flags (pre.reverse.getD 0 0) (pre.reverse.getD 1 0)
          (pre.reverse.getD 2 0) x3 tty = (false, flags.drop (n + 1), tty1) ∧
        r ≠ 1 ∧ tty1.reads = tty.reads ++ List.replicate n (1, 1) ++ [(1, r)] ∧
        tty1.sent = tty.sent := by
  intro n
  induction n with
  | zero =>
    intro flags pre x3 tty hn _ hf
    obtain ⟨fl, hfl⟩ := flags_head_true flags (hf 0 (by omega))
    subst hfl
    have hd : deliverable tty.script = [] := List.length_eq_zero.mp hn
    obtain ⟨r, bytes, tty1, hr, hne, hreads, hsent⟩ := tty_read_one_none tty hd
    exact ⟨r, tty1, wait_loop_step_fail fl _ _ _ x3 tty tty1 r bytes hr hne, hne,
      by rw [hreads]; simp, hsent⟩
  | succ n ih =>
    intro flags pre x3 tty hn hleast hf
    obtain ⟨fl, hfl⟩ := flags_head_true flags (hf 0 (by omega))
    subst hfl
    cases hd : deliverable tty.script with
    | nil => rw [hd] at hn; simp at hn
    | cons b bs =>
      obtain ⟨tty1, hr, hdel, hreads, hsent⟩ := tty_read_one_some tty b bs hd
      rw [hd] at hn hleast
      have hnot := hleast 1 (by omega) (by omega)
      simp only [List.take_succ_cons, List.take_zero] at hnot
      have hw : ¬ (b = 0xba ∧ pre.reverse.getD 0 0 = 0xad ∧ pre.reverse.getD 1 0 = 0xf0 ∧
          pre.reverse.getD 2 0 = 0x0d) := by
        intro hc
        apply hnot
        rw [marker_suffix_iff]
        obtain ⟨w0, w1, w2, w3⟩ := window_snoc pre b
        rw [w0, w1, w2, w3]
        exact hc
      rw [wait_loop_step_next fl _ _ _ x3 b tty tty1 hr hw]
      obtain ⟨w0, w1, w2, _⟩ := window_snoc pre b
      have := ih fl (pre ++ [b]) (pre.reverse.getD 2 0) tty1
        (by rw [hdel]; simp only [List.length_cons] at hn; omega)
        (by
          intro j hj1 hj2
          rw [hdel]
          have := hleast (j + 1) (by omega) (by omega)
          simpa [List.take_succ_cons] using this)
        (by
          intro i hi
          have := hf (i + 1) (by omega)
          simpa using this)
      rw [w0, w1, w2] at this
      obtain ⟨r, tty2, e, hne, hreads2, hsent2⟩ := this
      refine ⟨r, tty2, ?_, hne, ?_, hsent2.trans hsent⟩
      · rw [e]
        rfl
      · rw [hreads2, hreads]
        simp [List.replicate_succ]

/-! ## The serial protocol: one frame of samples -/

theorem tty_read_log (tty : Tty) (len : Nat) :
    (tty_read tty len).2.2.reads = tty.reads ++ [(len, (tty_read tty len).1)] ∧
    (tty_read tty len).2.2.sent = tty.sent := by
  unfold tty_read
  split
  · next h => subst h; exact ⟨rfl, rfl⟩
  · split
    · exact ⟨rfl, rfl⟩
    · exact ⟨rfl, rfl⟩
    · split <;> exact ⟨rfl, rfl⟩

theorem tty_read_length_le (tty : Tty) (len : Nat) :
    (tty_read tty len).2.1.length ≤ len := by
  unfold tty_read
  split
  · simp
  · split
    · simp
    · simp
    · split
      · next h => simpa using h
      · simp

theorem decode_frame_failed_read (p : Platform) (cfg : SerialConfig) (todo idx w : Nat)
    (data : List Nat) (tty : Tty) (fwd : List (List Nat × ℚ))
    (hw : cfg.channelWidths[idx]? = some w) (h4 : w ≤ 4)
    (hfail : (tty_read tty w).1 ≠ (w : Int)) :
    decode_frame p cfg (todo + 1) idx data tty fwd = .ok ((tty_read tty w).2.2, fwd) := by
  rw [decode_frame, hw]
  simp only
  have hb : ¬ 4 < (tty_read tty w).2.1.length :=
    Nat.not_lt.mpr (le_trans (tty_read_length_le tty w) h4)
  rw [if_neg hb, if_pos hfail]

theorem read_or_die_some (tty tty1 : Tty) (len : Nat) (bytes : List Nat)
    (h : read_or_die tty len = (some bytes, tty1)) :
    tty1.reads = tty.reads ++ [(len, (len : Int))] := by
  unfold read_or_die at h
  have hl := (tty_read_log tty len).1
  by_cases hr : (tty_read tty len).1 = (len : Int)
  · simp only [hr, ne_eq, not_true_eq_false, if_false, Prod.mk.injEq, Option.some.injEq] at h
    rw [← h.2, hl, hr]
  · simp [hr] at h

theorem read_or_die_none (tty tty1 : Tty) (len : Nat)
    (h : read_or_die tty len = (none, tty1)) :
    ∃ r : Int, r ≠ (len : Int) ∧ tty1.reads = tty.reads ++ [(len, r)] := by
  unfold read_or_die at h
  have hl := (tty_read_log tty len).1
  by_cases hr : (tty_read tty len).1 = (len : Int)
  · simp [hr] at h
  · simp only [ne_eq, hr, not_false_eq_true, if_true, Prod.mk.injEq, true_and] at h
    exact ⟨(tty_read tty len).1, hr, by rw [← h, hl]⟩

theorem all_complete_append {a b : List (Nat × Int)} (ha : all_complete a)
    (hb : all_complete b) : all_complete (a ++ b) := by
  intro e he
  rcases List.mem_append.mp he with h | h
  · exact ha e h
  · exact hb e h

theorem some_incomplete_append_right (a : List (Nat × Int)) {b : List (Nat × Int)}
    (hb : some_incomplete b) : some_incomplete (a ++ b) := by
  obtain ⟨e, he, hne⟩ := hb
  exact ⟨e, List.mem_append.mpr (Or.inr he), hne⟩

theorem all_complete_one (len : Nat) : all_complete [(len, (len : Int))] := by
  intro e he
  simp only [List.mem_singleton] at he
  rw [he]

theorem some_incomplete_one (len : Nat) (r : Int) (h : r ≠ (len : Int)) :
    some_incomplete [(len, r)] :=
  ⟨(len, r), by simp, h⟩

theorem not_both {log : List (Nat × Int)} (h : all_complete log) : ¬ some_incomplete log := by
  rintro ⟨e, he, hne⟩
  exact hne (h e he)

theorem wait_loop_log :
    ∀ (flags : List Bool) (x0 x1 x2 x3 : Nat) (tty : Tty) (b : Bool) (fl : List Bool)
      (tty1 : Tty),
      wait_for_synchronization_loop flags x0 x1 x2 x3 tty = (b, fl, tty1) →
      ∃ new, tty1.reads = tty.reads ++ new ∧ tty1.sent = tty.sent ∧
        (b = true → all_complete new)
  | [], _, _, _, _, tty, b, fl, tty1, h => by
    simp only [wait_for_synchronization_loop, Prod.mk.injEq] at h
    obtain ⟨hb, -, ht⟩ := h
    subst ht
    exact ⟨[], by simp, rfl, fun hc => (by rw [← hb] at hc; cases hc)⟩
  | false :: flags, _, _, _, _, tty, b, fl, tty1, h => by
    simp only [wait_for_synchronization_loop, Prod.mk.injEq] at h
    obtain ⟨hb, -, ht⟩ := h
    subst ht
    exact ⟨[], by simp, rfl, fun hc => (by rw [← hb] at hc; cases hc)⟩
  | true :: flags, x0, x1, x2, x3, tty, b, fl, tty1, h => by
    have hl := tty_read_log tty 1
    simp only [wait_for_synchronization_loop] at h
    split at h
    · next hne =>
      simp only [Prod.mk.injEq] at h
      obtain ⟨hb, -, ht⟩ := h
      subst ht
      exact ⟨_, hl.1, hl.2, fun hc => (by rw [← hb] at hc; cases hc)⟩
    · next heq =>
      have heq1 : (tty_read tty 1).1 = 1 := not_not.mp heq
      have hone : all_complete [(1, (tty_read tty 1).1)] := by
        rw [heq1]
        exact all_complete_one 1
      split at h
      · simp only [Prod.mk.injEq] at h
        obtain ⟨-, -, ht⟩ := h
        subst ht
        exact ⟨_, hl.1, hl.2, fun _ => hone⟩
      · obtain ⟨new, h1, h2, h3⟩ := wait_loop_log flags _ _ _ _ _ b fl tty1 h
        refine ⟨[(1, (tty_read tty 1).1)] ++ new, ?_, ?_, ?_⟩
        · rw [h1, hl.1, List.append_assoc]
        · rw [h2, hl.2]
        · intro hb
          exact all_complete_append hone (h3 hb)

theorem read_widths_log :
    ∀ (n : Nat) (tty : Tty) (acc : List Nat) (res : Option (List Nat)) (tty1 : Tty),
      read_widths n tty acc = (res, tty1) →
      ∃ new, tty1.reads = tty.reads ++ new ∧
        (res = none → some_incomplete new) ∧
        (∀ ws, res = some ws → all_complete new ∧ ws.length = acc.length + n)
  | 0, tty, acc, res, tty1, h => by
    simp only [read_widths, Prod.mk.injEq] at h
    obtain ⟨hr, ht⟩ := h
    subst ht
    refine ⟨[], by simp, ?_, ?_⟩
    · intro hc
      rw [← hr] at hc
      cases hc
    · intro ws hws
      rw [← hr] at hws
      cases hws
      exact ⟨fun e he => (by simp at he), rfl⟩
  | n + 1, tty, acc, res, tty1, h => by
    simp only [read_widths] at h
    cases hrd : read_or_die tty 1 with
    | mk o t =>
      rw [hrd] at h
      cases o with
      | none =>
        simp only [Prod.mk.injEq] at h
        obtain ⟨hr, ht⟩ := h
        subst ht
        obtain ⟨r, hne, hlog⟩ := read_or_die_none _ _ _ hrd
        refine ⟨_, hlog, fun _ => some_incomplete_one 1 r hne, ?_⟩
        intro ws hws
        rw [← hr] at hws
        cases hws
      | some bytes =>
        simp only at h
        have hlog := read_or_die_some _ _ _ _ hrd
        obtain ⟨new, h1, h2, h3⟩ := read_widths_log n t _ res tty1 h
        refine ⟨[(1, ((1 : Nat) : Int))] ++ new, ?_, ?_, ?_⟩
        · rw [h1, hlog, List.append_assoc]
        · intro hn
          exact some_incomplete_append_right _ (h2 hn)
        · intro ws hws
          obtain ⟨a, b⟩ := h3 ws hws
          refine ⟨all_complete_append (all_complete_one 1) a, ?_⟩
          rw [b]
          simp
          omega

theorem read_titles_log :
    ∀ (n : Nat) (tty : Tty) (acc : List (List Nat)),
      match read_titles n tty acc with
      | .error e => e = .outOfBounds
      | .ok (res, tty1) =>
        ∃ new, tty1.reads = tty.reads ++ new ∧
          (res = none → some_incomplete new) ∧
          (∀ ts, res = some ts → all_complete new ∧ ts.length = acc.length + n)
  | 0, tty, acc => by
    simp only [read_titles]
    refine ⟨[], by simp, fun hc => (by cases hc), ?_⟩
    intro ts hts
    cases hts
    exact ⟨fun e he => (by simp at he), rfl⟩
  | n + 1, tty, acc => by
    simp only [read_titles]
    cases hrd : read_or_die tty 1 with
    | mk o t =>
      cases o with
      | none =>
        simp only
        obtain ⟨r, hne, hlog⟩ := read_or_die_none _ _ _ hrd
        exact ⟨_, hlog, fun _ => some_incomplete_one 1 r hne, fun ts hts => (by cases hts)⟩
      | some bytes =>
        simp only
        have hlog := read_or_die_some _ _ _ _ hrd
        cases hrd2 : read_or_die t (bytes.headD 0) with
        | mk o2 t2 =>
          cases o2 with
          | none =>
            simp only
            obtain ⟨r, hne, hlog2⟩ := read_or_die_none _ _ _ hrd2
            refine ⟨[(1, ((1 : Nat) : Int))] ++ [(bytes.headD 0, r)], ?_, ?_, ?_⟩
            · rw [hlog2, hlog, List.append_assoc]
            · intro _
              exact some_incomplete_append_right _ (some_incomplete_one _ r hne)
            · intro ts hts
              cases hts
          | some temp =>
            simp only
            have hlog2 := read_or_die_some _ _ _ _ hrd2
            cases hc : c_string temp with
            | error e =>
              simp only
              unfold c_string at hc
              split at hc
              · cases hc
              · cases hc
                rfl
            | ok title =>
              simp only
              have ih := read_titles_log n t2 (acc ++ [title])
              cases hrt : read_titles n t2 (acc ++ [title]) with
              | error e =>
                rw [hrt] at ih
                exact ih
              | ok r =>
                obtain ⟨res, tty1⟩ := r
                rw [hrt] at ih
                simp only at ih ⊢
                obtain ⟨new, h1, h2, h3⟩ := ih
                refine ⟨[(1, ((1 : Nat) : Int))] ++ ([(bytes.headD 0, ((bytes.headD 0 : Nat) : Int))]
                  ++ new), ?_, ?_, ?_⟩
                · rw [h1, hlog2, hlog]
                  simp
                · intro hn
                  exact some_incomplete_append_right _
                    (some_incomplete_append_right _ (h2 hn))
                · intro ts hts
                  obtain ⟨a, b⟩ := h3 ts hts
                  refine ⟨all_complete_append (all_complete_one 1)
                    (all_complete_append (all_complete_one _) a), ?_⟩
                  rw [b]
                  simp
                  omega

theorem read_serial_config_log (flags : List Bool) (tty : Tty) :
    match read_serial_config flags tty with
    | .error e =>
      e = .outOfBounds ∧
        (wait_for_synchronization flags { tty with sent := tty.sent ++ [0xff] }).1 = true
    | .ok (res, fl, tty1) =>
      fl = (wait_for_synchronization flags { tty with sent := tty.sent ++ [0xff] }).2.1 ∧
      ∃ new, tty1.reads = tty.reads ++ new ∧
        (res = none →
          (wait_for_synchronization flags { tty with sent := tty.sent ++ [0xff] }).1 = false ∨
            some_incomplete new) ∧
        (∀ cfg, res = some cfg →
          (wait_for_synchronization flags { tty with sent := tty.sent ++ [0xff] }).1 = true ∧
          all_complete new ∧ cfg.channelWidths.length = cfg.numChannels ∧
          cfg.channelTitles.length = cfg.numChannels) := by
  unfold read_serial_config
  simp only
  cases hs : wait_for_synchronization flags { tty with sent := tty.sent ++ [0xff] } with
  | mk b r =>
    obtain ⟨fl1, t1⟩ := r
    obtain ⟨new0, hl0, -, hc0⟩ := wait_loop_log flags 0 0 0 0 _ b fl1 t1 hs
    have hl0 : t1.reads = tty.reads ++ new0 := hl0
    cases b with
    | false =>
      simp only
      exact ⟨trivial, new0, hl0, fun _ => Or.inl trivial, fun cfg hcfg => (by cases hcfg)⟩
    | true =>
      simp only
      have hc0 := hc0 rfl
      cases hrd : read_or_die t1 1 with
      | mk o t2 =>
        cases o with
        | none =>
          simp only
          obtain ⟨r, hne, hlog⟩ := read_or_die_none _ _ _ hrd
          refine ⟨trivial, new0 ++ [(1, r)], by rw [hlog, hl0, List.append_assoc], ?_, ?_⟩
          · intro _
            exact Or.inr (some_incomplete_append_right _ (some_incomplete_one 1 r hne))
          · intro cfg hcfg
            cases hcfg
        | some bytes =>
          simp only
          have hlog := read_or_die_some _ _ _ _ hrd
          cases hrw : read_widths (bytes.headD 0) t2 [] with
          | mk ow t3 =>
            obtain ⟨new2, hl2, hn2, hs2⟩ := read_widths_log _ _ _ _ _ hrw
            cases ow with
            | none =>
              simp only
              refine ⟨trivial, new0 ++ ([(1, ((1 : Nat) : Int))] ++ new2), ?_, ?_, ?_⟩
              · rw [hl2, hlog, hl0]
                simp
              · intro _
                exact Or.inr (some_incomplete_append_right _
                  (some_incomplete_append_right _ (hn2 rfl)))
              · intro cfg hcfg
                cases hcfg
            | some widths =>
              simp only
              obtain ⟨hc2, hlen2⟩ := hs2 widths rfl
              have ht := read_titles_log (bytes.headD 0) t3 []
              cases hrt : read_titles (bytes.headD 0) t3 [] with
              | error e =>
                rw [hrt] at ht
                exact ⟨ht, trivial⟩
              | ok r =>
                obtain ⟨ot, t4⟩ := r
                rw [hrt] at ht
                simp only at ht
                obtain ⟨new3, hl3, hn3, hs3⟩ := ht
                cases ot with
                | none =>
                  simp only
                  refine ⟨trivial, new0 ++ ([(1, ((1 : Nat) : Int))] ++ (new2 ++ new3)), ?_, ?_, ?_⟩
                  · rw [hl3, hl2, hlog, hl0]
                    simp
                  · intro _
                    exact Or.inr (some_incomplete_append_right _
                      (some_incomplete_append_right _
                        (some_incomplete_append_right _ (hn3 rfl))))
                  · intro cfg hcfg
                    cases hcfg
                | some titles =>
                  simp only
                  obtain ⟨hc3, hlen3⟩ := hs3 titles rfl
                  refine ⟨trivial, new0 ++ ([(1, ((1 : Nat) : Int))] ++ (new2 ++ new3)), ?_, ?_, ?_⟩
                  · rw [hl3, hl2, hlog, hl0]
                    simp
                  · intro hc
                    cases hc
                  · intro cfg hcfg
                    cases hcfg
                    refine ⟨trivial, all_complete_append hc0 (all_complete_append
                      (all_complete_one 1) (all_complete_append hc2 hc3)), ?_, ?_⟩
                    · simpa using hlen2
                    · simpa using hlen3

theorem read_serial_loop_with_config (p : Platform) (lines : Option (List (List Nat)))
    (flags fl : List Bool) (tty tty1 : Tty) (cfg : SerialConfig)
    (h : read_serial_config flags tty = .ok (some cfg, fl, tty1)) :
    (∃ e, read_serial_loop p lines flags tty = .error e) ∧
    (lines = none → 0 < cfg.numChannels →
      read_serial_loop p lines flags tty = .error .nullPointer) := by
  have key := read_serial_config_log flags tty
  rw [h] at key
  simp only at key
  obtain ⟨-, new, -, -, hs⟩ := key
  obtain ⟨-, -, -, hlen⟩ := hs cfg rfl
  constructor
  · simp only [read_serial_loop, h]
    cases setup_lines cfg lines cfg.numChannels 0 [] with
    | error e => exact ⟨e, rfl⟩
    | ok keys =>
      cases decode_loop p cfg fl tty1 [] with
      | error e => exact ⟨e, rfl⟩
      | ok r => exact ⟨.mismatchedDelete, rfl⟩
  · intro hnull hpos
    subst hnull
    obtain ⟨n, hn⟩ : ∃ n, cfg.numChannels = n + 1 := ⟨cfg.numChannels - 1, by omega⟩
    obtain ⟨t, ht⟩ : ∃ t, cfg.channelTitles[0]? = some t := by
      cases hc : cfg.channelTitles with
      | nil => rw [hc] at hlen; simp at hlen; omega
      | cons t ts => exact ⟨t, by simp⟩
    simp only [read_serial_loop, h, hn, setup_lines, ht]

/-! ## The claims about the serial protocol -/

/-- C13. With `should_run` seen true at every poll, let `bs` be the bytes that the
transport delivers to one-byte reads before a read fails.  If `k` is the least count such
that the first `k` bytes end with `0x0D 0xF0 0xAD 0xBA`, then `wait_for_synchronization`
returns true after exactly `k` reads of one byte, leaving the bytes after the `k`-th
unread, also when an incomplete or overlapping marker comes first.  If no prefix of `bs`
ends with the marker, it returns false, after reading all of `bs` and the failed read. -/
theorem wait_for_synchronization_least (flags : List Bool) (tty : Tty) (k : Nat) :
    (k ≤ (deliverable tty.script).length →
      sync_marker <:+ (deliverable tty.script).take k →
      (∀ j, j < k → ¬ sync_marker <:+ (deliverable tty.script).take j) →
      (∀ i, i < k → flags[i]? = some true) →
      ∃ tty1, wait_for_synchronization flags tty = (true, flags.drop k, tty1) ∧
        tty1.reads = tty.reads ++ List.replicate k (1, 1) ∧
        deliverable tty1.script = (deliverable tty.script).drop k ∧
        tty1.sent = tty.sent) ∧
    ((∀ j, j ≤ (deliverable tty.script).length →
        ¬ sync_marker <:+ (deliverable tty.script).take j) →
      (∀ i, i < (deliverable tty.script).length + 1 → flags[i]? = some true) →
      ∃ (r : Int) (tty1 : Tty),
        wait_for_synchronization flags tty
          = (false, flags.drop ((deliverable tty.script).length + 1), tty1) ∧
        r ≠ 1 ∧
        tty1.reads = tty.reads ++ List.replicate (deliverable tty.script).length (1, 1)
          ++ [(1, r)] ∧
        tty1.sent = tty.sent) := by
  constructor
  · intro hk hm hleast hf
    cases k with
    | zero =>
      exfalso
      simp only [List.take_zero] at hm
      have := List.IsSuffix.length_le hm
      simp [sync_marker] at this
    | succ k =>
      have := wait_loop_found k flags [] 0 tty hk (by simpa using hm)
        (by intro j _ hj; simpa using hleast j hj) hf
      simpa [wait_for_synchronization] using this
  · intro hleast hf
    have := wait_loop_never (deliverable tty.script).length flags [] 0 tty rfl
      (by intro j _ hj; simpa using hleast j hj) hf
    simpa [wait_for_synchronization] using this

theorem wait_for_synchronization_least_witness :
    (∃ tty1, wait_for_synchronization [true, true, true, true, true, true]
        ⟨[.chunk [0x00, 0x0d, 0xf0], .chunk [0xad, 0xba, 0x11]], [], []⟩ = (true, [true], tty1) ∧
      tty1.reads = [(1, 1), (1, 1), (1, 1), (1, 1), (1, 1)] ∧
      deliverable tty1.script = [0x11] ∧ tty1.sent = []) ∧
    (∃ (r : Int) (tty1 : Tty), wait_for_synchronization [true, true, true, true]
        ⟨[.chunk [0x0d, 0xf0], .error, .chunk [0xad, 0xba]], [], []⟩ = (false, [true], tty1) ∧
      r ≠ 1 ∧ tty1.reads = [(1, 1), (1, 1), (1, r)] ∧ tty1.sent = []) :=
  ⟨(wait_for_synchronization_least [true, true, true, true, true, true]
      ⟨[.chunk [0x00, 0x0d, 0xf0], .chunk [0xad, 0xba, 0x11]], [], []⟩ 5).1
      (by decide) (by decide) (by decide) (by decide),
   (wait_for_synchronization_least [true, true, true, true]
      ⟨[.chunk [0x0d, 0xf0], .error, .chunk [0xad, 0xba]], [], []⟩ 0).2
      (by decide) (by decide)⟩

/-- C14 (what the code does with a title).  The title bytes pass through a `char *` that is
assigned to a `std::string`, so a title is cut at its first zero byte and a title without a
zero byte is read past the end of its array.  After the marker, the configuration bytes
`01 01 03 41 00 42` (one channel of width 1, title of the three bytes `41 00 42`) are all
consumed, but `channelTitles[0]` is the single byte `41`; the bytes `01 01 01 41` (title
`41`, one byte) make the assignment read past the one-byte array. -/
theorem read_serial_config_title_c_string :
    read_serial_config [true, true, true, true]
        ⟨[.chunk [0x0d, 0xf0, 0xad, 0xba, 0x01, 0x01, 0x03, 0x41, 0x00, 0x42]], [], []⟩
      = .ok (some ⟨1, [1], [[0x41]]⟩, [],
          ⟨[], [(1, 1), (1, 1), (1, 1), (1, 1), (1, 1), (1, 1), (1, 1), (3, 3)], [0xff]⟩) ∧
    read_serial_config [true, true, true, true]
        ⟨[.chunk [0x0d, 0xf0, 0xad, 0xba, 0x01, 0x01, 0x01, 0x41]], [], []⟩
      = .error .outOfBounds :=
  ⟨rfl, rfl⟩

/-- C15. For every transport and every sequence of polls on which `read_serial_config`
completes: it returns `NULL` exactly when synchronization was not achieved or one of its
reads (count, a width, a title length, a title) failed or was short; a configuration that
it returns has `numChannels` widths and `numChannels` titles; and after `NULL`,
`read_serial_loop` returns with the device as `read_serial_config` left it, so without a
sample read, and with no sample forwarded.  Without synchronization the result is always
`NULL`, and so it is after synchronization when the read of the count or of a width fails
or is short.  The one way not to complete is the out-of-bounds read of the assignment of a
title without a zero byte, which comes only after synchronization. -/
theorem read_serial_config_null (p : Platform) (lines : Option (List (List Nat)))
    (flags : List Bool) (tty : Tty) :
    (∀ fl tty1, read_serial_config flags tty = .ok (none, fl, tty1) →
      read_serial_loop p lines flags tty = .ok (fl, tty1, [])) ∧
    (∀ res fl tty1, read_serial_config flags tty = .ok (res, fl, tty1) →
      ∃ new, tty1.reads = tty.reads ++ new ∧
        (res = none ↔
          ((wait_for_synchronization flags { tty with sent := tty.sent ++ [0xff] }).1 = false ∨
            some_incomplete new)) ∧
        (∀ cfg, res = some cfg → cfg.channelWidths.length = cfg.numChannels ∧
          cfg.channelTitles.length = cfg.numChannels)) ∧
    ((wait_for_synchronization flags { tty with sent := tty.sent ++ [0xff] }).1 = false →
      ∃ fl tty1, read_serial_config flags tty = .ok (none, fl, tty1)) ∧
    (∀ e, read_serial_config flags tty = .error e → e = .outOfBounds ∧
      (wait_for_synchronization flags { tty with sent := tty.sent ++ [0xff] }).1 = true) ∧
    (∀ fl t1,
      wait_for_synchronization flags { tty with sent := tty.sent ++ [0xff] } = (true, fl, t1) →
      ((tty_read t1 1).1 ≠ 1 →
        read_serial_config flags tty = .ok (none, fl, (tty_read t1 1).2.2)) ∧
      (∀ bytes t2 t3, read_or_die t1 1 = (some bytes, t2) →
        read_widths (bytes.headD 0) t2 [] = (none, t3) →
        read_serial_config flags tty = .ok (none, fl, t3))) := by
  have key := read_serial_config_log flags tty
  refine ⟨?_, ?_, ?_, ?_, ?_⟩
  · intro fl tty1 h
    simp only [read_serial_loop, h]
  · intro res fl tty1 h
    rw [h] at key
    simp only at key
    obtain ⟨-, new, hl, hn, hs⟩ := key
    refine ⟨new, hl, ⟨hn, ?_⟩, fun cfg hcfg => (hs cfg hcfg).2.2⟩
    intro hor
    cases res with
    | none => rfl
    | some cfg =>
      obtain ⟨a, b, -⟩ := hs cfg rfl
      rcases hor with hor | hor
      · rw [a] at hor
        cases hor
      · exact absurd hor (not_both b)
  · intro hf
    cases hr : read_serial_config flags tty with
    | error e =>
      rw [hr] at key
      simp only at key
      rw [hf] at key
      cases key.2
    | ok r =>
      obtain ⟨res, fl, tty1⟩ := r
      rw [hr] at key
      simp only at key
      obtain ⟨-, new, -, -, hs⟩ := key
      cases res with
      | none => exact ⟨fl, tty1, rfl⟩
      | some cfg =>
        have := (hs cfg rfl).1
        rw [hf] at this
        cases this
  · intro e h
    rw [h] at key
    exact key
  · intro fl t1 hs
    constructor
    · intro hne
      have hrd : read_or_die t1 1 = (none, (tty_read t1 1).2.2) := by
        unfold read_or_die
        simp only [Nat.cast_one]
        rw [if_pos hne]
      simp only [read_serial_config, hs, hrd]
    · intro bytes t2 t3 hrd hrw
      simp only [read_serial_config, hs, hrd, hrw]

theorem read_serial_config_null_witness :
    read_serial_config [true, true, true, true, true]
        ⟨[.chunk [0x0d, 0xf0, 0xad, 0xba, 0x02, 0x01]], [], []⟩
      = .ok (none, [true],
          ⟨[], [(1, 1), (1, 1), (1, 1), (1, 1), (1, 1), (1, 1), (1, -1)], [0xff]⟩) ∧
    read_serial_loop ⟨true, false, 8⟩ none [true, true, true, true, true]
        ⟨[.chunk [0x0d, 0xf0, 0xad, 0xba, 0x02, 0x01]], [], []⟩
      = .ok ([true],
          ⟨[], [(1, 1), (1, 1), (1, 1), (1, 1), (1, 1), (1, 1), (1, -1)], [0xff]⟩, []) :=
  ⟨rfl, (read_serial_config_null ⟨true, false, 8⟩ none [true, true, true, true, true]
    ⟨[.chunk [0x0d, 0xf0, 0xad, 0xba, 0x02, 0x01]], [], []⟩).1 _ _ rfl⟩

/-- C16 (what the code does).  A failed or short sample read leaves only the `for` loop
over the channels: the `while (should_run)` loop polls the flag again and, while it is
true, starts a new frame at channel 0.  For every configuration whose first channel has a
width of at most 4 bytes, when the first read of a frame fails the loop goes on from the
next poll with the device as the failed read left it.  So with one channel of width 1
titled `A`, a transport whose first read fails and whose second delivers the byte `0x40`,
and the flag true at two polls, a second read is issued after the failed one and the
sample `-1/4` is forwarded to `A`. -/
theorem decode_loop_goes_on_after_failed_read (p : Platform) (cfg : SerialConfig) (w : Nat)
    (flags : List Bool) (tty : Tty) (fwd : List (List Nat × ℚ))
    (hc : 0 < cfg.numChannels) (hw : cfg.channelWidths[0]? = some w) (h4 : w ≤ 4)
    (hfail : (tty_read tty w).1 ≠ (w : Int)) :
    decode_loop p cfg (true :: flags) tty fwd = decode_loop p cfg flags (tty_read tty w).2.2 fwd ∧
    decode_loop p ⟨1, [1], [[0x41]]⟩ [true, true] ⟨[.error, .chunk [0x40]], [], []⟩ []
      = .ok ([], ⟨[], [(1, -1), (1, 1)], []⟩, [([0x41], -1 / 4)]) := by
  constructor
  · obtain ⟨n, hn⟩ : ∃ n, cfg.numChannels = n + 1 := ⟨cfg.numChannels - 1, by omega⟩
    rw [decode_loop, hn, decode_frame_failed_read p cfg n 0 w _ tty fwd hw h4 hfail]
  · have h1 : decode_frame p ⟨1, [1], [[0x41]]⟩ 1 0 [0, 0, 0, 0]
        ⟨[.error, .chunk [0x40]], [], []⟩ []
        = .ok (⟨[.chunk [0x40]], [(1, -1)], []⟩, []) :=
      decode_frame_failed_read p ⟨1, [1], [[0x41]]⟩ 0 0 1 _ _ [] rfl (by decide) (by decide)
    have hv : convert_adc_sample p [0x40, 0, 0, 0] 1 = .ok (-1 / 4) := by
      unfold convert_adc_sample
      simp only [load_one p 0x40 [0, 0, 0] (by decide), signed_value]
      cases p.char_signed <;> norm_num
    have h2 : decode_frame p ⟨1, [1], [[0x41]]⟩ 1 0 [0, 0, 0, 0]
        ⟨[.chunk [0x40]], [(1, -1)], []⟩ []
        = .ok (⟨[], [(1, -1), (1, 1)], []⟩, [([0x41], -1 / 4)]) := by
      have e : tty_read ⟨[.chunk [0x40]], [(1, -1)], []⟩ 1
          = (1, [0x40], ⟨[], [(1, -1), (1, 1)], []⟩) := rfl
      rw [decode_frame]
      simp only [List.getElem?_cons_zero, e]
      rw [if_neg (by decide), if_neg (by decide)]
      simp only [List.length_cons, List.length_nil, List.drop_succ_cons, List.drop_zero,
        List.cons_append, List.nil_append]
      rw [hv]
      simp only [decode_frame]
    rw [decode_loop, h1]
    simp only
    rw [decode_loop, h2]
    simp only
    rfl

theorem decode_loop_goes_on_after_failed_read_witness :
    0 < (⟨1, [1], [[0x41]]⟩ : SerialConfig).numChannels ∧
    decode_loop ⟨true, false, 8⟩ ⟨1, [1], [[0x41]]⟩ [true, true]
        ⟨[.error, .chunk [0x40]], [], []⟩ []
      = decode_loop ⟨true, false, 8⟩ ⟨1, [1], [[0x41]]⟩ [true]
          ⟨[.chunk [0x40]], [(1, -1)], []⟩ [] :=
  ⟨by decide, (decode_loop_goes_on_after_failed_read ⟨true, false, 8⟩ ⟨1, [1], [[0x41]]⟩ 1
    [true] ⟨[.error, .chunk [0x40]], [], []⟩ [] (by decide) rfl (by decide) (by decide)).1⟩

end SerialPlot
